import Mathlib

set_option linter.unusedVariables false

/-!
# Memory-Allocator: a shallow embedding of `alignment_utils.c`, `allocator.c`, `osmem.c`

The block list that the C code threads through memory (`heap_head`, `next`) is
a `List Block`, in list order; a `struct block_meta *` is the position of the
block in that list, and the header address is kept in the block (`addr`).
`size_t` values and addresses are natural numbers below `2^64` and every
`size_t` operation is taken modulo `2^64`; a cast to `int` is `toInt32`.
A call that does not return, because it dereferences a null block pointer or
because `DIE` ends the process, is the result `none`.  The operating system
is outside the sources: `brk` sets the program break, `sbrk` moves it, `mmap`
hands out the next free mapping address and zero-fills the mapping, except for
the lengths of `mmap_refuses`.
-/

namespace MemoryAllocator

/-! ## Machine arithmetic -/

/-- Number of values of a `size_t` (64-bit target). -/
def WORD : Nat := 18446744073709551616

/-- Addition of `size_t` values. -/
def wadd (a b : Nat) : Nat := (a + b) % 18446744073709551616

/-- Subtraction of `size_t` values. -/
def wsub (a b : Nat) : Nat := (a + (18446744073709551616 - b % 18446744073709551616)) % 18446744073709551616

/-- Conversion of a `size_t` to `int` (32-bit two's complement). -/
def toInt32 (n : Nat) : Int :=
  if n % 4294967296 < 2147483648 then ((n % 4294967296 : Nat) : Int)
  else ((n % 4294967296 : Nat) : Int) - 4294967296

/-- Conversion of an `int` to `size_t`. -/
def toSizeT (i : Int) : Nat := (i % 18446744073709551616).toNat

/-! ## alignment_utils -/

def ALIGNMENT : Nat := 8

def MMAP_THRESHOLD : Nat := 128 * 1024

/-- The function `align` of `alignment_utils.c`; the result is an `int`. -/
def align (size : Nat) : Int :=
  if size % ALIGNMENT = 0 then toInt32 size
  else toInt32 (((size / ALIGNMENT + 1) * ALIGNMENT) % 18446744073709551616)

/-- Modelled from the spec: `helpers.h` is not among the sources; the header
holds `size` (8 bytes), `status` (an `int`, padded to 8) and `next` (8 bytes). -/
def sizeof_block_meta : Nat := 24

/-- Modelled from the spec: the status values of `helpers.h`. -/
def STATUS_FREE : Nat := 0

/-- Modelled from the spec: the status values of `helpers.h`. -/
def STATUS_ALLOC : Nat := 1

/-- Modelled from the spec: the status values of `helpers.h`. -/
def STATUS_MAPPED : Nat := 2

/-- Modelled from the spec: the system page size returned by `getpagesize()`. -/
def getpagesize : Nat := 4096

def get_block_meta_size : Int := align sizeof_block_meta

/-- The header size as it enters `size_t` and pointer arithmetic. -/
def META : Nat := toSizeT get_block_meta_size

/-! ## Data model -/

/-- A block header (`struct block_meta`) together with its address. -/
structure Block where
  addr : Nat
  size : Nat
  status : Nat
deriving DecidableEq, Repr

/-- The allocator state: the list from `heap_head`, the flag `initialised`,
the program break, the address of the next anonymous mapping, and the bytes of
memory. -/
structure Heap where
  blocks : List Block
  initialised : Nat
  brk : Nat
  next_map : Nat
  mem : Nat → Nat

/-- The null pointer. -/
def NULL : Nat := 0

/-! ## Memory primitives -/

/-- The call `memcpy(dst, src, n)` (also `memmove`). -/
def memcpy (mem : Nat → Nat) (dst src n : Nat) : Nat → Nat :=
  fun a => if dst ≤ a ∧ a < dst + n then mem (src + (a - dst)) else mem a

/-- Writing zero bytes to `[dst, dst + n)`. -/
def zero_fill (mem : Nat → Nat) (dst n : Nat) : Nat → Nat :=
  fun a => if dst ≤ a ∧ a < dst + n then 0 else mem a

/-! ## List primitives -/

/-- Apply `f` to the block at position `i`. -/
def modifyAt (f : Block → Block) : List Block → Nat → List Block
  | [], _ => []
  | b :: rest, 0 => f b :: rest
  | b :: rest, i + 1 => b :: modifyAt f rest i

/-- Link `new` right after the block at position `i`. -/
def insertAfter (new : Block) : List Block → Nat → List Block
  | [], _ => []
  | b :: rest, 0 => b :: new :: rest
  | b :: rest, i + 1 => b :: insertAfter new rest i

/-- The function `split_block`, on the block at position `i`. -/
def split_block : List Block → Nat → Nat → List Block
  | [], _, _ => []
  | b :: rest, 0, size =>
      { b with size := size, status := STATUS_ALLOC } ::
      { addr := wadd (wadd b.addr size) META,
        size := wsub (wsub b.size size) META,
        status := STATUS_FREE } :: rest
  | b :: rest, i + 1, size => b :: split_block rest i size

/-- The loops of `coalesce`, started at `block_current` with the rest of the
list: a `FREE` current block absorbs its `FREE` successor (the inner loop adds
`size + header` to `total_size`), otherwise the walk moves on. -/
def coalesce_loop (cur : Block) : List Block → List Block
  | [] => [cur]
  | nxt :: rest =>
      if cur.status = STATUS_FREE ∧ nxt.status = STATUS_FREE then
        coalesce_loop { cur with size := wadd cur.size (wadd nxt.size META) } rest
      else cur :: coalesce_loop nxt rest

/-- The function `coalesce`. -/
def coalesce : List Block → List Block
  | [] => []
  | b :: rest => coalesce_loop b rest

/-- The function `find_block`: the position of the first block at `adr`. -/
def find_block : List Block → Nat → Option Nat
  | [], _ => none
  | b :: rest, adr => if b.addr = adr then some 0 else (find_block rest adr).map (· + 1)

/-- The function `delete_node`: unlink the block at position `i`. -/
def delete_node : List Block → Nat → List Block
  | [], _ => []
  | _ :: rest, 0 => rest
  | b :: rest, i + 1 => b :: delete_node rest i

/-! ## allocator.c -/

/-- The walk `while (next != NULL && next->status != STATUS_MAPPED)` from
`heap_head`: the position of the last block before the first `MAPPED`
successor (used by `add_new_alloced_block`, `find_last`, `move_block_realloc`
and `try_realloc_expanding`). -/
def last_alloced_idx : List Block → Nat
  | [] => 0
  | [_] => 0
  | _ :: nxt :: rest =>
      if nxt.status = STATUS_MAPPED then 0 else last_alloced_idx (nxt :: rest) + 1

/-- Length of a mapping of `len` bytes, in whole pages. -/
def map_span (len : Nat) : Nat := ((len + (getpagesize - 1)) / getpagesize) * getpagesize

/-- The lengths for which `mmap` returns `MAP_FAILED`: a length of zero, and a
length that no user address space holds (half of the 64-bit address space and
more).  The system call is outside the sources; every other length is taken to
be granted. -/
def mmap_refuses (len : Nat) : Prop := len = 0 ∨ len ≥ 9223372036854775808

instance (len : Nat) : Decidable (mmap_refuses len) :=
  inferInstanceAs (Decidable (len = 0 ∨ len ≥ 9223372036854775808))

/-- The function `add_new_mapped_block`; `none` when `mmap` fails and `DIE`
ends the process. -/
def add_new_mapped_block (s : Heap) (size : Nat) : Option (Nat × Heap) :=
  if mmap_refuses (wadd size META) then none
  else
    let new_mem := s.next_map
    let new_block : Block := { addr := new_mem, size := size, status := STATUS_MAPPED }
    let mem1 := zero_fill s.mem new_mem (wadd size META)
    let next1 := new_mem + map_span (wadd size META)
    match s.blocks with
    | [] =>
        some (wadd new_mem META,
          { s with blocks := [new_block], initialised := 1, next_map := next1, mem := mem1 })
    | b :: rest =>
        some (wadd new_mem META,
          { s with blocks := (b :: rest) ++ [new_block], next_map := next1, mem := mem1 })

/-- The scan of `find_best_fit` (and of `find_free_block_realloc`): `i` is the
position of `ptr`, `best` the best fit so far. -/
def best_fit_loop (size : Nat) : List Block → Nat → Option (Nat × Block) → Option (Nat × Block)
  | [], _, best => best
  | ptr :: rest, i, best =>
      if ptr.status = STATUS_FREE ∧ ptr.size ≥ size then
        match best with
        | some (j, b) =>
            if b.size > ptr.size then best_fit_loop size rest (i + 1) (some (i, ptr))
            else best_fit_loop size rest (i + 1) (some (j, b))
        | none => best_fit_loop size rest (i + 1) (some (i, ptr))
      else best_fit_loop size rest (i + 1) best

/-- The function `find_best_fit`: the position of the chosen block (`none` for
`NULL`) and the new state. -/
def find_best_fit (s : Heap) (size : Nat) : Option Nat × Heap :=
  let bs := coalesce s.blocks
  match best_fit_loop size bs 0 none with
  | none => (none, { s with blocks := bs })
  | some (i, best_fit) =>
      if toInt32 (wsub best_fit.size size) > get_block_meta_size then
        (some i, { s with blocks := split_block bs i size })
      else
        (some i, { s with blocks := modifyAt (fun b => { b with status := STATUS_ALLOC }) bs i })

/-- The function `add_new_alloced_block`; `none` when `heap_head` is `NULL`
although `initialised` is set (the walk reads `last_alloced_block->next`). -/
def add_new_alloced_block (s : Heap) (size : Nat) : Option (Nat × Heap) :=
  if s.initialised ≠ 0 then
    let i := last_alloced_idx s.blocks
    match s.blocks[i]? with
    | none => none
    | some last =>
        if last.status = STATUS_FREE then
          let remaining_size := toSizeT (align (wsub size last.size))
          let new_mem := wadd (wadd (wadd last.addr last.size) META) remaining_size
          some (wadd last.addr META,
            { s with
              blocks := modifyAt (fun b => { b with status := STATUS_ALLOC, size := size }) s.blocks i,
              brk := new_mem })
        else if last.status = STATUS_MAPPED then
          let start := s.brk
          let new : Block := { addr := start, size := size, status := MMAP_THRESHOLD }
          some (wadd start META,
            { s with blocks := new :: s.blocks.drop i, brk := wadd start MMAP_THRESHOLD })
        else
          let new_mem := wadd (wadd (wadd last.addr last.size) size) (toSizeT (2 * get_block_meta_size))
          let new_block : Block :=
            { addr := wadd (wadd last.addr last.size) META, size := size, status := STATUS_ALLOC }
          some (wadd new_block.addr META,
            { s with blocks := insertAfter new_block s.blocks i, brk := new_mem })
  else
    let start := s.brk
    let head : Block :=
      { addr := start, size := toSizeT ((MMAP_THRESHOLD : Int) - get_block_meta_size),
        status := STATUS_ALLOC }
    let bs := if wadd size (toSizeT (2 * get_block_meta_size)) < MMAP_THRESHOLD
      then split_block [head] 0 size else [head]
    some (wadd start META,
      { s with blocks := bs, initialised := 1, brk := wadd start MMAP_THRESHOLD })

/-- The function `add_new_block_calloc`. -/
def add_new_block_calloc (s : Heap) (size : Nat) : Option (Nat × Heap) :=
  if toInt32 (wadd size META) ≥ toInt32 getpagesize then add_new_mapped_block s size
  else add_new_alloced_block s size

/-- The function `add_new_block`. -/
def add_new_block (s : Heap) (size : Nat) : Option (Nat × Heap) :=
  if size ≥ MMAP_THRESHOLD then add_new_mapped_block s size
  else add_new_alloced_block s size

/-- The inner loop of `coalesce_realloc`: `total` is `total_size`, the list
starts at `block_next`; the result is the final `total_size` and the new
successors of the block. -/
def coalesce_realloc_loop (size : Nat) (total : Nat) : List Block → Nat × List Block
  | [] => (total, [])
  | nxt :: rest =>
      if nxt.status = STATUS_FREE then
        if rest.isEmpty ∨ wadd total (wadd nxt.size META) ≥ size then
          (wadd total (wadd nxt.size META), rest)
        else coalesce_realloc_loop size (wadd total (wadd nxt.size META)) rest
      else (total, nxt :: rest)

/-- The function `coalesce_realloc`, on the list that starts at `block` (the
empty list is `block == NULL`). -/
def coalesce_realloc (size : Nat) : List Block → List Block
  | [] => []
  | cur :: rest =>
      if cur.status = STATUS_FREE then
        { cur with size := (coalesce_realloc_loop size cur.size rest).1 } ::
          (coalesce_realloc_loop size cur.size rest).2
      else cur :: rest

/-- The function `try_realloc_expanding` for the block at position `i`: the new
list and the block returned (`none` for `NULL`). -/
def try_realloc_expanding (bs : List Block) (i : Nat) (block : Block) (size : Nat) :
    List Block × Option Nat :=
  let bs1 := bs.take (i + 1) ++
    coalesce_realloc (wsub (wsub size block.size) META) (bs.drop (i + 1))
  let last_block := last_alloced_idx bs1
  match bs1[i + 1]? with
  | some next_block =>
      if wadd (wadd block.size next_block.size) META ≥ size ∧ next_block.status = STATUS_FREE then
        (bs1, some (i + 1))
      else if i = last_block then (bs1, some last_block)
      else (bs1, none)
  | none => if i = last_block then (bs1, some last_block) else (bs1, none)

/-- The function `expand_last_block_realloc`. -/
def expand_last_block_realloc (s : Heap) (i : Nat) (block : Block) (size : Nat) : Nat × Heap :=
  (wadd block.addr META,
    { s with
      blocks := modifyAt (fun b => { b with status := STATUS_ALLOC, size := size }) s.blocks i,
      brk := wadd (wadd block.addr size) META })

/-- The function `expand_block_realloc`; `none` when `block->next` is `NULL`. -/
def expand_block_realloc (s : Heap) (i : Nat) (block : Block) (size : Nat) : Option (Nat × Heap) :=
  match s.blocks[i + 1]? with
  | none => none
  | some next_block =>
      let new_size := wadd block.size (wadd next_block.size META)
      let bs1 := delete_node (modifyAt (fun b => { b with size := new_size }) s.blocks i) (i + 1)
      let bs2 := if new_size > wadd size META then split_block bs1 i size else bs1
      some (wadd block.addr META, { s with blocks := bs2 })

/-- The function `expand_last_free`. -/
def expand_last_free (s : Heap) (i : Nat) (block : Block) (size : Nat) : Nat × Heap :=
  (wadd block.addr META,
    { s with
      blocks := modifyAt (fun b => { b with size := size, status := STATUS_ALLOC }) s.blocks i,
      brk := wadd (wadd block.addr size) META })

/-- The function `find_free_block_realloc` for the block `block`; after
`coalesce` the block is found again by its address.  The result is the
position of `minim` (`none` for `NULL`). -/
def find_free_block_realloc (s : Heap) (block : Block) (total_size : Nat) :
    Option (Option Nat × Heap) :=
  let bs := coalesce s.blocks
  match best_fit_loop total_size bs 0 none with
  | none => some (none, { s with blocks := bs })
  | some (j, minim) =>
      let bs1 := if minim.size > wadd META total_size then split_block bs j total_size
        else modifyAt (fun b => { b with status := STATUS_ALLOC }) bs j
      match find_block bs1 block.addr with
      | none => none
      | some k =>
          some (some j,
            { s with
              blocks := modifyAt (fun b => { b with status := STATUS_FREE }) bs1 k,
              mem := memcpy s.mem (wadd minim.addr META) (wadd block.addr META) block.size })

/-- The function `move_block_realloc` for the block at position `i`. -/
def move_block_realloc (s : Heap) (i : Nat) (block : Block) (size : Nat) : Option (Nat × Heap) :=
  let bs := modifyAt (fun b => { b with status := STATUS_FREE }) s.blocks i
  if wadd size META < MMAP_THRESHOLD then
    let l := last_alloced_idx bs
    match bs[l]? with
    | none => none
    | some last_alloced_block =>
        let new_block : Block :=
          { addr := wadd (wadd last_alloced_block.addr last_alloced_block.size) META,
            size := size, status := STATUS_ALLOC }
        some (wadd new_block.addr META,
          { s with
            blocks := insertAfter new_block bs l,
            brk := wadd (wadd new_block.addr size) META,
            mem := memcpy s.mem (wadd new_block.addr META) (wadd block.addr META) block.size })
  else
    match add_new_mapped_block { s with blocks := bs } size with
    | none => none
    | some r => some (r.1, { r.2 with mem := memcpy r.2.mem r.1 (wadd block.addr META) block.size })

/-! ## osmem.c -/

/-- The payload address of the block at position `i` (`(char *)block + header`). -/
def payload_at (bs : List Block) (i : Nat) : Option Nat :=
  (bs[i]?).map (fun b => wadd b.addr META)

/-- The function `os_malloc`. -/
def os_malloc (s : Heap) (size : Nat) : Option (Nat × Heap) :=
  if size = 0 then some (NULL, s)
  else
    let block_size := toSizeT (align size)
    match find_best_fit s block_size with
    | (none, s1) => add_new_block s1 block_size
    | (some i, s1) => (payload_at s1.blocks i).map (fun p => (p, s1))

/-- The function `os_free`. -/
def os_free (s : Heap) (ptr : Nat) : Heap :=
  if ptr ≠ NULL then
    match find_block s.blocks (wsub ptr META) with
    | none => s
    | some i =>
        match s.blocks[i]? with
        | none => s
        | some block =>
            if block.status = STATUS_ALLOC then
              { s with blocks := modifyAt (fun b => { b with status := STATUS_FREE }) s.blocks i }
            else if block.status = STATUS_MAPPED then
              { s with blocks := delete_node s.blocks i }
            else s
  else s

/-- The function `os_calloc`. -/
def os_calloc (s : Heap) (nmemb size : Nat) : Option (Nat × Heap) :=
  let total_size := (nmemb * size) % 18446744073709551616
  if total_size = 0 then some (NULL, s)
  else
    let block_size := toSizeT (align total_size)
    let r : Option Nat × Heap :=
      if toInt32 (wadd size META) < toInt32 getpagesize then find_best_fit s block_size
      else (none, s)
    let res : Option (Nat × Heap) :=
      match r with
      | (none, s1) => add_new_block_calloc s1 block_size
      | (some i, s1) =>
          if toInt32 (wadd size META) ≥ toInt32 getpagesize then add_new_block_calloc s1 block_size
          else (payload_at s1.blocks i).map (fun p => (p, s1))
    res.map (fun (adr, s2) =>
      if adr ≠ NULL then (adr, { s2 with mem := zero_fill s2.mem adr (toInt32 total_size).toNat })
      else (adr, s2))

/-- Branches (G) and (H) of `os_realloc`: the block `block` could not be
expanded in place. -/
def realloc_move (s : Heap) (block : Block) (total_size : Nat) : Option (Nat × Heap) :=
  match find_free_block_realloc s block total_size with
  | none => none
  | some (some j, s1) =>
      -- `adr2` is `minim`, whose position and address the status change keeps
      (payload_at s1.blocks j).map (fun p => (p, s1))
  | some (none, s1) =>
      let l := last_alloced_idx s1.blocks
      match s1.blocks[l]?, find_block s1.blocks block.addr with
      | some last, some k =>
          if last.status = STATUS_FREE ∧ wadd total_size META < MMAP_THRESHOLD then
            let r := expand_last_free s1 l last total_size
            some (r.1,
              { r.2 with
                blocks := modifyAt (fun b => { b with status := STATUS_FREE }) r.2.blocks k,
                mem := memcpy r.2.mem r.1 (wadd block.addr META) block.size })
          else move_block_realloc s1 k block total_size
      | _, _ => none

/-- The function `os_realloc`; `none` when `find_block` returns `NULL` and
`block->status` is read. -/
def os_realloc (s : Heap) (ptr size : Nat) : Option (Nat × Heap) :=
  if size = 0 then some (NULL, os_free s ptr)
  else if ptr = NULL then os_malloc s size
  else
    match find_block s.blocks (wsub ptr META) with
    | none => none
    | some i =>
        match s.blocks[i]? with
        | none => none
        | some block =>
            if block.status = STATUS_FREE then some (NULL, s)
            else
              let total_size := toSizeT (align size)
              if block.status = STATUS_MAPPED then
                let len : Int :=
                  if toInt32 block.size > align size then align size else toInt32 block.size
                match os_malloc s size with
                | none => none
                | some (adr, s1) =>
                    some (adr, os_free { s1 with mem := memcpy s1.mem adr ptr (toSizeT len) } ptr)
              else if block.status = STATUS_ALLOC then
                if toInt32 block.size > toInt32 (wadd total_size META) then
                  some (wadd block.addr META,
                    { s with blocks := split_block s.blocks i total_size })
                else if block.size ≥ total_size then some (wadd block.addr META, s)
                else
                  match try_realloc_expanding s.blocks i block total_size with
                  | (bs1, none) => realloc_move { s with blocks := bs1 } block total_size
                  | (bs1, some best_fit) =>
                      if best_fit = i then
                        some (expand_last_block_realloc { s with blocks := bs1 } i block total_size)
                      else expand_block_realloc { s with blocks := bs1 } i block total_size
              else some (NULL, s)

/-- The state of a fresh process: empty list, `initialised = 0`. -/
def fresh (brk0 map0 : Nat) (mem0 : Nat → Nat) : Heap :=
  { blocks := [], initialised := 0, brk := brk0, next_map := map0, mem := mem0 }

/-- The user program stores the byte `v` at the payload address `a`.  The block
headers are kept in the list and not in `mem`, so this definition is used only
for an address that lies in no block header. -/
def store (s : Heap) (a v : Nat) : Heap :=
  { s with mem := fun x => if x = a then v else s.mem x }

/-- The state after `allocate(64)` in a fresh process whose break is at
`1000000`. -/
def after_malloc_64 : Heap :=
  { blocks := [{ addr := 1000000, size := 64, status := STATUS_ALLOC },
      { addr := 1000088, size := 130960, status := STATUS_FREE }],
    initialised := 1, brk := 1131072, next_map := 70000000000, mem := fun _ => 0 }

/-! ## Specification predicates -/

/-- No two consecutive blocks of the list are both `FREE`. -/
def NoAdjFree : List Block → Prop
  | a :: b :: rest => ¬ (a.status = STATUS_FREE ∧ b.status = STATUS_FREE) ∧ NoAdjFree (b :: rest)
  | _ => True

instance decNoAdjFree : (bs : List Block) → Decidable (NoAdjFree bs)
  | [] => isTrue trivial
  | [_] => isTrue trivial
  | a :: b :: rest =>
      have := decNoAdjFree (b :: rest)
      inferInstanceAs
        (Decidable (¬ (a.status = STATUS_FREE ∧ b.status = STATUS_FREE) ∧ NoAdjFree (b :: rest)))

/-- A block that the best-fit scan accepts for a request of `size` bytes. -/
def Cand (size : Nat) (c : Block) : Prop := c.status = STATUS_FREE ∧ c.size ≥ size

instance (size : Nat) (c : Block) : Decidable (Cand size c) :=
  inferInstanceAs (Decidable (c.status = STATUS_FREE ∧ c.size ≥ size))

/-- The run of `FREE` blocks at the start of a list. -/
def free_run : List Block → List Block
  | [] => []
  | b :: rest => if b.status = STATUS_FREE then b :: free_run rest else []

/-- The capacity of a list of blocks: their sizes plus one header each. -/
def capacity : List Block → Nat
  | [] => 0
  | b :: rest => b.size + META + capacity rest

/-- Physical contiguity: for every consecutive pair of non-`MAPPED` blocks
`a`, `b` in list order, `b` lies exactly `header + a.size` bytes after `a`. -/
def Contig : List Block → Prop
  | a :: b :: rest =>
      (a.status ≠ STATUS_MAPPED → b.status ≠ STATUS_MAPPED →
        b.addr = a.addr + META + a.size) ∧ Contig (b :: rest)
  | _ => True

instance decContig : (bs : List Block) → Decidable (Contig bs)
  | [] => isTrue trivial
  | [_] => isTrue trivial
  | a :: b :: rest =>
      have := decContig (b :: rest)
      inferInstanceAs
        (Decidable ((a.status ≠ STATUS_MAPPED → b.status ≠ STATUS_MAPPED →
          b.addr = a.addr + META + a.size) ∧ Contig (b :: rest)))

/-- A block `b` that is not `MAPPED` follows a block `a` that is not `MAPPED`
and ends where `b` starts, in 64-bit address arithmetic (modulo `2^64`). -/
def Link (a b : Block) : Prop :=
  b.status ≠ STATUS_MAPPED →
    a.status ≠ STATUS_MAPPED ∧ b.addr = wadd (wadd a.addr META) a.size

/-- Contiguity modulo `2^64` together with the order of the list (`MAPPED`
blocks last): every consecutive pair is linked. -/
def BrkInv : List Block → Prop
  | a :: b :: rest => Link a b ∧ BrkInv (b :: rest)
  | _ => True

/-- The states reachable from a fresh process through the four public
operations, with any arguments. -/
inductive Reachable : Heap → Prop
  | fresh (brk0 map0 : Nat) (mem0 : Nat → Nat) : Reachable (fresh brk0 map0 mem0)
  | malloc (s s' : Heap) (n p : Nat) :
      Reachable s → os_malloc s n = some (p, s') → Reachable s'
  | free (s : Heap) (ptr : Nat) : Reachable s → Reachable (os_free s ptr)
  | calloc (s s' : Heap) (nmemb n p : Nat) :
      Reachable s → os_calloc s nmemb n = some (p, s') → Reachable s'
  | realloc (s s' : Heap) (ptr n p : Nat) :
      Reachable s → os_realloc s ptr n = some (p, s') → Reachable s'

/-- A request size for which no conversion between `size_t` and `int`
overflows: the size, rounded up to the alignment and with one header added, is
a non-negative `int`. -/
def small_request (n : Nat) : Prop := n + (ALIGNMENT - 1) + sizeof_block_meta < 2147483648

instance (n : Nat) : Decidable (small_request n) :=
  inferInstanceAs (Decidable (n + (ALIGNMENT - 1) + sizeof_block_meta < 2147483648))

/-- The states reachable from a fresh process through the four public
operations with small request sizes (for `os_calloc` the product of its
arguments). -/
inductive ReachableSmall : Heap → Prop
  | fresh (brk0 map0 : Nat) (mem0 : Nat → Nat) : ReachableSmall (fresh brk0 map0 mem0)
  | malloc (s s' : Heap) (n p : Nat) :
      ReachableSmall s → small_request n → os_malloc s n = some (p, s') → ReachableSmall s'
  | free (s : Heap) (ptr : Nat) : ReachableSmall s → ReachableSmall (os_free s ptr)
  | calloc (s s' : Heap) (nmemb n p : Nat) :
      ReachableSmall s → small_request (nmemb * n) → os_calloc s nmemb n = some (p, s') →
        ReachableSmall s'
  | realloc (s s' : Heap) (ptr n p : Nat) :
      ReachableSmall s → small_request n → os_realloc s ptr n = some (p, s') →
        ReachableSmall s'

/-- Every block's size field is a multiple of the alignment. -/
def SizesAligned (bs : List Block) : Prop := ∀ b ∈ bs, b.size % ALIGNMENT = 0

/-- The block that replaces a maximal run `b :: run` of `FREE` blocks, in the
words of the spec: a single `FREE` block at the run's first address whose size
is the sum of the run's payload sizes plus `(k - 1) * header_size`, `k` the
length of the run. -/
def merged_run (b : Block) (run : List Block) : Block :=
  { addr := b.addr,
    size := ((b :: run).map Block.size).sum + ((b :: run).length - 1) * META,
    status := STATUS_FREE }

/-- The reference definition of the global coalesce, in the words of the spec:
walk the list, replace every maximal run of consecutive `FREE` blocks by its
merged block, keep every other block (a barrier) as it is.  The fuel is the
length of the list. -/
def coalesce_ref_fuel : Nat → List Block → List Block
  | 0, bs => bs
  | _ + 1, [] => []
  | fuel + 1, b :: rest =>
      if b.status = STATUS_FREE then
        merged_run b (free_run rest) ::
          coalesce_ref_fuel fuel (rest.drop (free_run rest).length)
      else b :: coalesce_ref_fuel fuel rest

/-- The reference definition of the global coalesce. -/
def coalesce_ref (bs : List Block) : List Block := coalesce_ref_fuel bs.length bs

/-- Every run of consecutive `FREE` blocks has a merged size (the sum of its
sizes plus one header for each block after the first) that fits a `size_t`. -/
def RunsFit : List Block → Prop
  | [] => True
  | b :: rest =>
      (b.status = STATUS_FREE → b.size + capacity (free_run rest) < 18446744073709551616) ∧
        RunsFit rest

instance decRunsFit : (bs : List Block) → Decidable (RunsFit bs)
  | [] => isTrue trivial
  | b :: rest =>
      have := decRunsFit rest
      inferInstanceAs
        (Decidable ((b.status = STATUS_FREE →
          b.size + capacity (free_run rest) < 18446744073709551616) ∧ RunsFit rest))

/-- The flag `initialised` is clear only while the block list is empty. -/
def InitInv (s : Heap) : Prop := s.initialised = 0 → s.blocks = []

/-- A live block: its status is `STATUS_ALLOC` or `STATUS_MAPPED`. -/
def isLive (b : Block) : Bool := b.status == STATUS_ALLOC || b.status == STATUS_MAPPED

/-- The live blocks of a list, in list order. -/
def live_blocks (bs : List Block) : List Block := bs.filter isLive

/-- A block in use: its status is not `STATUS_FREE` (it is `ALLOC`, `MAPPED`
or the value `MMAP_THRESHOLD` written by `add_new_alloced_block`). -/
def isUsed (b : Block) : Bool := b.status != STATUS_FREE

/-- The blocks in use of a list, in list order. -/
def used_blocks (bs : List Block) : List Block := bs.filter isUsed

/-- The blocks in use of `new` are the blocks in use of `old`, unchanged and in
the same order, with at most one block inserted. -/
def UsedStep (old new : List Block) : Prop :=
  ∃ l1 l2 x : List Block,
    used_blocks old = l1 ++ l2 ∧ used_blocks new = l1 ++ x ++ l2 ∧ x.length ≤ 1

/-- The blocks of the list do not overlap in memory: consecutive non-`MAPPED`
blocks are contiguous and every block ends inside the 64-bit address space. -/
def ExactLayout (bs : List Block) : Prop :=
  Contig bs ∧ ∀ b ∈ bs, b.addr + META + b.size < 18446744073709551616

instance (bs : List Block) : Decidable (ExactLayout bs) :=
  inferInstanceAs
    (Decidable (Contig bs ∧ ∀ b ∈ bs, b.addr + META + b.size < 18446744073709551616))

/-! ## Theorems -/

/-- C1 (failing input): from a fresh state `os_malloc 131060` returns a non-null
pointer, the payload of the only block in the list; the aligned request
`131064` lies between `MMAP_THRESHOLD - header` and `MMAP_THRESHOLD`, and the
recorded size `131048` of the block is smaller than the request and than its
aligned size. -/
theorem C1_fresh_block_smaller_than_request :
    ∃ p s', os_malloc (fresh 1000000 70000000000 (fun _ => 0)) 131060 = some (p, s') ∧
      p ≠ NULL ∧
      s'.blocks = [{ addr := 1000000, size := 131048, status := STATUS_ALLOC }] ∧
      p = wadd 1000000 META ∧
      MMAP_THRESHOLD - META < toSizeT (align 131060) ∧
      toSizeT (align 131060) < MMAP_THRESHOLD ∧
      ∀ b ∈ s'.blocks, b.size < 131060 ∧ b.size < toSizeT (align 131060) := by
  refine ⟨_, _, rfl, by decide, rfl, rfl, by decide, by decide, ?_⟩
  show ∀ b ∈ [({ addr := 1000000, size := 131048, status := STATUS_ALLOC } : Block)],
    b.size < 131060 ∧ b.size < toSizeT (align 131060)
  decide

/-! ### Lemmas: adjacent `FREE` blocks -/

theorem noAdj_cons_same_status {a a' : Block} {l : List Block} (hs : a'.status = a.status)
    (h : NoAdjFree (a :: l)) : NoAdjFree (a' :: l) := by
  cases l with
  | nil => trivial
  | cons b rest => exact ⟨fun hh => h.1 ⟨hs ▸ hh.1, hh.2⟩, h.2⟩

theorem coalesce_loop_head : ∀ (rest : List Block) (cur : Block),
    ∃ h tl, coalesce_loop cur rest = h :: tl ∧ h.status = cur.status ∧ h.addr = cur.addr
  | [], cur => ⟨cur, [], rfl, rfl, rfl⟩
  | nxt :: rest, cur => by
      unfold coalesce_loop
      split
      · obtain ⟨h, tl, e, hs, ha⟩ := coalesce_loop_head rest
          { cur with size := wadd cur.size (wadd nxt.size META) }
        exact ⟨h, tl, e, hs, ha⟩
      · exact ⟨cur, _, rfl, rfl, rfl⟩

theorem noAdj_coalesce_loop : ∀ (rest : List Block) (cur : Block),
    NoAdjFree (coalesce_loop cur rest)
  | [], _ => trivial
  | nxt :: rest, cur => by
      unfold coalesce_loop
      split
      · exact noAdj_coalesce_loop rest _
      · rename_i hne
        obtain ⟨h, tl, e, hs, _⟩ := coalesce_loop_head rest nxt
        have ih := noAdj_coalesce_loop rest nxt
        rw [e] at ih ⊢
        exact ⟨fun hh => hne ⟨hh.1, hs ▸ hh.2⟩, ih⟩

theorem noAdj_coalesce (bs : List Block) : NoAdjFree (coalesce bs) := by
  cases bs with
  | nil => trivial
  | cons b rest => exact noAdj_coalesce_loop rest b

/-! ### Lemmas: the best-fit scan -/

theorem best_fit_loop_spec (size : Nat) : ∀ (l : List Block) (i : Nat) (best : Option (Nat × Block)),
    (best_fit_loop size l i best = none → best = none ∧ ∀ d ∈ l, ¬ Cand size d) ∧
    (∀ k c, best_fit_loop size l i best = some (k, c) →
      (∀ d ∈ l, Cand size d → c.size ≤ d.size) ∧
      (∀ j0 b, best = some (j0, b) → c.size ≤ b.size) ∧
      (best = some (k, c) ∨ ∃ j, k = i + j ∧ l[j]? = some c ∧ Cand size c ∧
        (∀ j0 b, best = some (j0, b) → c.size < b.size) ∧
        (∀ j' d, l[j']? = some d → Cand size d → d.size = c.size → j ≤ j')))
  | [], i, best => by
      refine ⟨fun h => ⟨h, by simp⟩, fun k c h => ⟨by simp, ?_, Or.inl h⟩⟩
      intro j0 b hb
      simp only [best_fit_loop] at h
      rw [hb] at h
      cases h
      exact le_refl _
  | ptr :: rest, i, best => by
      by_cases hc : ptr.status = STATUS_FREE ∧ ptr.size ≥ size
      · -- the block is a candidate
        cases best with
        | none =>
            have hstep : best_fit_loop size (ptr :: rest) i none =
                best_fit_loop size rest (i + 1) (some (i, ptr)) := by
              simp only [best_fit_loop, if_pos hc]
            rw [hstep]
            obtain ⟨ih1, ih2⟩ := best_fit_loop_spec size rest (i + 1) (some (i, ptr))
            refine ⟨fun h => absurd (ih1 h).1 (by simp), fun k c h => ?_⟩
            obtain ⟨hA, hB, hC⟩ := ih2 k c h
            have hcp : c.size ≤ ptr.size := hB i ptr rfl
            refine ⟨?_, (by intro j0 b hb; cases hb), Or.inr ?_⟩
            · intro d hd hcd
              rcases List.mem_cons.1 hd with rfl | hd
              · exact hcp
              · exact hA d hd hcd
            · rcases hC with hC | ⟨j, hk, hj, hcc, hlt, hfirst⟩
              · cases hC
                exact ⟨0, rfl, (by simp), hc, (by intro j0 b hb; cases hb), fun j' _ _ _ _ => Nat.zero_le _⟩
              · refine ⟨j + 1, (by omega), (by simpa using hj), hcc, (by intro j0 b hb; cases hb), ?_⟩
                intro j' d hd hcd hsz
                cases j' with
                | zero =>
                    have hd' : ptr = d := by simpa using hd
                    rw [← hd'] at hsz
                    have := hlt i ptr rfl
                    omega
                | succ j' =>
                    have := hfirst j' d (by simpa using hd) hcd hsz
                    omega
        | some jb =>
            obtain ⟨j0, b⟩ := jb
            by_cases hgt : b.size > ptr.size
            · have hstep : best_fit_loop size (ptr :: rest) i (some (j0, b)) =
                  best_fit_loop size rest (i + 1) (some (i, ptr)) := by
                simp only [best_fit_loop, if_pos hc, if_pos hgt]
              rw [hstep]
              obtain ⟨ih1, ih2⟩ := best_fit_loop_spec size rest (i + 1) (some (i, ptr))
              refine ⟨fun h => absurd (ih1 h).1 (by simp), fun k c h => ?_⟩
              obtain ⟨hA, hB, hC⟩ := ih2 k c h
              have hcp : c.size ≤ ptr.size := hB i ptr rfl
              refine ⟨?_, ?_, Or.inr ?_⟩
              · intro d hd hcd
                rcases List.mem_cons.1 hd with rfl | hd
                · exact hcp
                · exact hA d hd hcd
              · intro j1 b1 hb
                cases hb
                omega
              · rcases hC with hC | ⟨j, hk, hj, hcc, hlt, hfirst⟩
                · cases hC
                  refine ⟨0, rfl, (by simp), hc, ?_, fun j' _ _ _ _ => Nat.zero_le _⟩
                  intro j1 b1 hb
                  cases hb
                  exact hgt
                · refine ⟨j + 1, (by omega), (by simpa using hj), hcc, ?_, ?_⟩
                  · intro j1 b1 hb
                    cases hb
                    have := hlt i ptr rfl
                    omega
                  · intro j' d hd hcd hsz
                    cases j' with
                    | zero =>
                        have hd' : ptr = d := by simpa using hd
                        rw [← hd'] at hsz
                        have := hlt i ptr rfl
                        omega
                    | succ j' =>
                        have := hfirst j' d (by simpa using hd) hcd hsz
                        omega
            · have hstep : best_fit_loop size (ptr :: rest) i (some (j0, b)) =
                  best_fit_loop size rest (i + 1) (some (j0, b)) := by
                simp only [best_fit_loop, if_pos hc, if_neg hgt]
              rw [hstep]
              obtain ⟨ih1, ih2⟩ := best_fit_loop_spec size rest (i + 1) (some (j0, b))
              refine ⟨fun h => absurd (ih1 h).1 (by simp), fun k c h => ?_⟩
              obtain ⟨hA, hB, hC⟩ := ih2 k c h
              have hcb : c.size ≤ b.size := hB j0 b rfl
              refine ⟨?_, hB, ?_⟩
              · intro d hd hcd
                rcases List.mem_cons.1 hd with rfl | hd
                · omega
                · exact hA d hd hcd
              · rcases hC with hC | ⟨j, hk, hj, hcc, hlt, hfirst⟩
                · exact Or.inl hC
                · refine Or.inr ⟨j + 1, (by omega), (by simpa using hj), hcc, hlt, ?_⟩
                  intro j' d hd hcd hsz
                  cases j' with
                  | zero =>
                      have hd' : ptr = d := by simpa using hd
                      rw [← hd'] at hsz
                      have := hlt j0 b rfl
                      omega
                  | succ j' =>
                      have := hfirst j' d (by simpa using hd) hcd hsz
                      omega
      · -- the block is skipped
        have hstep : best_fit_loop size (ptr :: rest) i best =
            best_fit_loop size rest (i + 1) best := by
          simp only [best_fit_loop, if_neg hc]
        rw [hstep]
        obtain ⟨ih1, ih2⟩ := best_fit_loop_spec size rest (i + 1) best
        refine ⟨fun h => ⟨(ih1 h).1, ?_⟩, fun k c h => ?_⟩
        · intro d hd
          rcases List.mem_cons.1 hd with rfl | hd
          · exact hc
          · exact (ih1 h).2 d hd
        · obtain ⟨hA, hB, hC⟩ := ih2 k c h
          refine ⟨?_, hB, ?_⟩
          · intro d hd hcd
            rcases List.mem_cons.1 hd with rfl | hd
            · exact absurd hcd hc
            · exact hA d hd hcd
          · rcases hC with hC | ⟨j, hk, hj, hcc, hlt, hfirst⟩
            · exact Or.inl hC
            · refine Or.inr ⟨j + 1, (by omega), (by simpa using hj), hcc, hlt, ?_⟩
              intro j' d hd hcd hsz
              cases j' with
              | zero =>
                  have hd' : ptr = d := by simpa using hd
                  rw [← hd'] at hcd
                  exact absurd hcd hc
              | succ j' =>
                  have := hfirst j' d (by simpa using hd) hcd hsz
                  omega

theorem best_fit_loop_top (size : Nat) (bs : List Block) (k : Nat) (c : Block)
    (h : best_fit_loop size bs 0 none = some (k, c)) :
    bs[k]? = some c ∧ Cand size c ∧ (∀ d ∈ bs, Cand size d → c.size ≤ d.size) ∧
      (∀ j' d, bs[j']? = some d → Cand size d → d.size = c.size → k ≤ j') := by
  obtain ⟨hA, _, hC⟩ := (best_fit_loop_spec size bs 0 none).2 k c h
  rcases hC with hC | ⟨j, hk, hj, hcc, _, hfirst⟩
  · cases hC
  · have : k = j := by omega
    subst this
    exact ⟨hj, hcc, hA, hfirst⟩

theorem find_best_fit_none (s : Heap) (size : Nat)
    (h : best_fit_loop size (coalesce s.blocks) 0 none = none) :
    find_best_fit s size = (none, { s with blocks := coalesce s.blocks }) := by
  simp only [find_best_fit, h]

theorem find_best_fit_some (s : Heap) (size i : Nat) (b : Block)
    (h : best_fit_loop size (coalesce s.blocks) 0 none = some (i, b)) :
    find_best_fit s size =
      if toInt32 (wsub b.size size) > get_block_meta_size then
        (some i, { s with blocks := split_block (coalesce s.blocks) i size })
      else
        (some i, { s with
          blocks := modifyAt (fun b => { b with status := STATUS_ALLOC }) (coalesce s.blocks) i }) := by
  simp only [find_best_fit, h]

theorem add_new_mapped_block_some (s : Heap) (size p : Nat) (s' : Heap)
    (hr : add_new_mapped_block s size = some (p, s')) :
    ¬ mmap_refuses (wadd size META) ∧ p = wadd s.next_map META ∧
      s'.blocks = s.blocks ++ [{ addr := s.next_map, size := size, status := STATUS_MAPPED }] ∧
      ((s.blocks ≠ [] ∧ s'.initialised = s.initialised) ∨
        (s.blocks = [] ∧ s'.initialised = 1)) ∧
      s'.brk = s.brk ∧ s'.next_map = s.next_map + map_span (wadd size META) ∧
      s'.mem = zero_fill s.mem s.next_map (wadd size META) := by
  simp only [add_new_mapped_block] at hr
  split at hr
  · cases hr
  · rename_i hm
    cases hb : s.blocks with
    | nil =>
        rw [hb] at hr
        cases hr
        exact ⟨hm, rfl, rfl, Or.inr ⟨rfl, rfl⟩, rfl, rfl, rfl⟩
    | cons b rest =>
        rw [hb] at hr
        cases hr
        exact ⟨hm, rfl, rfl, Or.inl ⟨by simp, rfl⟩, rfl, rfl, rfl⟩

theorem find_block_some : ∀ (bs : List Block) (adr i : Nat), find_block bs adr = some i →
    (∃ b, bs[i]? = some b ∧ b.addr = adr) ∧ ∀ j b, j < i → bs[j]? = some b → b.addr ≠ adr
  | [], _, _, h => by simp [find_block] at h
  | a :: rest, adr, i, h => by
      unfold find_block at h
      split at h
      · rename_i ha
        cases h
        exact ⟨⟨a, by simp, ha⟩, fun j b hj => absurd hj (Nat.not_lt_zero _)⟩
      · rename_i ha
        simp only [Option.map_eq_some'] at h
        obtain ⟨k, hk, rfl⟩ := h
        obtain ⟨⟨b, hb, hba⟩, hfirst⟩ := find_block_some rest adr k hk
        refine ⟨⟨b, by simpa using hb, hba⟩, ?_⟩
        intro j c hj hc
        cases j with
        | zero =>
            have : a = c := by simpa using hc
            rw [← this]
            exact ha
        | succ j => exact hfirst j c (by omega) (by simpa using hc)

theorem find_block_none : ∀ (bs : List Block) (adr : Nat), find_block bs adr = none →
    ∀ b ∈ bs, b.addr ≠ adr
  | [], _, _ => by simp
  | a :: rest, adr, h => by
      unfold find_block at h
      split at h
      · cases h
      · rename_i ha
        simp only [Option.map_eq_none'] at h
        intro b hb
        rcases List.mem_cons.1 hb with rfl | hb
        · exact ha
        · exact find_block_none rest adr h b hb

theorem find_block_eq_none_of_forall : ∀ (bs : List Block) (adr : Nat),
    (∀ b ∈ bs, b.addr ≠ adr) → find_block bs adr = none
  | [], _, _ => rfl
  | a :: rest, adr, h => by
      unfold find_block
      rw [if_neg (h a (List.mem_cons_self _ _))]
      rw [find_block_eq_none_of_forall rest adr (fun b hb => h b (List.mem_cons_of_mem _ hb))]
      rfl

theorem modifyAt_length (f : Block → Block) : ∀ (bs : List Block) (i : Nat),
    (modifyAt f bs i).length = bs.length
  | [], _ => rfl
  | _ :: _, 0 => rfl
  | _ :: rest, i + 1 => by simp [modifyAt, modifyAt_length f rest i]

theorem modifyAt_getElem? (f : Block → Block) : ∀ (bs : List Block) (i j : Nat),
    (modifyAt f bs i)[j]? = if j = i then (bs[j]?).map f else bs[j]?
  | [], _, _ => by simp [modifyAt]
  | a :: rest, 0, 0 => by simp [modifyAt]
  | a :: rest, 0, j + 1 => by simp [modifyAt]
  | a :: rest, i + 1, 0 => by simp [modifyAt]
  | a :: rest, i + 1, j + 1 => by simp [modifyAt, modifyAt_getElem? f rest i j]

theorem delete_node_eq_eraseIdx : ∀ (bs : List Block) (i : Nat), delete_node bs i = bs.eraseIdx i
  | [], _ => by simp [delete_node]
  | _ :: _, 0 => by simp [delete_node]
  | _ :: rest, i + 1 => by simp [delete_node, delete_node_eq_eraseIdx rest i]

theorem find_block_modifyAt (f : Block → Block) (hf : ∀ b, (f b).addr = b.addr) :
    ∀ (bs : List Block) (i adr : Nat), find_block (modifyAt f bs i) adr = find_block bs adr
  | [], _, _ => rfl
  | a :: rest, 0, adr => by simp [modifyAt, find_block, hf]
  | a :: rest, i + 1, adr => by simp [modifyAt, find_block, find_block_modifyAt f hf rest i adr]

theorem os_free_null (s : Heap) : os_free s NULL = s := by
  simp [os_free]

theorem os_free_not_found (s : Heap) (ptr : Nat)
    (h : find_block s.blocks (wsub ptr META) = none) : os_free s ptr = s := by
  unfold os_free
  split
  · simp only [h]
  · rfl

theorem os_free_found (s : Heap) (ptr i : Nat) (b : Block) (hp : ptr ≠ NULL)
    (h : find_block s.blocks (wsub ptr META) = some i) (hb : s.blocks[i]? = some b) :
    os_free s ptr =
      if b.status = STATUS_ALLOC then
        { s with blocks := modifyAt (fun b => { b with status := STATUS_FREE }) s.blocks i }
      else if b.status = STATUS_MAPPED then { s with blocks := delete_node s.blocks i }
      else s := by
  unfold os_free
  rw [if_pos hp]
  simp only [h, hb]

theorem find_block_eraseIdx_none : ∀ (bs : List Block) (adr i : Nat),
    (bs.map Block.addr).Nodup → find_block bs adr = some i → find_block (bs.eraseIdx i) adr = none
  | [], _, _, _, h => by simp [find_block] at h
  | a :: rest, adr, i, hnd, h => by
      have hnd' : a.addr ∉ rest.map Block.addr ∧ (rest.map Block.addr).Nodup := by
        simpa using hnd
      unfold find_block at h
      split at h
      · rename_i ha
        cases h
        simp only [List.eraseIdx_cons_zero]
        apply find_block_eq_none_of_forall
        intro b hb hba
        exact hnd'.1 (List.mem_map.2 ⟨b, hb, by rw [hba, ha]⟩)
      · rename_i ha
        simp only [Option.map_eq_some'] at h
        obtain ⟨k, hk, rfl⟩ := h
        simp only [List.eraseIdx_cons_succ, find_block, if_neg ha]
        rw [find_block_eraseIdx_none rest adr k hnd'.2 hk]
        rfl

/-- C4: the effect of `os_free`.  A null pointer, a pointer that `find_block` does not find and a `FREE` block
leave the state unchanged; an `ALLOC` block only has its status set to `FREE`;
a `MAPPED` block is unlinked (at any position, the head included) and nothing
else changes; on a list whose blocks have distinct addresses freeing twice is
the same as freeing once. -/
theorem C4_os_free_effect (s : Heap) (ptr : Nat) :
    (ptr = NULL → os_free s ptr = s) ∧
    (find_block s.blocks (wsub ptr META) = none → os_free s ptr = s) ∧
    (∀ i b, ptr ≠ NULL → find_block s.blocks (wsub ptr META) = some i → s.blocks[i]? = some b →
      (b.status = STATUS_FREE → os_free s ptr = s) ∧
      (b.status = STATUS_ALLOC →
        (os_free s ptr).blocks.length = s.blocks.length ∧
        (os_free s ptr).blocks[i]? = some { b with status := STATUS_FREE } ∧
        (∀ j, j ≠ i → (os_free s ptr).blocks[j]? = s.blocks[j]?) ∧
        (os_free s ptr).initialised = s.initialised ∧ (os_free s ptr).brk = s.brk ∧
        (os_free s ptr).next_map = s.next_map ∧ (os_free s ptr).mem = s.mem) ∧
      (b.status = STATUS_MAPPED →
        (os_free s ptr).blocks = s.blocks.eraseIdx i ∧
        (os_free s ptr).initialised = s.initialised ∧ (os_free s ptr).brk = s.brk ∧
        (os_free s ptr).next_map = s.next_map ∧ (os_free s ptr).mem = s.mem)) ∧
    ((s.blocks.map Block.addr).Nodup → os_free (os_free s ptr) ptr = os_free s ptr) := by
  refine ⟨fun h => h ▸ os_free_null s, os_free_not_found s ptr, ?_, ?_⟩
  · intro i b hp hf hb
    have e := os_free_found s ptr i b hp hf hb
    refine ⟨fun hs => ?_, fun hs => ?_, fun hs => ?_⟩
    · rw [e, if_neg (by rw [hs]; decide), if_neg (by rw [hs]; decide)]
    · rw [e, if_pos hs]
      refine ⟨modifyAt_length _ _ _, ?_, ?_, rfl, rfl, rfl, rfl⟩
      · simp only [modifyAt_getElem?, if_true, hb, Option.map_some']
      · intro j hj
        simp only [modifyAt_getElem?, if_neg hj]
    · rw [e, if_neg (by rw [hs]; decide), if_pos hs]
      exact ⟨delete_node_eq_eraseIdx _ _, rfl, rfl, rfl, rfl⟩
  · intro hnd
    by_cases hp : ptr = NULL
    · rw [hp, os_free_null, os_free_null]
    · cases hf : find_block s.blocks (wsub ptr META) with
      | none => rw [os_free_not_found s ptr hf, os_free_not_found s ptr hf]
      | some i =>
          obtain ⟨⟨b, hb, _⟩, _⟩ := find_block_some _ _ _ hf
          have e := os_free_found s ptr i b hp hf hb
          by_cases hA : b.status = STATUS_ALLOC
          · rw [if_pos hA] at e
            have hf2 : find_block (os_free s ptr).blocks (wsub ptr META) = some i := by
              rw [e]
              show find_block (modifyAt _ s.blocks i) _ = _
              rw [find_block_modifyAt (fun b => { b with status := STATUS_FREE }) (fun _ => rfl), hf]
            have hb2 : (os_free s ptr).blocks[i]? = some { b with status := STATUS_FREE } := by
              rw [e]
              simp only [modifyAt_getElem?, if_true, hb, Option.map_some']
            rw [os_free_found _ ptr i _ hp hf2 hb2]
            rw [if_neg (by simp [STATUS_FREE, STATUS_ALLOC]),
              if_neg (by simp [STATUS_FREE, STATUS_MAPPED])]
          · rw [if_neg hA] at e
            by_cases hM : b.status = STATUS_MAPPED
            · rw [if_pos hM] at e
              have hf2 : find_block (os_free s ptr).blocks (wsub ptr META) = none := by
                rw [e]
                simp only [delete_node_eq_eraseIdx]
                exact find_block_eraseIdx_none _ _ _ hnd hf
              exact os_free_not_found _ ptr hf2
            · rw [if_neg hM] at e
              rw [e, e]

/-- C4 (witness): freeing the mapped head of a two-block list twice. -/
theorem C4_os_free_effect_witness :
    (os_free (os_free
      { blocks := [{ addr := 4096, size := 200000, status := 2 }, { addr := 8000000, size := 64, status := 1 }],
        initialised := 1, brk := 9000000, next_map := 70000000000, mem := fun _ => 0 } 4120) 4120).blocks =
      [{ addr := 8000000, size := 64, status := 1 }] := by
  rw [(C4_os_free_effect
      { blocks := [{ addr := 4096, size := 200000, status := 2 }, { addr := 8000000, size := 64, status := 1 }],
        initialised := 1, brk := 9000000, next_map := 70000000000, mem := fun _ => 0 } 4120).2.2.2
      (by decide)]
  rfl

theorem find_best_fit_fst (s : Heap) (size : Nat) :
    (find_best_fit s size).1 = (best_fit_loop size (coalesce s.blocks) 0 none).map Prod.fst := by
  cases hb : best_fit_loop size (coalesce s.blocks) 0 none with
  | none => rw [find_best_fit_none s size hb]; rfl
  | some kc =>
      obtain ⟨k, c⟩ := kc
      rw [find_best_fit_some s size k c hb]
      split <;> rfl

/-- C5: best-fit selection.  `find_best_fit` returns a block exactly when the
coalesced list has a `FREE` block of size at least `size`; the block returned
is such a block, no such block is smaller, and it is the first of its size in
list order; on a miss only the coalescing has changed the state. -/
theorem C5_find_best_fit_selection (s : Heap) (size : Nat) :
    ((∃ i, (find_best_fit s size).1 = some i) ↔
      ∃ d ∈ coalesce s.blocks, d.status = STATUS_FREE ∧ d.size ≥ size) ∧
    (∀ i, (find_best_fit s size).1 = some i →
      ∃ b, (coalesce s.blocks)[i]? = some b ∧ b.status = STATUS_FREE ∧ b.size ≥ size ∧
        (∀ d ∈ coalesce s.blocks, d.status = STATUS_FREE → d.size ≥ size → b.size ≤ d.size) ∧
        (∀ j d, (coalesce s.blocks)[j]? = some d → d.status = STATUS_FREE →
          d.size = b.size → i ≤ j)) ∧
    ((find_best_fit s size).1 = none →
      (find_best_fit s size).2 = { s with blocks := coalesce s.blocks }) := by
  have key : ∀ i, (find_best_fit s size).1 = some i →
      ∃ b, (coalesce s.blocks)[i]? = some b ∧ b.status = STATUS_FREE ∧ b.size ≥ size ∧
        (∀ d ∈ coalesce s.blocks, d.status = STATUS_FREE → d.size ≥ size → b.size ≤ d.size) ∧
        (∀ j d, (coalesce s.blocks)[j]? = some d → d.status = STATUS_FREE →
          d.size = b.size → i ≤ j) := by
    intro i hi
    rw [find_best_fit_fst, Option.map_eq_some'] at hi
    obtain ⟨⟨k, c⟩, hkc, rfl⟩ := hi
    obtain ⟨hk, hcand, hmin, hfirst⟩ := best_fit_loop_top size _ k c hkc
    refine ⟨c, hk, hcand.1, hcand.2, fun d hd h1 h2 => hmin d hd ⟨h1, h2⟩, ?_⟩
    intro j d hj h1 h2
    exact hfirst j d hj ⟨h1, by rw [h2]; exact hcand.2⟩ h2
  refine ⟨⟨?_, ?_⟩, key, ?_⟩
  · rintro ⟨i, hi⟩
    obtain ⟨b, hb, h1, h2, _⟩ := key i hi
    exact ⟨b, List.getElem?_mem hb, h1, h2⟩
  · rintro ⟨d, hd, h1, h2⟩
    cases hb : best_fit_loop size (coalesce s.blocks) 0 none with
    | none =>
        exact absurd ⟨h1, h2⟩ (((best_fit_loop_spec size _ 0 none).1 hb).2 d hd)
    | some kc => exact ⟨kc.1, by rw [find_best_fit_fst, hb]; rfl⟩
  · intro h
    rw [find_best_fit_fst, Option.map_eq_none'] at h
    rw [find_best_fit_none s size h]

/-! ### Lemmas: the block a brk allocation returns -/

theorem insertAfter_getElem? (new : Block) : ∀ (bs : List Block) (i : Nat) (b : Block),
    bs[i]? = some b → (insertAfter new bs i)[i + 1]? = some new
  | [], _, _, h => by simp at h
  | _ :: _, 0, _, _ => by simp [insertAfter]
  | _ :: rest, i + 1, b, h => by
      simpa [insertAfter] using insertAfter_getElem? new rest i b (by simpa using h)

theorem add_new_alloced_block_returns (s : Heap) (size p : Nat) (s' : Heap)
    (h : add_new_alloced_block s size = some (p, s')) :
    ∃ (i : Nat) (b : Block), s'.blocks[i]? = some b ∧ wadd b.addr META = p ∧
      (b.status = STATUS_ALLOC ∨ b.status = MMAP_THRESHOLD) := by
  simp only [add_new_alloced_block] at h
  split at h
  · split at h
    · cases h
    · rename_i last hl
      split at h
      · cases h
        refine ⟨last_alloced_idx s.blocks, { last with status := STATUS_ALLOC, size := size }, ?_,
          rfl, Or.inl rfl⟩
        simp only [modifyAt_getElem?, if_true, hl, Option.map_some']
      · split at h
        · cases h
          exact ⟨0, ({ addr := s.brk, size := size, status := MMAP_THRESHOLD } : Block), by simp, rfl,
            Or.inr rfl⟩
        · cases h
          exact ⟨last_alloced_idx s.blocks + 1, _, insertAfter_getElem? _ _ _ last hl, rfl,
            Or.inl rfl⟩
  · cases h
    refine ⟨0, ({ addr := s.brk, size := if wadd size (toSizeT (2 * get_block_meta_size)) < MMAP_THRESHOLD
      then size else toSizeT ((MMAP_THRESHOLD : Int) - get_block_meta_size), status := STATUS_ALLOC } : Block), ?_, rfl, Or.inl rfl⟩
    simp only
    split <;> simp [split_block]

/-- C6 (counterexample): with the list `ALLOC, FREE, FREE` a request of 200000
bytes misses best-fit and is mapped, but the two `FREE` blocks have been merged:
the existing blocks are not left unchanged. -/
theorem C6_mapped_alloc_changes_free_blocks :
    ∃ p q r s1 s2 s3, os_malloc (fresh 1000000 70000000000 (fun _ => 0)) 64 = some (p, s1) ∧
      os_malloc s1 64 = some (q, s2) ∧
      (os_free s2 q).blocks =
        [{ addr := 1000000, size := 64, status := STATUS_ALLOC },
         { addr := 1000088, size := 64, status := STATUS_FREE },
         { addr := 1000176, size := 130872, status := STATUS_FREE }] ∧
      (find_best_fit (os_free s2 q) (toSizeT (align 200000))).1 = none ∧
      toSizeT (align 200000) ≥ MMAP_THRESHOLD ∧
      os_malloc (os_free s2 q) 200000 = some (r, s3) ∧
      s3.blocks =
        [{ addr := 1000000, size := 64, status := STATUS_ALLOC },
         { addr := 1000088, size := 130960, status := STATUS_FREE },
         { addr := 70000000000, size := 200000, status := STATUS_MAPPED }] :=
  ⟨_, _, _, _, _, _, rfl, rfl, rfl, rfl, by decide, rfl, rfl⟩

/-- C6 (amended): malloc routing when best-fit misses.  If the aligned size is
at least `MMAP_THRESHOLD` and `mmap` grants the length `align n + header`,
`os_malloc` appends a new `MAPPED` block of the aligned size as the last
element, after the existing blocks as `coalesce` leaves them; if `mmap` refuses
the length the call does not return.  The length is granted whenever `n + 7`
is representable as a non-negative `int`.  If the aligned size is below
`MMAP_THRESHOLD`, the block returned is not `MAPPED`. -/
theorem C6_malloc_routing (s : Heap) (n : Nat) (hn : n ≠ 0)
    (hmiss : (find_best_fit s (toSizeT (align n))).1 = none) :
    (toSizeT (align n) ≥ MMAP_THRESHOLD → ¬ mmap_refuses (wadd (toSizeT (align n)) META) →
      ∃ s', os_malloc s n = some (wadd s.next_map META, s') ∧
        s'.blocks = coalesce s.blocks ++
          [{ addr := s.next_map, size := toSizeT (align n), status := STATUS_MAPPED }]) ∧
    (toSizeT (align n) ≥ MMAP_THRESHOLD → mmap_refuses (wadd (toSizeT (align n)) META) →
      os_malloc s n = none) ∧
    (n + 7 < 2147483648 → ¬ mmap_refuses (wadd (toSizeT (align n)) META)) ∧
    (toSizeT (align n) < MMAP_THRESHOLD →
      ∀ p s', os_malloc s n = some (p, s') →
        ∃ (i : Nat) (b : Block), s'.blocks[i]? = some b ∧ wadd b.addr META = p ∧ b.status ≠ STATUS_MAPPED) := by
  rw [find_best_fit_fst, Option.map_eq_none'] at hmiss
  have e : os_malloc s n = add_new_block { s with blocks := coalesce s.blocks } (toSizeT (align n)) := by
    simp only [os_malloc, if_neg hn, find_best_fit_none s _ hmiss]
  rw [e]
  refine ⟨?_, ?_, ?_, ?_⟩
  · intro hge hok
    simp only [add_new_block, if_pos hge, add_new_mapped_block, if_neg hok]
    cases hc : coalesce s.blocks with
    | nil => exact ⟨_, rfl, rfl⟩
    | cons b rest => exact ⟨_, rfl, rfl⟩
  · intro hge hno
    simp only [add_new_block, if_pos hge, add_new_mapped_block, if_pos hno]
  · intro hsmall
    have hM : META = 24 := by decide
    rw [hM]
    unfold mmap_refuses wadd toSizeT align toInt32 ALIGNMENT
    split <;> split <;> omega
  · intro hlt p s' h
    simp only [add_new_block, if_neg (Nat.not_le.2 hlt)] at h
    obtain ⟨i, b, hb, hp, hst⟩ := add_new_alloced_block_returns _ _ _ _ h
    refine ⟨i, b, hb, hp, ?_⟩
    rcases hst with hst | hst <;> rw [hst] <;> decide

/-- C6 (amended, witness): a mapped request from a fresh state. -/
theorem C6_malloc_routing_witness :
    ∃ s', os_malloc (fresh 1000000 70000000000 (fun _ => 0)) 200000 =
        some (wadd 70000000000 META, s') ∧
      s'.blocks = coalesce [] ++
        [{ addr := 70000000000, size := toSizeT (align 200000), status := STATUS_MAPPED }] :=
  (C6_malloc_routing (fresh 1000000 70000000000 (fun _ => 0)) 200000 (by decide) rfl).1
    (by decide) (by decide)

/-- C7 (failing input): after `allocate(64)` from a fresh state,
`zero_allocate(1000, 100)` has aligned product `100000`, at least the page
size, yet `os_calloc` tests the element size `100`, runs best-fit and returns
the payload of the reused `FREE` brk block; no `MAPPED` block is created. -/
theorem C7_calloc_reuses_free_brk_block :
    ∃ p q s1 s2, os_malloc (fresh 1000000 70000000000 (fun _ => 0)) 64 = some (p, s1) ∧
      s1.blocks =
        [{ addr := 1000000, size := 64, status := STATUS_ALLOC },
         { addr := 1000088, size := 130960, status := STATUS_FREE }] ∧
      toSizeT (align (1000 * 100)) = 100000 ∧ toSizeT (align (1000 * 100)) ≥ getpagesize ∧
      os_calloc s1 1000 100 = some (q, s2) ∧ q = wadd 1000088 META ∧
      s2.blocks =
        [{ addr := 1000000, size := 64, status := STATUS_ALLOC },
         { addr := 1000088, size := 100000, status := STATUS_ALLOC },
         { addr := 1100112, size := 30936, status := STATUS_FREE }] :=
  ⟨_, _, _, _, rfl, rfl, by decide, by decide, rfl, rfl, rfl⟩

/-- C8 (failing input): `p = allocate(64)`, the program stores a byte at `p`,
`free(p)`, then `zero_allocate(2147483648, 1)`: the product does not overflow
`size_t`, the call returns `p` again (the `FREE` tail block, extended), and the
zeroing loop, whose bound is `(int) total_size < 0`, writes nothing: the byte at
`p` still reads `170`. -/
theorem C8_calloc_large_request_not_zeroed :
    ∃ p q s1 s2, os_malloc (fresh 1000000 70000000000 (fun _ => 0)) 64 = some (p, s1) ∧
      os_calloc (os_free (store s1 p 170) p) 2147483648 1 = some (q, s2) ∧
      q = p ∧ q ≠ NULL ∧ 0 < 2147483648 * 1 ∧ 2147483648 * 1 < 18446744073709551616 ∧
      toInt32 (2147483648 * 1) < 0 ∧ s2.mem q = 170 :=
  ⟨_, _, _, _, rfl, rfl, rfl, by decide, by decide, by decide, by decide, rfl⟩

/-- C9 (failing input): two brk blocks grown to 1200000000 bytes each, freed
and reused whole by `allocate(8)` give one `ALLOC` block `B` of 2400000024
bytes.  For `reallocate(p, 8)`, `s = align(8) = 8` and `B.size > s + header`,
but `(int) B.size` is negative, the split test fails, and the call returns `p`
with the whole state unchanged instead of splitting `B`. -/
theorem C9_realloc_shrink_large_block_not_split :
    ∃ p1 q1 p2 q2 p s1 s2 s3 s4 s5 s6,
      os_malloc (fresh 1000000 70000000000 (fun _ => 0)) 131060 = some (p1, s1) ∧
      os_realloc s1 p1 1200000000 = some (q1, s2) ∧
      os_malloc s2 64 = some (p2, s3) ∧
      os_realloc s3 p2 1200000000 = some (q2, s4) ∧
      os_malloc (os_free (os_free s4 q1) q2) 8 = some (p, s5) ∧
      s5.blocks = [{ addr := 1000000, size := 2400000024, status := STATUS_ALLOC }] ∧
      p = wadd 1000000 META ∧ toSizeT (align 8) = 8 ∧ 8 + META < 2400000024 ∧
      os_realloc s5 p 8 = some (p, s6) ∧
      s6.blocks = [{ addr := 1000000, size := 2400000024, status := STATUS_ALLOC }] :=
  ⟨_, _, _, _, _, _, _, _, _, _, _, rfl, rfl, rfl, rfl, rfl, rfl, rfl, by decide, by decide,
    rfl, rfl⟩

/-! ### Lemmas: list operations at a position given as a prefix length -/

theorem blocks_decomp : ∀ (bs : List Block) (i : Nat) (b : Block), bs[i]? = some b →
    bs = bs.take i ++ b :: bs.drop (i + 1) ∧ (bs.take i).length = i
  | [], _, _, h => by simp at h
  | a :: rest, 0, b, h => by
      have : a = b := by simpa using h
      simp [this]
  | a :: rest, i + 1, b, h => by
      obtain ⟨h1, h2⟩ := blocks_decomp rest i b (by simpa using h)
      refine ⟨?_, by simp [h2]⟩
      simp only [List.take_succ_cons, List.drop_succ_cons, List.cons_append]
      rw [← h1]

theorem modifyAt_append (f : Block → Block) (b : Block) (tl : List Block) :
    ∀ (pre : List Block), modifyAt f (pre ++ b :: tl) pre.length = pre ++ f b :: tl
  | [] => rfl
  | a :: pre => by simp [modifyAt, modifyAt_append f b tl pre]

theorem delete_node_append (a b : Block) (tl : List Block) :
    ∀ (pre : List Block), delete_node (pre ++ a :: b :: tl) (pre.length + 1) = pre ++ a :: tl
  | [] => rfl
  | c :: pre => by simp [delete_node, delete_node_append a b tl pre]

theorem delete_node_append_self (b : Block) (tl : List Block) :
    ∀ (pre : List Block), delete_node (pre ++ b :: tl) pre.length = pre ++ tl
  | [] => rfl
  | c :: pre => by simp [delete_node, delete_node_append_self b tl pre]

theorem split_block_append (b : Block) (tl : List Block) (size : Nat) :
    ∀ (pre : List Block), split_block (pre ++ b :: tl) pre.length size =
      pre ++ { b with size := size, status := STATUS_ALLOC } ::
        { addr := wadd (wadd b.addr size) META, size := wsub (wsub b.size size) META,
          status := STATUS_FREE } :: tl
  | [] => rfl
  | c :: pre => by simp [split_block, split_block_append b tl size pre]

theorem insertAfter_append (new b : Block) (tl : List Block) :
    ∀ (pre : List Block), insertAfter new (pre ++ b :: tl) pre.length = pre ++ b :: new :: tl
  | [] => rfl
  | c :: pre => by simp [insertAfter, insertAfter_append new b tl pre]

theorem getElem?_append_length (b : Block) (tl : List Block) (pre : List Block) :
    (pre ++ b :: tl)[pre.length]? = some b := by
  rw [List.getElem?_append_right (Nat.le_refl _)]
  simp

theorem getElem?_append_length_succ (a b : Block) (tl : List Block) (pre : List Block) :
    (pre ++ a :: b :: tl)[pre.length + 1]? = some b := by
  rw [List.getElem?_append_right (by omega)]
  simp

theorem take_append_length (pre tl : List Block) : (pre ++ tl).take pre.length = pre := by
  simp

theorem drop_append_length_succ (pre : List Block) (b : Block) (tl : List Block) :
    (pre ++ b :: tl).drop (pre.length + 1) = tl := by
  rw [List.drop_append_eq_append_drop]
  simp

/-! ### Lemmas: machine arithmetic -/

theorem META_eq : META = 24 := by decide

theorem wadd_eq {a b : Nat} (h : a + b < 18446744073709551616) : wadd a b = a + b :=
  Nat.mod_eq_of_lt h

theorem wsub_eq {a b : Nat} (hb : b ≤ a) (ha : a < 18446744073709551616) : wsub a b = a - b := by
  unfold wsub
  omega

theorem wadd_lt (a b : Nat) : wadd a b < 18446744073709551616 :=
  Nat.mod_lt _ (by decide)

/-! ### Lemmas: `coalesce_realloc` -/

theorem coalesce_realloc_loop_spec (target : Nat) : ∀ (rest : List Block) (total : Nat),
    total + capacity (free_run rest) < 18446744073709551616 →
    ∃ k, k ≤ (free_run rest).length ∧
      (coalesce_realloc_loop target total rest).2 = rest.drop k ∧
      (coalesce_realloc_loop target total rest).1 = total + capacity (rest.take k) ∧
      ((coalesce_realloc_loop target total rest).1 ≥ target ∨ k = (free_run rest).length)
  | [], total, _ => ⟨0, by simp [free_run], rfl, by simp [coalesce_realloc_loop, capacity],
      Or.inr (by simp [free_run])⟩
  | nxt :: rest, total, h => by
      by_cases hf : nxt.status = STATUS_FREE
      · have hrun : free_run (nxt :: rest) = nxt :: free_run rest := by simp [free_run, hf]
        rw [hrun] at h ⊢
        simp only [capacity] at h
        have h1 : wadd total (wadd nxt.size META) = total + (nxt.size + META) := by
          rw [wadd_eq (a := nxt.size) (by omega), wadd_eq (by omega)]
        by_cases hstop : rest.isEmpty ∨ wadd total (wadd nxt.size META) ≥ target
        · have e : coalesce_realloc_loop target total (nxt :: rest) =
              (wadd total (wadd nxt.size META), rest) := by
            simp only [coalesce_realloc_loop, if_pos hf, if_pos hstop]
          rw [e]
          refine ⟨1, by simp, rfl, by simp [capacity, h1], ?_⟩
          rcases hstop with hstop | hstop
          · right
            have : rest = [] := by simpa using hstop
            simp [this, free_run]
          · exact Or.inl hstop
        · have e : coalesce_realloc_loop target total (nxt :: rest) =
              coalesce_realloc_loop target (wadd total (wadd nxt.size META)) rest := by
            simp only [coalesce_realloc_loop, if_pos hf, if_neg hstop]
          rw [e, h1]
          obtain ⟨k, hk, h2, h3, h4⟩ := coalesce_realloc_loop_spec target rest
            (total + (nxt.size + META)) (by omega)
          refine ⟨k + 1, by simpa using hk, by simpa using h2, ?_, ?_⟩
          · rw [h3]
            simp only [List.take_succ_cons, capacity]
            omega
          · rcases h4 with h4 | h4
            · exact Or.inl h4
            · exact Or.inr (by simp [h4])
      · have hrun : free_run (nxt :: rest) = [] := by simp [free_run, hf]
        have e : coalesce_realloc_loop target total (nxt :: rest) = (total, nxt :: rest) := by
          simp only [coalesce_realloc_loop, if_neg hf]
        rw [e, hrun]
        exact ⟨0, by simp, rfl, by simp [capacity], Or.inr rfl⟩

theorem capacity_take_free_run : ∀ (l : List Block) (k : Nat), k ≤ (free_run l).length →
    capacity (l.take k) ≤ capacity (free_run l)
  | _, 0, _ => by simp [capacity]
  | [], _ + 1, _ => by simp [capacity]
  | b :: rest, k + 1, h => by
      by_cases hf : b.status = STATUS_FREE
      · have hrun : free_run (b :: rest) = b :: free_run rest := by simp [free_run, hf]
        rw [hrun] at h ⊢
        have := capacity_take_free_run rest k (by simpa using h)
        simp only [List.take_succ_cons, capacity]
        omega
      · have hrun : free_run (b :: rest) = [] := by simp [free_run, hf]
        rw [hrun] at h
        simp at h

theorem coalesce_realloc_spec (target : Nat) (S : Block) (rest : List Block)
    (hS : S.status = STATUS_FREE)
    (h : capacity (free_run (S :: rest)) < 18446744073709551616) :
    ∃ k m, 1 ≤ k ∧ k ≤ (free_run (S :: rest)).length ∧
      coalesce_realloc target (S :: rest) = { S with size := m } :: (S :: rest).drop k ∧
      m + META = capacity ((S :: rest).take k) ∧
      (m ≥ target ∨ k = (free_run (S :: rest)).length) := by
  have hrun : free_run (S :: rest) = S :: free_run rest := by simp [free_run, hS]
  rw [hrun] at h ⊢
  simp only [capacity] at h
  obtain ⟨k, hk, h2, h3, h4⟩ := coalesce_realloc_loop_spec target rest S.size (by omega)
  refine ⟨k + 1, (coalesce_realloc_loop target S.size rest).1, by omega, by simpa using hk, ?_, ?_, ?_⟩
  · simp only [coalesce_realloc, if_pos hS, h2, List.drop_succ_cons]
  · rw [h3]
    simp only [List.take_succ_cons, capacity]
    omega
  · rcases h4 with h4 | h4
    · exact Or.inl h4
    · exact Or.inr (by simp [h4])

theorem free_run_ne_nil_of_capacity {l : List Block} (h : 0 < capacity (free_run l)) :
    ∃ S rest, l = S :: rest ∧ S.status = STATUS_FREE := by
  cases l with
  | nil => simp [free_run, capacity] at h
  | cons S rest =>
      by_cases hf : S.status = STATUS_FREE
      · exact ⟨S, rest, rfl, hf⟩
      · simp [free_run, hf, capacity] at h

theorem try_realloc_expanding_hit (pre : List Block) (B S : Block) (rest : List Block)
    (size : Nat) (hS : S.status = STATUS_FREE) (hlt : B.size < size)
    (hcap : size ≤ B.size + capacity (free_run (S :: rest)))
    (hnw : B.size + capacity (free_run (S :: rest)) < 18446744073709551616) :
    ∃ k m, 1 ≤ k ∧ k ≤ (free_run (S :: rest)).length ∧
      try_realloc_expanding (pre ++ B :: S :: rest) pre.length B size =
        (pre ++ B :: { S with size := m } :: (S :: rest).drop k, some (pre.length + 1)) ∧
      m + META = capacity ((S :: rest).take k) ∧ size ≤ B.size + m + META ∧
      B.size + m + META < 18446744073709551616 := by
  obtain ⟨k, m, hk1, hk2, he, hm, hstop⟩ :=
    coalesce_realloc_spec (wsub (wsub size B.size) META) S rest hS (by omega)
  have hle := capacity_take_free_run (S :: rest) k hk2
  have hge : size ≤ B.size + m + META := by
    rcases hstop with hstop | hstop
    · have hM := META_eq
      unfold wsub at hstop
      omega
    · have : capacity ((S :: rest).take k) = capacity (free_run (S :: rest)) := by
        apply Nat.le_antisymm hle
        rw [hstop]
        -- the whole run has been absorbed
        have hp : ∀ (l : List Block), capacity (free_run l) ≤ capacity (l.take (free_run l).length) := by
          intro l
          induction l with
          | nil => simp [free_run, capacity]
          | cons b tl ih =>
              by_cases hf : b.status = STATUS_FREE
              · simp only [free_run, if_pos hf, List.length_cons, List.take_succ_cons, capacity]
                omega
              · simp [free_run, hf, capacity]
        exact hp _
      omega
  refine ⟨k, m, hk1, hk2, ?_, hm, hge, by omega⟩
  have hbs1 : List.take (pre.length + 1) (pre ++ B :: S :: rest) ++
      coalesce_realloc (wsub (wsub size B.size) META) (List.drop (pre.length + 1) (pre ++ B :: S :: rest)) =
      pre ++ B :: { S with size := m } :: (S :: rest).drop k := by
    rw [drop_append_length_succ, he]
    have : List.take (pre.length + 1) (pre ++ B :: S :: rest) = pre ++ [B] := by
      rw [List.take_append_eq_append_take]
      simp
    rw [this]
    simp
  simp only [try_realloc_expanding, hbs1]
  rw [getElem?_append_length_succ]
  have hcond : wadd (wadd B.size m) META ≥ size := by
    rw [wadd_eq (a := B.size) (by omega), wadd_eq (by omega)]
    exact hge
  simp only [hS]
  rw [if_pos ⟨hcond, trivial⟩]

/-! ### Lemmas: unfolding `os_realloc` -/

theorem os_realloc_alloc (st : Heap) (ptr n i : Nat) (B : Block) (hn : n ≠ 0) (hp : ptr ≠ NULL)
    (hfind : find_block st.blocks (wsub ptr META) = some i) (hB : st.blocks[i]? = some B)
    (hA : B.status = STATUS_ALLOC) :
    os_realloc st ptr n =
      if toInt32 B.size > toInt32 (wadd (toSizeT (align n)) META) then
        some (wadd B.addr META, { st with blocks := split_block st.blocks i (toSizeT (align n)) })
      else if B.size ≥ toSizeT (align n) then some (wadd B.addr META, st)
      else
        match try_realloc_expanding st.blocks i B (toSizeT (align n)) with
        | (bs1, none) => realloc_move { st with blocks := bs1 } B (toSizeT (align n))
        | (bs1, some best_fit) =>
            if best_fit = i then
              some (expand_last_block_realloc { st with blocks := bs1 } i B (toSizeT (align n)))
            else expand_block_realloc { st with blocks := bs1 } i B (toSizeT (align n)) := by
  have h1 : ¬ B.status = STATUS_FREE := by rw [hA]; decide
  have h2 : ¬ B.status = STATUS_MAPPED := by rw [hA]; decide
  simp only [os_realloc, if_neg hn, if_neg hp, hfind, hB, if_neg h1, if_neg h2, if_pos hA]

theorem payload_of_found (bs : List Block) (ptr i : Nat) (B : Block)
    (hptr : ptr < 18446744073709551616)
    (hfind : find_block bs (wsub ptr META) = some i) (hB : bs[i]? = some B) :
    wadd B.addr META = ptr := by
  obtain ⟨⟨B0, hB0, haddr⟩, _⟩ := find_block_some _ _ _ hfind
  rw [hB] at hB0
  cases hB0
  rw [haddr]
  have := META_eq
  unfold wadd wsub
  omega

/-- C10 (failing input): fresh process, `a = allocate(64)`,
`b = allocate(130960)`, `b = reallocate(b, 2147483616)`, `free(b)`: the list is
`ALLOC 64, FREE 2147483616`.  For `reallocate(a, 2147483624)`,
`s = align(n) = 2147483624 > 64`, and the block of `a` together with the
capacity of the `FREE` run after it exceeds `s + header`.  But
`(int) (s + header)` is `-2147483648`, so the shrink test
`(int) block->size > (int) (total_size + header)` of `os_realloc` holds and
`split_block` runs instead of the forward coalescing: the call returns `a`,
the block has size `s`, the block linked after it has the size
`64 - s - header` modulo `2^64` instead of the remainder of 56 bytes, and the
`FREE` successor is still in the list although its header lies inside the
payload of `a`. -/
theorem C10_realloc_grow_skips_forward_coalescing :
    ∃ a b b2 s1 s2 s3 s5,
      os_malloc (fresh 1000000 70000000000 (fun _ => 0)) 64 = some (a, s1) ∧
      os_malloc s1 130960 = some (b, s2) ∧
      os_realloc s2 b 2147483616 = some (b2, s3) ∧
      (os_free s3 b2).blocks =
        [{ addr := 1000000, size := 64, status := STATUS_ALLOC },
         { addr := 1000088, size := 2147483616, status := STATUS_FREE }] ∧
      a = wadd 1000000 META ∧
      toSizeT (align 2147483624) = 2147483624 ∧
      2147483624 + META < 64 + capacity (free_run ((os_free s3 b2).blocks.drop 1)) ∧
      64 + capacity (free_run ((os_free s3 b2).blocks.drop 1)) - 2147483624 - META = 56 ∧
      toInt32 (wadd 2147483624 META) = -2147483648 ∧
      os_realloc (os_free s3 b2) a 2147483624 = some (a, s5) ∧
      s5.blocks =
        [{ addr := 1000000, size := 2147483624, status := STATUS_ALLOC },
         { addr := 2148483648, size := 18446744071562068032, status := STATUS_FREE },
         { addr := 1000088, size := 2147483616, status := STATUS_FREE }] ∧
      s5.blocks ≠
        [{ addr := 1000000, size := 2147483624, status := STATUS_ALLOC },
         { addr := 2148483648, size := 56, status := STATUS_FREE }] ∧
      a ≤ 1000088 ∧ 1000088 + META ≤ a + 2147483624 :=
  ⟨_, _, _, _, _, _, _, rfl, rfl, rfl, rfl, rfl, by decide, by decide, by decide, by decide,
    rfl, rfl, by decide, by decide, by decide⟩

/-! ### Lemmas: contiguity and order of the list -/

theorem brkInv_tail {a : Block} {l : List Block} (h : BrkInv (a :: l)) : BrkInv l := by
  cases l with
  | nil => trivial
  | cons b rest => exact h.2

theorem brkInv_cons {a b : Block} {l : List Block} (hl : Link a b) (h : BrkInv (b :: l)) :
    BrkInv (a :: b :: l) := ⟨hl, h⟩

theorem brkInv_append_iff (b : Block) (tl : List Block) : ∀ (pre : List Block),
    BrkInv (pre ++ b :: tl) ↔ BrkInv (pre ++ [b]) ∧ BrkInv (b :: tl)
  | [] => by simp [BrkInv]
  | [a] => by
      show Link a b ∧ BrkInv (b :: tl) ↔ (Link a b ∧ BrkInv [b]) ∧ BrkInv (b :: tl)
      simp [BrkInv]
  | a :: c :: pre => by
      have ih := brkInv_append_iff b tl (c :: pre)
      show Link a c ∧ BrkInv (c :: pre ++ b :: tl) ↔
        (Link a c ∧ BrkInv (c :: pre ++ [b])) ∧ BrkInv (b :: tl)
      rw [ih]
      tauto

theorem brkInv_snoc_congr {b c : Block} (ha : c.addr = b.addr)
    (hs : c.status ≠ STATUS_MAPPED → b.status ≠ STATUS_MAPPED) : ∀ (pre : List Block),
    BrkInv (pre ++ [b]) → BrkInv (pre ++ [c])
  | [], _ => trivial
  | [a], h => by
      refine ⟨fun hb' => ?_, trivial⟩
      have := h.1 (hs hb')
      rw [ha]
      exact this
  | a :: d :: pre, h => ⟨h.1, brkInv_snoc_congr ha hs (d :: pre) h.2⟩

theorem brkInv_head_congr {b c : Block} {tl : List Block} (ha : c.addr = b.addr)
    (hz : c.size = b.size) (hs : b.status ≠ STATUS_MAPPED → c.status ≠ STATUS_MAPPED)
    (h : BrkInv (b :: tl)) : BrkInv (c :: tl) := by
  cases tl with
  | nil => trivial
  | cons d rest =>
      refine ⟨fun hc => ?_, h.2⟩
      obtain ⟨h1, h2⟩ := h.1 hc
      exact ⟨hs h1, by rw [ha, hz]; exact h2⟩

theorem brkInv_head_mapped_next {b' : Block} {tl : List Block}
    (hnext : ∀ c, tl.head? = some c → c.status = STATUS_MAPPED)
    (h : BrkInv tl) : BrkInv (b' :: tl) := by
  cases tl with
  | nil => trivial
  | cons c rest => exact ⟨fun hc => absurd (hnext c rfl) hc, h⟩

theorem brkInv_prefix_not_mapped {b : Block} (hb : b.status ≠ STATUS_MAPPED) :
    ∀ (pre : List Block), BrkInv (pre ++ [b]) → ∀ a ∈ pre, a.status ≠ STATUS_MAPPED
  | [], _ => by simp
  | [a], h => by
      intro x hx
      have : x = a := by simpa using hx
      rw [this]
      exact (h.1 hb).1
  | a :: c :: pre, h => by
      have ih := brkInv_prefix_not_mapped hb (c :: pre) h.2
      intro x hx
      rcases List.mem_cons.1 hx with rfl | hx
      · exact (h.1 (ih c (List.mem_cons_self _ _))).1
      · exact ih x hx

theorem brkInv_mapped_after {b : Block} (hb : b.status = STATUS_MAPPED) :
    ∀ (tl : List Block), BrkInv (b :: tl) → ∀ c ∈ tl, c.status = STATUS_MAPPED
  | [], _ => by simp
  | c :: rest, h => by
      have hc : c.status = STATUS_MAPPED := by
        by_contra hc
        exact (h.1 hc).1 hb
      intro x hx
      rcases List.mem_cons.1 hx with rfl | hx
      · exact hc
      · exact brkInv_mapped_after hc rest h.2 x hx

theorem blocks_split (bs : List Block) (i : Nat) (b : Block) (h : bs[i]? = some b) :
    ∃ pre tl, bs = pre ++ b :: tl ∧ pre.length = i :=
  ⟨_, _, (blocks_decomp bs i b h).1, (blocks_decomp bs i b h).2⟩

theorem link_merge {cur nxt c : Block} (hcn : Link cur nxt) (hnc : Link nxt c)
    (hn : nxt.status ≠ STATUS_MAPPED) (sz : Nat)
    (hsz : sz = wadd cur.size (wadd nxt.size META)) :
    Link { cur with size := sz } c := by
  intro hc
  obtain ⟨_, h2⟩ := hnc hc
  obtain ⟨h3, h4⟩ := hcn hn
  refine ⟨h3, ?_⟩
  show c.addr = wadd (wadd cur.addr META) sz
  rw [h2, h4, hsz]
  have := META_eq
  unfold wadd
  omega

theorem brkInv_merge {cur nxt : Block} {rest : List Block} (h : BrkInv (cur :: nxt :: rest))
    (hn : nxt.status ≠ STATUS_MAPPED) :
    BrkInv ({ cur with size := wadd cur.size (wadd nxt.size META) } :: rest) := by
  cases rest with
  | nil => trivial
  | cons c rest' => exact ⟨link_merge h.1 h.2.1 hn _ rfl, h.2.2⟩

theorem brkInv_coalesce_loop : ∀ (rest : List Block) (cur : Block),
    BrkInv (cur :: rest) → BrkInv (coalesce_loop cur rest)
  | [], _, _ => trivial
  | nxt :: rest, cur, h => by
      unfold coalesce_loop
      split
      · rename_i hff
        exact brkInv_coalesce_loop rest _
          (brkInv_merge h (by rw [hff.2]; decide))
      · obtain ⟨hd, tl, e, hs, ha⟩ := coalesce_loop_head rest nxt
        have ih := brkInv_coalesce_loop rest nxt h.2
        rw [e] at ih ⊢
        refine ⟨fun hh => ?_, ih⟩
        rw [ha]
        exact h.1 (by rw [← hs]; exact hh)

theorem brkInv_coalesce (bs : List Block) (h : BrkInv bs) : BrkInv (coalesce bs) := by
  cases bs with
  | nil => trivial
  | cons b rest => exact brkInv_coalesce_loop rest b h

theorem brkInv_split_at (pre : List Block) (b : Block) (tl : List Block) (size : Nat)
    (hb : b.status ≠ STATUS_MAPPED) (h : BrkInv (pre ++ b :: tl)) :
    BrkInv (pre ++ { b with size := size, status := STATUS_ALLOC } ::
      { addr := wadd (wadd b.addr size) META, size := wsub (wsub b.size size) META,
        status := STATUS_FREE } :: tl) := by
  obtain ⟨h1, h2⟩ := (brkInv_append_iff b tl pre).1 h
  refine (brkInv_append_iff _ _ pre).2
    ⟨brkInv_snoc_congr (b := b) (c := { b with size := size, status := STATUS_ALLOC }) rfl
      (fun _ => hb) pre h1, ?_, ?_⟩
  · intro _
    refine ⟨by simp [STATUS_ALLOC, STATUS_MAPPED], ?_⟩
    show wadd (wadd b.addr size) META = wadd (wadd b.addr META) size
    unfold wadd
    omega
  · cases tl with
    | nil => trivial
    | cons c rest =>
        refine ⟨fun hc => ⟨by simp [STATUS_FREE, STATUS_MAPPED], ?_⟩, h2.2⟩
        obtain ⟨_, h3⟩ := h2.1 hc
        show c.addr = wadd (wadd (wadd (wadd b.addr size) META) META) (wsub (wsub b.size size) META)
        rw [h3]
        have := META_eq
        unfold wadd wsub
        omega

theorem brkInv_split_block (bs : List Block) (i : Nat) (b : Block) (size : Nat)
    (hi : bs[i]? = some b) (hb : b.status ≠ STATUS_MAPPED) (h : BrkInv bs) :
    BrkInv (split_block bs i size) := by
  obtain ⟨pre, tl, rfl, rfl⟩ := blocks_split bs i b hi
  rw [split_block_append]
  exact brkInv_split_at _ b _ size hb h

theorem brkInv_set_status (bs : List Block) (i : Nat) (b : Block) (st : Nat)
    (hi : bs[i]? = some b) (hb : b.status ≠ STATUS_MAPPED) (hst : st ≠ STATUS_MAPPED)
    (h : BrkInv bs) : BrkInv (modifyAt (fun b => { b with status := st }) bs i) := by
  obtain ⟨pre, tl, rfl, rfl⟩ := blocks_split bs i b hi
  rw [modifyAt_append]
  obtain ⟨h1, h2⟩ := (brkInv_append_iff b _ _).1 h
  exact (brkInv_append_iff _ _ _).2
    ⟨brkInv_snoc_congr (b := b) (c := { b with status := st }) rfl (fun _ => hb) _ h1,
      brkInv_head_congr (b := b) (c := { b with status := st }) rfl rfl (fun _ => hst) h2⟩

theorem last_alloced_idx_spec : ∀ (b0 : Block) (rest : List Block),
    ∃ pre last tl, b0 :: rest = pre ++ last :: tl ∧ pre.length = last_alloced_idx (b0 :: rest) ∧
      ∀ c, tl.head? = some c → c.status = STATUS_MAPPED
  | b0, [] => ⟨[], b0, [], rfl, rfl, by simp⟩
  | b0, nxt :: rest => by
      by_cases hm : nxt.status = STATUS_MAPPED
      · refine ⟨[], b0, nxt :: rest, rfl, by simp [last_alloced_idx, hm], ?_⟩
        intro c hc
        have : nxt = c := by simpa using hc
        rw [← this]
        exact hm
      · obtain ⟨pre, last, tl, h1, h2, h3⟩ := last_alloced_idx_spec nxt rest
        refine ⟨b0 :: pre, last, tl, by rw [h1]; rfl, ?_, h3⟩
        simp [last_alloced_idx, hm, h2]

theorem last_alloced_split (bs : List Block) (last : Block)
    (hl : bs[last_alloced_idx bs]? = some last) :
    ∃ pre tl, bs = pre ++ last :: tl ∧ pre.length = last_alloced_idx bs ∧
      ∀ c, tl.head? = some c → c.status = STATUS_MAPPED := by
  cases bs with
  | nil => simp at hl
  | cons b0 rest =>
      obtain ⟨pre, last', tl, h1, h2, h3⟩ := last_alloced_idx_spec b0 rest
      have : last' = last := by
        have h4 := getElem?_append_length last' tl pre
        rw [← h1, h2, hl] at h4
        exact (Option.some.inj h4).symm
      subst this
      exact ⟨pre, tl, h1, h2, h3⟩

theorem brkInv_replace_last (pre : List Block) (last b' : Block) (tl : List Block)
    (hnext : ∀ c, tl.head? = some c → c.status = STATUS_MAPPED)
    (ha : b'.addr = last.addr) (hs : b'.status ≠ STATUS_MAPPED → last.status ≠ STATUS_MAPPED)
    (h : BrkInv (pre ++ last :: tl)) : BrkInv (pre ++ b' :: tl) := by
  obtain ⟨h1, h2⟩ := (brkInv_append_iff last tl pre).1 h
  exact (brkInv_append_iff _ _ pre).2
    ⟨brkInv_snoc_congr (b := last) (c := b') ha hs pre h1,
      brkInv_head_mapped_next hnext (brkInv_tail h2)⟩

theorem brkInv_insert_after_last (pre : List Block) (last : Block) (tl : List Block)
    (size st : Nat) (hnext : ∀ c, tl.head? = some c → c.status = STATUS_MAPPED)
    (hlast : last.status ≠ STATUS_MAPPED) (h : BrkInv (pre ++ last :: tl)) :
    BrkInv (pre ++ last ::
      { addr := wadd (wadd last.addr last.size) META, size := size, status := st } :: tl) := by
  obtain ⟨h1, h2⟩ := (brkInv_append_iff last tl pre).1 h
  refine (brkInv_append_iff _ _ pre).2 ⟨h1, ?_, brkInv_head_mapped_next hnext (brkInv_tail h2)⟩
  intro _
  refine ⟨hlast, ?_⟩
  show wadd (wadd last.addr last.size) META = wadd (wadd last.addr META) last.size
  unfold wadd
  omega

theorem brkInv_snoc_mapped (m : Block) (hm : m.status = STATUS_MAPPED) :
    ∀ (bs : List Block), BrkInv bs → BrkInv (bs ++ [m])
  | [], _ => trivial
  | [a], _ => ⟨fun h => absurd hm h, trivial⟩
  | a :: b :: rest, h => ⟨h.1, brkInv_snoc_mapped m hm (b :: rest) h.2⟩

theorem brkInv_drop : ∀ (bs : List Block) (i : Nat), BrkInv bs → BrkInv (bs.drop i)
  | bs, 0, h => h
  | [], _ + 1, _ => trivial
  | _ :: rest, i + 1, h => brkInv_drop rest i (brkInv_tail h)

theorem brkInv_append_left : ∀ (pre l : List Block), BrkInv (pre ++ l) → BrkInv pre
  | [], _, _ => trivial
  | [a], _, _ => trivial
  | a :: b :: pre, l, h => ⟨h.1, brkInv_append_left (b :: pre) l h.2⟩

theorem brkInv_delete_mapped (pre : List Block) (b : Block) (tl : List Block)
    (hb : b.status = STATUS_MAPPED) (h : BrkInv (pre ++ b :: tl)) : BrkInv (pre ++ tl) := by
  obtain ⟨h1, h2⟩ := (brkInv_append_iff b tl pre).1 h
  have hpre := brkInv_append_left pre [b] h1
  cases tl with
  | nil => simpa using hpre
  | cons c rest =>
      have hc : c.status = STATUS_MAPPED :=
        brkInv_mapped_after hb (c :: rest) h2 c (List.mem_cons_self _ _)
      exact (brkInv_append_iff c rest pre).2 ⟨brkInv_snoc_mapped c hc pre hpre, h2.2⟩

/-! ### Lemmas: the invariant through the allocation paths -/

theorem brkInv_find_best_fit (s : Heap) (size : Nat) (h : BrkInv s.blocks) :
    BrkInv (find_best_fit s size).2.blocks := by
  have hco := brkInv_coalesce s.blocks h
  cases hb : best_fit_loop size (coalesce s.blocks) 0 none with
  | none => rw [find_best_fit_none s size hb]; exact hco
  | some kc =>
      obtain ⟨k, c⟩ := kc
      obtain ⟨hk, hcand, _, _⟩ := best_fit_loop_top size _ k c hb
      have hc : c.status ≠ STATUS_MAPPED := by rw [hcand.1]; decide
      rw [find_best_fit_some s size k c hb]
      split
      · exact brkInv_split_block _ k c size hk hc hco
      · exact brkInv_set_status _ k c STATUS_ALLOC hk hc (by decide) hco

theorem brkInv_add_new_mapped_block (s : Heap) (size p : Nat) (s' : Heap)
    (h : BrkInv s.blocks) (hr : add_new_mapped_block s size = some (p, s')) :
    BrkInv s'.blocks := by
  rw [(add_new_mapped_block_some s size p s' hr).2.2.1]
  exact brkInv_snoc_mapped _ rfl _ h

theorem brkInv_add_new_alloced_block (s : Heap) (size p : Nat) (s' : Heap) (h : BrkInv s.blocks)
    (hr : add_new_alloced_block s size = some (p, s')) : BrkInv s'.blocks := by
  simp only [add_new_alloced_block] at hr
  split at hr
  · split at hr
    · cases hr
    · rename_i last hl
      obtain ⟨pre, tl, hdec, hlen, hnext⟩ := last_alloced_split s.blocks last hl
      split at hr
      · rename_i hfree
        cases hr
        show BrkInv (modifyAt _ s.blocks (last_alloced_idx s.blocks))
        rw [← hlen, hdec, modifyAt_append]
        rw [hdec] at h
        exact brkInv_replace_last pre last _ tl hnext rfl
          (fun _ => by rw [hfree]; decide) h
      · split at hr
        · rename_i hmapped
          cases hr
          refine brkInv_head_mapped_next ?_ (brkInv_drop _ _ h)
          intro c hc
          rw [List.head?_drop, hl] at hc
          cases hc
          exact hmapped
        · rename_i hnm
          cases hr
          show BrkInv (insertAfter _ s.blocks (last_alloced_idx s.blocks))
          rw [← hlen, hdec, insertAfter_append]
          rw [hdec] at h
          exact brkInv_insert_after_last pre last tl size STATUS_ALLOC hnext hnm h
  · cases hr
    simp only
    split
    · exact brkInv_split_at [] _ [] size (by simp [STATUS_ALLOC, STATUS_MAPPED]) trivial
    · trivial

theorem brkInv_add_new_block (s : Heap) (size p : Nat) (s' : Heap) (h : BrkInv s.blocks)
    (hr : add_new_block s size = some (p, s')) : BrkInv s'.blocks := by
  simp only [add_new_block] at hr
  split at hr
  · exact brkInv_add_new_mapped_block s _ p s' h hr
  · exact brkInv_add_new_alloced_block s _ p s' h hr

theorem brkInv_add_new_block_calloc (s : Heap) (size p : Nat) (s' : Heap) (h : BrkInv s.blocks)
    (hr : add_new_block_calloc s size = some (p, s')) : BrkInv s'.blocks := by
  simp only [add_new_block_calloc] at hr
  split at hr
  · exact brkInv_add_new_mapped_block s _ p s' h hr
  · exact brkInv_add_new_alloced_block s _ p s' h hr

theorem brkInv_os_malloc (s : Heap) (n p : Nat) (s' : Heap) (h : BrkInv s.blocks)
    (hr : os_malloc s n = some (p, s')) : BrkInv s'.blocks := by
  by_cases hn : n = 0
  · simp only [os_malloc, if_pos hn] at hr
    cases hr
    exact h
  · have hfb := brkInv_find_best_fit s (toSizeT (align n)) h
    simp only [os_malloc, if_neg hn] at hr
    rcases hf : find_best_fit s (toSizeT (align n)) with ⟨r, s1⟩
    rw [hf] at hr hfb
    cases r with
    | none => exact brkInv_add_new_block s1 _ p s' hfb hr
    | some i =>
        simp only [Option.map_eq_some'] at hr
        obtain ⟨a, _, ha⟩ := hr
        cases ha
        exact hfb

theorem brkInv_os_free (s : Heap) (ptr : Nat) (h : BrkInv s.blocks) :
    BrkInv (os_free s ptr).blocks := by
  by_cases hp : ptr = NULL
  · rw [hp, os_free_null]; exact h
  · cases hf : find_block s.blocks (wsub ptr META) with
    | none => rw [os_free_not_found s ptr hf]; exact h
    | some i =>
        obtain ⟨⟨b, hb, _⟩, _⟩ := find_block_some _ _ _ hf
        rw [os_free_found s ptr i b hp hf hb]
        split
        · rename_i hA
          exact brkInv_set_status _ i b STATUS_FREE hb (by rw [hA]; decide) (by decide) h
        · split
          · rename_i hM
            obtain ⟨pre, tl, hdec, hlen⟩ := blocks_split s.blocks i b hb
            show BrkInv (delete_node s.blocks i)
            rw [← hlen, hdec, delete_node_append_self]
            rw [hdec] at h
            exact brkInv_delete_mapped pre b tl hM h
          · exact h

theorem brkInv_os_calloc (s : Heap) (nmemb n p : Nat) (s' : Heap) (h : BrkInv s.blocks)
    (hr : os_calloc s nmemb n = some (p, s')) : BrkInv s'.blocks := by
  simp only [os_calloc] at hr
  split at hr
  · cases hr
    exact h
  · simp only [Option.map_eq_some'] at hr
    obtain ⟨⟨adr, s2⟩, hres, heq⟩ := hr
    have hb : s'.blocks = s2.blocks := by
      simp only at heq
      split at heq <;> cases heq <;> rfl
    rw [hb]
    by_cases hc : toInt32 (wadd n META) < toInt32 getpagesize
    · rw [if_pos hc] at hres
      have hfb := brkInv_find_best_fit s (toSizeT (align (nmemb * n % 18446744073709551616))) h
      rcases hf : find_best_fit s (toSizeT (align (nmemb * n % 18446744073709551616))) with ⟨r, s1⟩
      rw [hf] at hres hfb
      cases r with
      | none => exact brkInv_add_new_block_calloc s1 _ adr s2 hfb hres
      | some i =>
          simp only at hres
          split at hres
          · exact brkInv_add_new_block_calloc s1 _ adr s2 hfb hres
          · simp only [Option.map_eq_some'] at hres
            obtain ⟨a, _, ha⟩ := hres
            cases ha
            exact hfb
    · rw [if_neg hc] at hres
      exact brkInv_add_new_block_calloc s _ adr s2 h hres

theorem brkInv_coalesce_realloc_loop (target : Nat) : ∀ (rest : List Block) (cur : Block),
    BrkInv (cur :: rest) →
    BrkInv ({ cur with size := (coalesce_realloc_loop target cur.size rest).1 } ::
      (coalesce_realloc_loop target cur.size rest).2)
  | [], _, _ => trivial
  | nxt :: rest, cur, h => by
      by_cases hf : nxt.status = STATUS_FREE
      · have hm := brkInv_merge h (by rw [hf]; decide)
        by_cases hstop : rest.isEmpty ∨ wadd cur.size (wadd nxt.size META) ≥ target
        · simp only [coalesce_realloc_loop, if_pos hf, if_pos hstop]
          exact hm
        · simp only [coalesce_realloc_loop, if_pos hf, if_neg hstop]
          exact brkInv_coalesce_realloc_loop target rest _ hm
      · simp only [coalesce_realloc_loop, if_neg hf]
        exact h

theorem coalesce_realloc_head (target : Nat) (S : Block) (rest : List Block) :
    ∃ S' tl, coalesce_realloc target (S :: rest) = S' :: tl ∧ S'.addr = S.addr ∧
      S'.status = S.status := by
  by_cases hf : S.status = STATUS_FREE
  · exact ⟨{ S with size := (coalesce_realloc_loop target S.size rest).1 },
      (coalesce_realloc_loop target S.size rest).2,
      by simp only [coalesce_realloc, if_pos hf], rfl, rfl⟩
  · exact ⟨S, rest, by simp only [coalesce_realloc, if_neg hf], rfl, rfl⟩

theorem brkInv_coalesce_realloc (target : Nat) (l : List Block) (h : BrkInv l) :
    BrkInv (coalesce_realloc target l) := by
  cases l with
  | nil => trivial
  | cons S rest =>
      by_cases hf : S.status = STATUS_FREE
      · simp only [coalesce_realloc, if_pos hf]
        exact brkInv_coalesce_realloc_loop target rest S h
      · simp only [coalesce_realloc, if_neg hf]
        exact h

theorem try_realloc_expanding_fst (bs : List Block) (i : Nat) (B : Block) (size : Nat) :
    (try_realloc_expanding bs i B size).1 =
      bs.take (i + 1) ++ coalesce_realloc (wsub (wsub size B.size) META) (bs.drop (i + 1)) := by
  simp only [try_realloc_expanding]
  split
  · split
    · rfl
    · split <;> rfl
  · split <;> rfl

theorem try_realloc_expanding_shape (pre : List Block) (B : Block) (l : List Block) (size : Nat) :
    (try_realloc_expanding (pre ++ B :: l) pre.length B size).1 =
      pre ++ B :: coalesce_realloc (wsub (wsub size B.size) META) l := by
  rw [try_realloc_expanding_fst, drop_append_length_succ]
  have : List.take (pre.length + 1) (pre ++ B :: l) = pre ++ [B] := by
    rw [List.take_append_eq_append_take]
    simp
  rw [this]
  simp

theorem brkInv_try_realloc_expanding (pre : List Block) (B : Block) (l : List Block)
    (size : Nat) (h : BrkInv (pre ++ B :: l)) :
    BrkInv (try_realloc_expanding (pre ++ B :: l) pre.length B size).1 := by
  rw [try_realloc_expanding_shape]
  obtain ⟨h1, h2⟩ := (brkInv_append_iff B l pre).1 h
  refine (brkInv_append_iff B _ pre).2 ⟨h1, ?_⟩
  cases l with
  | nil => trivial
  | cons S rest =>
      obtain ⟨S', tl, e, ha, hs⟩ := coalesce_realloc_head (wsub (wsub size B.size) META) S rest
      have hc := brkInv_coalesce_realloc (wsub (wsub size B.size) META) (S :: rest) h2.2
      rw [e] at hc ⊢
      refine ⟨fun hS' => ?_, hc⟩
      rw [ha]
      exact h2.1 (by rw [← hs]; exact hS')

/-! ### Lemmas: finding a brk block again by its address -/

theorem last_alloced_mapped_zero : ∀ (b0 : Block) (rest : List Block) (last : Block),
    (b0 :: rest)[last_alloced_idx (b0 :: rest)]? = some last → last.status = STATUS_MAPPED →
    last_alloced_idx (b0 :: rest) = 0
  | _, [], _, _, _ => rfl
  | b0, nxt :: rest, last, hl, hm => by
      by_cases hn : nxt.status = STATUS_MAPPED
      · simp [last_alloced_idx, hn]
      · have e : last_alloced_idx (b0 :: nxt :: rest) = last_alloced_idx (nxt :: rest) + 1 := by
          simp [last_alloced_idx, hn]
        rw [e] at hl
        have hl' : (nxt :: rest)[last_alloced_idx (nxt :: rest)]? = some last := by
          simpa using hl
        have h0 := last_alloced_mapped_zero nxt rest last hl' hm
        rw [h0] at hl'
        have : nxt = last := by simpa using hl'
        rw [this] at hn
        exact absurd hm hn

theorem last_alloced_not_mapped (bs : List Block) (last b : Block) (h : BrkInv bs)
    (hb : b ∈ bs) (hbs : b.status ≠ STATUS_MAPPED)
    (hl : bs[last_alloced_idx bs]? = some last) : last.status ≠ STATUS_MAPPED := by
  intro hm
  cases bs with
  | nil => simp at hb
  | cons b0 rest =>
      have h0 := last_alloced_mapped_zero b0 rest last hl hm
      rw [h0] at hl
      have e : b0 = last := by simpa using hl
      subst e
      rcases List.mem_cons.1 hb with rfl | hb
      · exact hbs hm
      · exact hbs (brkInv_mapped_after hm rest h b hb)

theorem first_match_not_mapped (bs : List Block) (a k : Nat) (b c : Block) (h : BrkInv bs)
    (hb : b ∈ bs) (hba : b.addr = a) (hbs : b.status ≠ STATUS_MAPPED)
    (hf : find_block bs a = some k) (hc : bs[k]? = some c) : c.status ≠ STATUS_MAPPED := by
  intro hm
  obtain ⟨_, hfirst⟩ := find_block_some bs a k hf
  obtain ⟨pre, tl, rfl, rfl⟩ := blocks_split bs k c hc
  rcases List.mem_append.1 hb with hb | hb
  · obtain ⟨j, hj⟩ := List.getElem?_of_mem hb
    have hjlt : j < pre.length := by
      by_contra hge
      rw [List.getElem?_eq_none (by omega)] at hj
      cases hj
    have : (pre ++ c :: tl)[j]? = some b := by
      rw [List.getElem?_append_left hjlt]
      exact hj
    exact hfirst j b hjlt this hba
  · rcases List.mem_cons.1 hb with rfl | hb
    · exact hbs hm
    · exact hbs (brkInv_mapped_after hm tl ((brkInv_append_iff _ tl pre).1 h).2 b hb)

theorem coalesce_loop_keeps : ∀ (rest : List Block) (cur b : Block), b ∈ cur :: rest →
    b.status ≠ STATUS_FREE →
    ∃ b' ∈ coalesce_loop cur rest, b'.addr = b.addr ∧ b'.status = b.status
  | [], cur, b, hb, _ => by
      have : b = cur := by simpa using hb
      subst this
      exact ⟨b, by simp [coalesce_loop], rfl, rfl⟩
  | nxt :: rest, cur, b, hb, hbs => by
      by_cases hff : cur.status = STATUS_FREE ∧ nxt.status = STATUS_FREE
      · simp only [coalesce_loop, if_pos hff]
        apply coalesce_loop_keeps rest _ b _ hbs
        rcases List.mem_cons.1 hb with rfl | hb
        · exact absurd hff.1 hbs
        · rcases List.mem_cons.1 hb with rfl | hb
          · exact absurd hff.2 hbs
          · exact List.mem_cons_of_mem _ hb
      · simp only [coalesce_loop, if_neg hff]
        rcases List.mem_cons.1 hb with rfl | hb
        · exact ⟨b, List.mem_cons_self _ _, rfl, rfl⟩
        · obtain ⟨b', hb', h1, h2⟩ := coalesce_loop_keeps rest nxt b hb hbs
          exact ⟨b', List.mem_cons_of_mem _ hb', h1, h2⟩

theorem coalesce_keeps (bs : List Block) (b : Block) (hb : b ∈ bs)
    (hbs : b.status ≠ STATUS_FREE) :
    ∃ b' ∈ coalesce bs, b'.addr = b.addr ∧ b'.status = b.status := by
  cases bs with
  | nil => simp at hb
  | cons b0 rest => exact coalesce_loop_keeps rest b0 b hb hbs

theorem split_block_keeps (size : Nat) : ∀ (bs : List Block) (j : Nat) (b : Block), b ∈ bs →
    b.status ≠ STATUS_MAPPED →
    ∃ b' ∈ split_block bs j size, b'.addr = b.addr ∧ b'.status ≠ STATUS_MAPPED
  | [], _, _, hb, _ => by simp at hb
  | a :: rest, 0, b, hb, hbs => by
      rcases List.mem_cons.1 hb with rfl | hb
      · exact ⟨{ b with size := size, status := STATUS_ALLOC }, by simp [split_block], rfl,
          by simp [STATUS_ALLOC, STATUS_MAPPED]⟩
      · exact ⟨b, by simp [split_block, hb], rfl, hbs⟩
  | a :: rest, j + 1, b, hb, hbs => by
      rcases List.mem_cons.1 hb with rfl | hb
      · exact ⟨b, by simp [split_block], rfl, hbs⟩
      · obtain ⟨b', hb', h1, h2⟩ := split_block_keeps size rest j b hb hbs
        exact ⟨b', by simp [split_block, hb'], h1, h2⟩

theorem modifyAt_keeps (f : Block → Block) (hfa : ∀ b, (f b).addr = b.addr)
    (hfs : ∀ b, (f b).status ≠ STATUS_MAPPED) : ∀ (bs : List Block) (j : Nat) (b : Block),
    b ∈ bs → b.status ≠ STATUS_MAPPED →
    ∃ b' ∈ modifyAt f bs j, b'.addr = b.addr ∧ b'.status ≠ STATUS_MAPPED
  | [], _, _, hb, _ => by simp at hb
  | a :: rest, 0, b, hb, hbs => by
      rcases List.mem_cons.1 hb with rfl | hb
      · exact ⟨f b, by simp [modifyAt], hfa b, hfs b⟩
      · exact ⟨b, by simp [modifyAt, hb], rfl, hbs⟩
  | a :: rest, j + 1, b, hb, hbs => by
      rcases List.mem_cons.1 hb with rfl | hb
      · exact ⟨b, by simp [modifyAt], rfl, hbs⟩
      · obtain ⟨b', hb', h1, h2⟩ := modifyAt_keeps f hfa hfs rest j b hb hbs
        exact ⟨b', by simp [modifyAt, hb'], h1, h2⟩

/-! ### Lemmas: the invariant through the reallocation paths -/

theorem brkInv_find_free_block_realloc (s : Heap) (B : Block) (total : Nat) (r : Option Nat)
    (s1 : Heap) (h : BrkInv s.blocks) (hB : B ∈ s.blocks) (hA : B.status = STATUS_ALLOC)
    (hr : find_free_block_realloc s B total = some (r, s1)) :
    BrkInv s1.blocks ∧ (r = none → s1.blocks = coalesce s.blocks) := by
  have hco := brkInv_coalesce s.blocks h
  obtain ⟨B1, hB1, hB1a, hB1s⟩ := coalesce_keeps s.blocks B hB (by rw [hA]; decide)
  have hB1m : B1.status ≠ STATUS_MAPPED := by rw [hB1s, hA]; decide
  simp only [find_free_block_realloc] at hr
  cases hbf : best_fit_loop total (coalesce s.blocks) 0 none with
  | none =>
      rw [hbf] at hr
      simp only [Option.some.injEq, Prod.mk.injEq] at hr
      obtain ⟨rfl, rfl⟩ := hr
      exact ⟨hco, fun _ => rfl⟩
  | some jm =>
      obtain ⟨j, minim⟩ := jm
      rw [hbf] at hr
      simp only at hr
      obtain ⟨hj, hcand, _, _⟩ := best_fit_loop_top total _ j minim hbf
      have hmin : minim.status ≠ STATUS_MAPPED := by rw [hcand.1]; decide
      have hbs1 : BrkInv (if minim.size > wadd META total then
          split_block (coalesce s.blocks) j total
          else modifyAt (fun b => { b with status := STATUS_ALLOC }) (coalesce s.blocks) j) := by
        split
        · exact brkInv_split_block _ j minim total hj hmin hco
        · exact brkInv_set_status _ j minim STATUS_ALLOC hj hmin (by decide) hco
      have hkeep : ∃ b' ∈ (if minim.size > wadd META total then
          split_block (coalesce s.blocks) j total
          else modifyAt (fun b => { b with status := STATUS_ALLOC }) (coalesce s.blocks) j),
          b'.addr = B.addr ∧ b'.status ≠ STATUS_MAPPED := by
        split
        · obtain ⟨b', h1, h2, h3⟩ := split_block_keeps total _ j B1 hB1 hB1m
          exact ⟨b', h1, by rw [h2, hB1a], h3⟩
        · obtain ⟨b', h1, h2, h3⟩ := modifyAt_keeps
            (fun b => { b with status := STATUS_ALLOC }) (fun _ => rfl)
            (fun _ => by simp [STATUS_ALLOC, STATUS_MAPPED]) _ j B1 hB1 hB1m
          exact ⟨b', h1, by rw [h2, hB1a], h3⟩
      generalize (if minim.size > wadd META total then
          split_block (coalesce s.blocks) j total
          else modifyAt (fun b => { b with status := STATUS_ALLOC }) (coalesce s.blocks) j) = bs1
        at hr hbs1 hkeep
      cases hfk : find_block bs1 B.addr with
      | none =>
          rw [hfk] at hr
          cases hr
      | some k =>
          rw [hfk] at hr
          simp only [Option.some.injEq, Prod.mk.injEq] at hr
          obtain ⟨rfl, rfl⟩ := hr
          obtain ⟨⟨c, hc, _⟩, _⟩ := find_block_some _ _ _ hfk
          obtain ⟨b', hb', hb'a, hb's⟩ := hkeep
          have hcm := first_match_not_mapped bs1 B.addr k b' c hbs1 hb' hb'a hb's hfk hc
          exact ⟨brkInv_set_status _ k c STATUS_FREE hc hcm (by decide) hbs1,
            fun hh => by cases hh⟩

theorem brkInv_move_block_realloc (s : Heap) (k : Nat) (B c : Block) (size p : Nat) (s' : Heap)
    (h : BrkInv s.blocks) (hk : s.blocks[k]? = some c) (hc : c.status ≠ STATUS_MAPPED)
    (hr : move_block_realloc s k B size = some (p, s')) : BrkInv s'.blocks := by
  have hbs := brkInv_set_status _ k c STATUS_FREE hk hc (by decide) h
  have hmem : ∃ b ∈ modifyAt (fun b => { b with status := STATUS_FREE }) s.blocks k,
      b.status ≠ STATUS_MAPPED := by
    refine ⟨{ c with status := STATUS_FREE }, ?_, by simp [STATUS_FREE, STATUS_MAPPED]⟩
    apply List.getElem?_mem (n := k)
    simp only [modifyAt_getElem?, if_true, hk, Option.map_some']
  simp only [move_block_realloc] at hr
  generalize modifyAt (fun b => { b with status := STATUS_FREE }) s.blocks k = bs at hr hbs hmem
  split at hr
  · split at hr
    · cases hr
    · rename_i last hl
      cases hr
      obtain ⟨b, hb, hbs'⟩ := hmem
      have hlast := last_alloced_not_mapped bs last b hbs hb hbs' hl
      obtain ⟨pre, tl, hdec, hlen, hnext⟩ := last_alloced_split bs last hl
      show BrkInv (insertAfter _ bs (last_alloced_idx bs))
      rw [← hlen, hdec, insertAfter_append]
      rw [hdec] at hbs
      exact brkInv_insert_after_last pre last tl size STATUS_ALLOC hnext hlast hbs
  · split at hr
    · cases hr
    · rename_i r hm
      obtain ⟨p1, s1⟩ := r
      cases hr
      exact brkInv_add_new_mapped_block { s with blocks := bs } size p1 s1 hbs hm

theorem brkInv_set_last (bs : List Block) (last : Block) (f : Block → Block)
    (hl : bs[last_alloced_idx bs]? = some last) (ha : (f last).addr = last.addr)
    (hs : (f last).status ≠ STATUS_MAPPED → last.status ≠ STATUS_MAPPED) (h : BrkInv bs) :
    BrkInv (modifyAt f bs (last_alloced_idx bs)) := by
  obtain ⟨pre, tl, hdec, hlen, hnext⟩ := last_alloced_split bs last hl
  rw [← hlen, hdec, modifyAt_append]
  rw [hdec] at h
  exact brkInv_replace_last pre last (f last) tl hnext ha hs h

theorem brkInv_realloc_move (s : Heap) (B : Block) (total p : Nat) (s' : Heap)
    (h : BrkInv s.blocks) (hB : B ∈ s.blocks) (hA : B.status = STATUS_ALLOC)
    (hr : realloc_move s B total = some (p, s')) : BrkInv s'.blocks := by
  simp only [realloc_move] at hr
  cases hff : find_free_block_realloc s B total with
  | none => rw [hff] at hr; cases hr
  | some rs =>
      obtain ⟨r, s1⟩ := rs
      obtain ⟨hinv, hmiss⟩ := brkInv_find_free_block_realloc s B total r s1 h hB hA hff
      rw [hff] at hr
      cases r with
      | some j =>
          simp only [Option.map_eq_some'] at hr
          obtain ⟨a, _, ha⟩ := hr
          cases ha
          exact hinv
      | none =>
          simp only at hr
          obtain ⟨B1, hB1, hB1a, hB1s⟩ := coalesce_keeps s.blocks B hB (by rw [hA]; decide)
          rw [← hmiss rfl] at hB1
          have hB1m : B1.status ≠ STATUS_MAPPED := by rw [hB1s, hA]; decide
          cases hl : s1.blocks[last_alloced_idx s1.blocks]? with
          | none => rw [hl] at hr; cases hr
          | some last =>
              cases hfk : find_block s1.blocks B.addr with
              | none => rw [hl, hfk] at hr; cases hr
              | some k =>
                  rw [hl, hfk] at hr
                  simp only at hr
                  obtain ⟨⟨c, hc, _⟩, _⟩ := find_block_some _ _ _ hfk
                  have hcm := first_match_not_mapped s1.blocks B.addr k B1 c hinv hB1 hB1a hB1m
                    hfk hc
                  split at hr
                  · rename_i hcond
                    cases hr
                    have h1 : BrkInv (modifyAt
                        (fun b => { b with size := total, status := STATUS_ALLOC }) s1.blocks
                        (last_alloced_idx s1.blocks)) :=
                      brkInv_set_last s1.blocks last _ hl rfl
                        (fun _ => by rw [hcond.1]; decide) hinv
                    have h2 : ∃ c', (modifyAt
                        (fun b => { b with size := total, status := STATUS_ALLOC }) s1.blocks
                        (last_alloced_idx s1.blocks))[k]? = some c' ∧
                        c'.status ≠ STATUS_MAPPED := by
                      rw [modifyAt_getElem?]
                      split
                      · exact ⟨_, by rw [hc]; rfl, by simp [STATUS_ALLOC, STATUS_MAPPED]⟩
                      · exact ⟨c, hc, hcm⟩
                    obtain ⟨c', hc', hc'm⟩ := h2
                    exact brkInv_set_status _ k c' STATUS_FREE hc' hc'm (by decide) h1
                  · exact brkInv_move_block_realloc s1 k B c total p s' hinv hc hcm hr

theorem try_realloc_expanding_snd (bs : List Block) (i : Nat) (B : Block) (size bf : Nat)
    (bs1 : List Block) (h : try_realloc_expanding bs i B size = (bs1, some bf)) :
    (bf = i ∧ i = last_alloced_idx bs1) ∨
      (bf = i + 1 ∧ ∃ N, bs1[i + 1]? = some N ∧ N.status = STATUS_FREE) := by
  have h1 : (try_realloc_expanding bs i B size).1 = bs1 := by rw [h]
  rw [try_realloc_expanding_fst] at h1
  simp only [try_realloc_expanding, h1] at h
  split at h
  · rename_i N hN
    split at h
    · rename_i hc
      simp only [Prod.mk.injEq, Option.some.injEq, true_and] at h
      exact Or.inr ⟨h.symm, N, hN, hc.2⟩
    · split at h
      · rename_i hi
        simp only [Prod.mk.injEq, Option.some.injEq, true_and] at h
        exact Or.inl ⟨by omega, hi⟩
      · simp at h
  · split at h
    · rename_i hi
      simp only [Prod.mk.injEq, Option.some.injEq, true_and] at h
      exact Or.inl ⟨by omega, hi⟩
    · simp at h

theorem brkInv_expand_block_realloc (s : Heap) (i : Nat) (B N : Block) (size p : Nat)
    (s' : Heap) (h : BrkInv s.blocks) (hB : s.blocks[i]? = some B)
    (hBs : B.status ≠ STATUS_MAPPED) (hN : s.blocks[i + 1]? = some N)
    (hNs : N.status ≠ STATUS_MAPPED)
    (hr : expand_block_realloc s i B size = some (p, s')) : BrkInv s'.blocks := by
  obtain ⟨pre, tl0, hdec, hlen⟩ := blocks_split s.blocks i B hB
  have htl : ∃ tl, tl0 = N :: tl := by
    rw [hdec, ← hlen, List.getElem?_append_right (by omega)] at hN
    cases tl0 with
    | nil => simp at hN
    | cons x tl =>
        have : x = N := by simpa using hN
        exact ⟨tl, by rw [this]⟩
  obtain ⟨tl, rfl⟩ := htl
  simp only [expand_block_realloc, hN] at hr
  cases hr
  rw [hdec] at h
  obtain ⟨h1, h2⟩ := (brkInv_append_iff B (N :: tl) pre).1 h
  have hm : BrkInv (pre ++ { B with size := wadd B.size (wadd N.size META) } :: tl) :=
    (brkInv_append_iff _ tl pre).2
      ⟨brkInv_snoc_congr (b := B) (c := { B with size := wadd B.size (wadd N.size META) }) rfl
        (fun _ => hBs) pre h1, brkInv_merge h2 hNs⟩
  have e : delete_node (modifyAt (fun b => { b with size := wadd B.size (wadd N.size META) })
      s.blocks i) (i + 1) = pre ++ { B with size := wadd B.size (wadd N.size META) } :: tl := by
    rw [hdec, ← hlen, modifyAt_append, delete_node_append]
  simp only [e]
  split
  · rw [← hlen, split_block_append]
    exact brkInv_split_at pre _ tl size hBs hm
  · exact hm

theorem brkInv_os_realloc (s : Heap) (ptr n p : Nat) (s' : Heap) (h : BrkInv s.blocks)
    (hr : os_realloc s ptr n = some (p, s')) : BrkInv s'.blocks := by
  by_cases hn : n = 0
  · simp only [os_realloc, if_pos hn] at hr
    cases hr
    exact brkInv_os_free s ptr h
  by_cases hp : ptr = NULL
  · simp only [os_realloc, if_neg hn, if_pos hp] at hr
    exact brkInv_os_malloc s n p s' h hr
  cases hf : find_block s.blocks (wsub ptr META) with
  | none => simp only [os_realloc, if_neg hn, if_neg hp, hf] at hr; cases hr
  | some i =>
    obtain ⟨⟨B, hB, _⟩, _⟩ := find_block_some _ _ _ hf
    by_cases hA : B.status = STATUS_ALLOC
    · rw [os_realloc_alloc s ptr n i B hn hp hf hB hA] at hr
      have hBm : B.status ≠ STATUS_MAPPED := by rw [hA]; decide
      split at hr
      · cases hr
        exact brkInv_split_block _ i B _ hB hBm h
      · split at hr
        · cases hr
          exact h
        · obtain ⟨pre, l, hdec, hlen⟩ := blocks_split s.blocks i B hB
          have hinv1 := brkInv_try_realloc_expanding pre B l (toSizeT (align n)) (hdec ▸ h)
          have hshape := try_realloc_expanding_shape pre B l (toSizeT (align n))
          rw [← hdec, hlen] at hinv1 hshape
          rcases hte : try_realloc_expanding s.blocks i B (toSizeT (align n)) with ⟨bs1, r⟩
          rw [hte] at hr hinv1 hshape
          simp only at hinv1 hshape
          have hBi : bs1[i]? = some B := by
            rw [hshape, ← hlen]
            exact getElem?_append_length B _ pre
          cases r with
          | none =>
              exact brkInv_realloc_move { s with blocks := bs1 } B _ p s' hinv1
                (List.getElem?_mem hBi) hA hr
          | some bf =>
              simp only at hr
              rcases try_realloc_expanding_snd _ _ _ _ _ _ hte with ⟨hbf, hlast⟩ | ⟨hbf, N, hN, hNf⟩
              · rw [if_pos hbf] at hr
                cases hr
                show BrkInv (modifyAt _ bs1 i)
                rw [hlast] at hBi ⊢
                exact brkInv_set_last bs1 B _ hBi rfl (fun _ => hBm) hinv1
              · rw [if_neg (by omega)] at hr
                exact brkInv_expand_block_realloc { s with blocks := bs1 } i B N _ p s' hinv1 hBi
                  hBm hN (by rw [hNf]; decide) hr
    · by_cases hF : B.status = STATUS_FREE
      · simp only [os_realloc, if_neg hn, if_neg hp, hf, hB, if_pos hF] at hr
        cases hr
        exact h
      · by_cases hM : B.status = STATUS_MAPPED
        · simp only [os_realloc, if_neg hn, if_neg hp, hf, hB, if_neg hF, if_pos hM] at hr
          cases hm : os_malloc s n with
          | none => rw [hm] at hr; cases hr
          | some r =>
              obtain ⟨adr, s1⟩ := r
              rw [hm] at hr
              cases hr
              exact brkInv_os_free _ ptr (brkInv_os_malloc s n _ s1 h hm)
        · simp only [os_realloc, if_neg hn, if_neg hp, hf, hB, if_neg hF, if_neg hM,
            if_neg hA] at hr
          cases hr
          exact h

theorem reachable_brkInv (s : Heap) (h : Reachable s) : BrkInv s.blocks := by
  induction h with
  | fresh brk0 map0 mem0 => trivial
  | malloc s s' n p _ hr ih => exact brkInv_os_malloc s n p s' ih hr
  | free s ptr _ ih => exact brkInv_os_free s ptr ih
  | calloc s s' nmemb n p _ hr ih => exact brkInv_os_calloc s nmemb n p s' ih hr
  | realloc s s' ptr n p _ hr ih => exact brkInv_os_realloc s ptr n p s' ih hr

/-- C3 (failing input): fresh process, `p1 = allocate(64)`,
`p2 = allocate(64)`, then `reallocate(p2, 4294967208)` (the input of C18).  The
list is contiguous before the call.  The call records the size `2^64 - 88` in
the block `B` of `p2` and links a `FREE` block at `p1 = B - 64` right after it:
the state is reachable, `B` and its successor are not `MAPPED`, and the
successor does not lie at `address(B) + header_size + B.size`. -/
theorem C3_contiguity_broken_by_wrapped_split :
    ∃ p1 p2 s1 s2 s3,
      os_malloc (fresh 1000000 70000000000 (fun _ => 0)) 64 = some (p1, s1) ∧
      os_malloc s1 64 = some (p2, s2) ∧
      Contig s2.blocks ∧
      os_realloc s2 p2 4294967208 = some (p2, s3) ∧
      Reachable s3 ∧
      s3.blocks =
        [{ addr := 1000000, size := 64, status := STATUS_ALLOC },
         { addr := 1000088, size := 18446744073709551528, status := STATUS_ALLOC },
         { addr := 1000024, size := 128, status := STATUS_FREE },
         { addr := 1000176, size := 130872, status := STATUS_FREE }] ∧
      (1000024 : Nat) ≠ 1000088 + META + 18446744073709551528 ∧
      (1000024 : Nat) < 1000088 ∧
      ¬ Contig s3.blocks := by
  refine ⟨_, _, _, _, _, rfl, rfl, by decide, rfl, ?_, rfl, by decide, by decide, by decide⟩
  exact Reachable.realloc _ _ 1000112 4294967208 1000112
    (Reachable.malloc _ _ 64 1000112
      (Reachable.malloc _ _ 64 1000024 (Reachable.fresh 1000000 70000000000 (fun _ => 0)) rfl)
      rfl)
    rfl

/-- C11: reallocating a freed block is rejected atomically.  For a block `B` of
the list with status `FREE` whose payload is `ptr`, and every `n > 0`,
`os_realloc` returns the null pointer and the whole state (list, `initialised`,
break, mappings, memory) is unchanged. -/
theorem C11_realloc_of_free_block_rejected (s : Heap) (ptr n i : Nat) (B : Block)
    (hn : n ≠ 0) (hp : ptr ≠ NULL)
    (hfind : find_block s.blocks (wsub ptr META) = some i) (hB : s.blocks[i]? = some B)
    (hF : B.status = STATUS_FREE) :
    os_realloc s ptr n = some (NULL, s) := by
  simp only [os_realloc, if_neg hn, if_neg hp, hfind, hB, if_pos hF]

/-- C11 (witness): `p = allocate(64)`, `free(p)`, then `reallocate(p, 100)`. -/
theorem C11_realloc_of_free_block_rejected_witness :
    os_realloc (os_free after_malloc_64 1000024) 1000024 100 =
      some (NULL, os_free after_malloc_64 1000024) :=
  C11_realloc_of_free_block_rejected (os_free after_malloc_64 1000024) 1000024 100 0
    { addr := 1000000, size := 64, status := STATUS_FREE } (by decide) (by decide) rfl rfl rfl

/-- C12: zero sizes and the null pointer.  `allocate(0)` and `zero_allocate`
with product `0` return the null pointer and leave the state unchanged;
`reallocate(p, 0)` returns the null pointer and leaves the state that `free(p)`
leaves; `reallocate(NULL, n)` with `n > 0` is `allocate(n)`: same pointer, same
state. -/
theorem C12_zero_size_and_null_pointer (s : Heap) :
    os_malloc s 0 = some (NULL, s) ∧
    (∀ nmemb n, nmemb * n = 0 → os_calloc s nmemb n = some (NULL, s)) ∧
    (∀ p, os_realloc s p 0 = some (NULL, os_free s p)) ∧
    (∀ n, n ≠ 0 → os_realloc s NULL n = os_malloc s n) := by
  refine ⟨by simp [os_malloc], ?_, ?_, ?_⟩
  · intro nmemb n h
    simp [os_calloc, h]
  · intro p
    simp [os_realloc]
  · intro n hn
    simp [os_realloc, hn]

/-- C12 (witness): `zero_allocate(0, 5)` and `reallocate(NULL, 64)` in a fresh
process. -/
theorem C12_zero_size_and_null_pointer_witness :
    os_calloc (fresh 1000000 70000000000 (fun _ => 0)) 0 5 =
        some (NULL, fresh 1000000 70000000000 (fun _ => 0)) ∧
      os_realloc (fresh 1000000 70000000000 (fun _ => 0)) NULL 64 =
        os_malloc (fresh 1000000 70000000000 (fun _ => 0)) 64 :=
  ⟨(C12_zero_size_and_null_pointer (fresh 1000000 70000000000 (fun _ => 0))).2.1 0 5 (by decide),
    (C12_zero_size_and_null_pointer (fresh 1000000 70000000000 (fun _ => 0))).2.2.2 64
      (by decide)⟩

/-- C13 (failing input): fresh process, `p1 = allocate(128 * 1024)` (mapped),
`p2 = allocate(64)`, `free(p1)`, `free(p2)`.  The block of `p2` was created by
the branch of `add_new_alloced_block` for a list of `MAPPED` blocks, with
status `MMAP_THRESHOLD`; `free(p2)` leaves it as it is (it is not `FREE`), and
the next `allocate(64)` appends a new block and returns another pointer. -/
theorem C13_block_behind_mapped_not_reused :
    ∃ p1 p2 q s1 s2 s3,
      os_malloc (fresh 1000000 70000000000 (fun _ => 0)) (128 * 1024) = some (p1, s1) ∧
      os_malloc s1 64 = some (p2, s2) ∧
      toSizeT (align (128 * 1024)) ≥ MMAP_THRESHOLD ∧
      toSizeT (align 64) + 2 * META < MMAP_THRESHOLD ∧
      p2 = wadd 1000000 META ∧
      (os_free (os_free s2 p1) p2).blocks =
        [{ addr := 1000000, size := 64, status := MMAP_THRESHOLD }] ∧
      MMAP_THRESHOLD ≠ STATUS_FREE ∧
      os_malloc (os_free (os_free s2 p1) p2) 64 = some (q, s3) ∧
      q = wadd 1000088 META ∧ q ≠ p2 :=
  ⟨_, _, _, _, _, _, rfl, rfl, by decide, by decide, rfl, rfl, by decide, rfl, rfl, by decide⟩

/-- C14 (failing input): fresh process, `allocate(200000)` (mapped),
`allocate(64)` (the break moves from `1000000` to `1131072`), `allocate(64)`:
the third call appends after a block of 64 bytes and calls `brk(1000176)`, below
the current break `1131072`. -/
theorem C14_break_lowered_after_mapped_first :
    ∃ p1 p2 p3 s1 s2 s3,
      os_malloc (fresh 1000000 70000000000 (fun _ => 0)) 200000 = some (p1, s1) ∧
      os_malloc s1 64 = some (p2, s2) ∧ s2.brk = 1131072 ∧
      os_malloc s2 64 = some (p3, s3) ∧ s3.brk = 1000176 ∧ s3.brk < s2.brk :=
  ⟨_, _, _, _, _, _, rfl, rfl, rfl, rfl, rfl, by decide⟩

/-- C20 (failing input): fresh process, `allocate(200000)` leaves a list of one
`MAPPED` block; the brk-backed allocation of aligned size `64` that follows
(`64 + 2 * header < MMAP_THRESHOLD`) puts at the head a block of size `64`
whose status is `MMAP_THRESHOLD = 131072`, none of `FREE`, `ALLOC`, `MAPPED`,
and creates no `FREE` remainder block, although the break has moved by
`MMAP_THRESHOLD`. -/
theorem C20_first_brk_block_behind_mapped :
    ∃ p1 p2 s1 s2,
      os_malloc (fresh 1000000 70000000000 (fun _ => 0)) 200000 = some (p1, s1) ∧
      s1.blocks = [{ addr := 70000000000, size := 200000, status := STATUS_MAPPED }] ∧
      toSizeT (align 64) = 64 ∧ 64 + 2 * META < MMAP_THRESHOLD ∧
      add_new_alloced_block s1 64 = some (p2, s2) ∧
      os_malloc s1 64 = some (p2, s2) ∧
      s2.blocks =
        [{ addr := 1000000, size := 64, status := MMAP_THRESHOLD },
         { addr := 70000000000, size := 200000, status := STATUS_MAPPED }] ∧
      s2.brk = 1000000 + MMAP_THRESHOLD ∧
      MMAP_THRESHOLD ≠ STATUS_FREE ∧ MMAP_THRESHOLD ≠ STATUS_ALLOC ∧
      MMAP_THRESHOLD ≠ STATUS_MAPPED :=
  ⟨_, _, _, _, rfl, rfl, by decide, by decide, rfl, rfl, rfl, rfl, by decide, by decide,
    by decide⟩

/-- C15 (failing input): fresh process, `p = allocate(200000)` (a `MAPPED`
block of 200000 bytes), the program stores the byte `170` at `p + 100`, then
`reallocate(p, 4294967304)`.  `align` returns the `int` `8`, so the new block
has 8 bytes and `min((int) B.size, 8) = 8` bytes are copied: the call returns
`q ≠ p`, not null, and the byte at `q + 100` is `0`, not the old byte at
`p + 100`, although `100 < min(200000, 4294967304)`. -/
theorem C15_realloc_mapped_copies_truncated_length :
    ∃ p q s1 s2,
      os_malloc (fresh 1000000 70000000000 (fun _ => 0)) 200000 = some (p, s1) ∧
      s1.blocks = [{ addr := 70000000000, size := 200000, status := STATUS_MAPPED }] ∧
      p = wadd 70000000000 META ∧
      (store s1 (p + 100) 170).mem (p + 100) = 170 ∧
      os_realloc (store s1 (p + 100) 170) p 4294967304 = some (q, s2) ∧
      q ≠ NULL ∧ q ≠ p ∧ align 4294967304 = 8 ∧
      100 < min 200000 4294967304 ∧
      s2.mem (q + 100) = 0 ∧ s2.mem (q + 100) ≠ (store s1 (p + 100) 170).mem (p + 100) :=
  ⟨_, _, _, _, rfl, rfl, rfl, rfl, rfl, by decide, by decide, by decide, by decide, rfl,
    by decide⟩

/-- The postcondition of `split_block` on a block `B` with room for a
remainder: `B` keeps its address with size `size` and status `ALLOC`, the new
block lies at `B + size + header`, is `FREE` with the positive size
`B.size - size - header`, is linked between `B` and the old successor, no other
block changes, and the footprint is preserved. -/
theorem split_block_postcondition (pre : List Block) (B : Block) (tl : List Block) (size : Nat)
    (hroom : B.size ≥ size + META + 8) (hB : B.size < 18446744073709551616) :
    split_block (pre ++ B :: tl) pre.length size =
      pre ++ { addr := B.addr, size := size, status := STATUS_ALLOC } ::
        { addr := wadd (wadd B.addr size) META, size := B.size - size - META,
          status := STATUS_FREE } :: tl ∧
    0 < B.size - size - META ∧ size + META + (B.size - size - META) = B.size := by
  have hM := META_eq
  refine ⟨?_, by omega, by omega⟩
  rw [split_block_append]
  have : wsub (wsub B.size size) META = B.size - size - META := by
    rw [wsub_eq (by omega) hB, wsub_eq (by omega) (by omega)]
  rw [this]

/-- C18 (failing input): fresh process, `p1 = allocate(64)`,
`p2 = allocate(64)`, then `reallocate(p2, 4294967208)`.  `align` returns the
`int` `-88`, the aligned size is `2^64 - 88`, and the shrink test
`(int) 64 > (int) (total_size + header) = -64` of `os_realloc` calls
`split_block` on the block of 64 bytes with `size = 2^64 - 88`: the
precondition `B.size ≥ size + header + 8` does not hold, and the new `FREE`
header is written at `B + size + header = B - 64`, the payload address `p1`. -/
theorem C18_realloc_shrink_splits_without_room :
    ∃ p1 p2 s1 s2 s3,
      os_malloc (fresh 1000000 70000000000 (fun _ => 0)) 64 = some (p1, s1) ∧
      os_malloc s1 64 = some (p2, s2) ∧
      s2.blocks =
        [{ addr := 1000000, size := 64, status := STATUS_ALLOC },
         { addr := 1000088, size := 64, status := STATUS_ALLOC },
         { addr := 1000176, size := 130872, status := STATUS_FREE }] ∧
      p2 = wadd 1000088 META ∧
      toSizeT (align 4294967208) = 18446744073709551528 ∧
      ¬ (64 ≥ 18446744073709551528 + META + 8) ∧
      os_realloc s2 p2 4294967208 = some (p2, s3) ∧
      s3.blocks = split_block s2.blocks 1 18446744073709551528 ∧
      s3.blocks =
        [{ addr := 1000000, size := 64, status := STATUS_ALLOC },
         { addr := 1000088, size := 18446744073709551528, status := STATUS_ALLOC },
         { addr := p1, size := 128, status := STATUS_FREE },
         { addr := 1000176, size := 130872, status := STATUS_FREE }] :=
  ⟨_, _, _, _, _, rfl, rfl, rfl, rfl, by decide, by decide, rfl, rfl, rfl⟩

/-- C19: the initial arena.  With an empty list and `initialised = 0`, a
brk-backed allocation of aligned size `size < MMAP_THRESHOLD` moves the break
from `b` to `b + MMAP_THRESHOLD`, sets `initialised`, puts `heap_head` at `b`
and returns `b + header`; the list is `[ALLOC size, FREE MMAP_THRESHOLD - 2 *
header - size]` when `size + 2 * header < MMAP_THRESHOLD` and the single block
`[ALLOC MMAP_THRESHOLD - header]` otherwise. -/
theorem C19_initial_arena (s : Heap) (size : Nat) (hb : s.blocks = []) (hi : s.initialised = 0)
    (hs : size < MMAP_THRESHOLD) (hbrk : s.brk + MMAP_THRESHOLD < 18446744073709551616) :
    ∃ s', add_new_alloced_block s size = some (s.brk + META, s') ∧
      s'.brk = s.brk + MMAP_THRESHOLD ∧ s'.initialised = 1 ∧
      s'.blocks.head?.map Block.addr = some s.brk ∧
      s'.next_map = s.next_map ∧ s'.mem = s.mem ∧
      (size + 2 * META < MMAP_THRESHOLD →
        s'.blocks =
          [{ addr := s.brk, size := size, status := STATUS_ALLOC },
           { addr := s.brk + META + size, size := MMAP_THRESHOLD - 2 * META - size,
             status := STATUS_FREE }]) ∧
      (¬ size + 2 * META < MMAP_THRESHOLD →
        s'.blocks = [{ addr := s.brk, size := MMAP_THRESHOLD - META, status := STATUS_ALLOC }]) := by
  have hM := META_eq
  have hT : MMAP_THRESHOLD = 131072 := by decide
  have h2 : toSizeT (2 * get_block_meta_size) = 48 := by decide
  have h3 : toSizeT ((MMAP_THRESHOLD : Int) - get_block_meta_size) = 131048 := by decide
  rw [hT] at hs hbrk
  have hret : wadd s.brk META = s.brk + META := wadd_eq (by omega)
  have hbk : wadd s.brk MMAP_THRESHOLD = s.brk + MMAP_THRESHOLD := wadd_eq (by omega)
  simp only [add_new_alloced_block, hi, ne_eq, not_true_eq_false, if_false, h2, h3, hret, hbk]
  by_cases hsp : size + 2 * META < MMAP_THRESHOLD
  · have hc : wadd size 48 < MMAP_THRESHOLD := by
      rw [wadd_eq (by omega)]
      omega
    rw [if_pos hc]
    refine ⟨_, rfl, rfl, rfl, rfl, rfl, rfl, fun _ => ?_, fun h => absurd hsp h⟩
    show split_block [_] 0 size = _
    simp only [split_block]
    have e1 : wadd (wadd s.brk size) META = s.brk + META + size := by
      rw [wadd_eq (a := s.brk) (by omega), wadd_eq (by omega)]
      omega
    have e2 : wsub (wsub 131048 size) META = MMAP_THRESHOLD - 2 * META - size := by
      have e3 : wsub 131048 size = 131048 - size := wsub_eq (by omega) (by omega)
      rw [e3, wsub_eq (by omega) (by omega)]
      omega
    rw [e1, e2]
  · have hc : ¬ wadd size 48 < MMAP_THRESHOLD := by
      rw [wadd_eq (by omega)]
      omega
    rw [if_neg hc]
    refine ⟨_, rfl, rfl, rfl, rfl, rfl, rfl, fun h => absurd h hsp, fun _ => ?_⟩
    show [_] = _
    rw [hT, hM]

/-- C19 (witness): a first brk-backed allocation of 64 bytes with the break at
`1000000`. -/
theorem C19_initial_arena_witness :
    ∃ s', add_new_alloced_block (fresh 1000000 70000000000 (fun _ => 0)) 64 =
        some (1000000 + META, s') ∧
      s'.brk = 1000000 + MMAP_THRESHOLD ∧ s'.initialised = 1 ∧
      s'.blocks.head?.map Block.addr = some 1000000 ∧
      s'.next_map = 70000000000 ∧ s'.mem = (fun _ => 0) ∧
      (64 + 2 * META < MMAP_THRESHOLD →
        s'.blocks =
          [{ addr := 1000000, size := 64, status := STATUS_ALLOC },
           { addr := 1000000 + META + 64, size := MMAP_THRESHOLD - 2 * META - 64,
             status := STATUS_FREE }]) ∧
      (¬ 64 + 2 * META < MMAP_THRESHOLD →
        s'.blocks =
          [{ addr := 1000000, size := MMAP_THRESHOLD - META, status := STATUS_ALLOC }]) :=
  C19_initial_arena (fresh 1000000 70000000000 (fun _ => 0)) 64 rfl rfl (by decide) (by decide)

/-! ### Lemmas: sizes are multiples of the alignment -/

theorem toSizeT_align_mod (n : Nat) : toSizeT (align n) % 8 = 0 := by
  unfold align toSizeT toInt32 ALIGNMENT
  split <;> split <;> omega

theorem wadd_mod8 {a b : Nat} (ha : a % 8 = 0) (hb : b % 8 = 0) : wadd a b % 8 = 0 := by
  unfold wadd
  omega

theorem wsub_mod8 {a b : Nat} (ha : a % 8 = 0) (hb : b % 8 = 0) : wsub a b % 8 = 0 := by
  unfold wsub
  omega

theorem META_mod8 : META % 8 = 0 := by decide

theorem al_modifyAt (f : Block → Block) (hf : ∀ b, b.size % 8 = 0 → (f b).size % 8 = 0) :
    ∀ (bs : List Block) (i : Nat), (∀ b ∈ bs, b.size % 8 = 0) →
      ∀ b ∈ modifyAt f bs i, b.size % 8 = 0
  | [], _, _ => by simp [modifyAt]
  | a :: rest, 0, h => by
      simp only [modifyAt, List.forall_mem_cons] at h ⊢
      exact ⟨hf a h.1, h.2⟩
  | a :: rest, i + 1, h => by
      simp only [modifyAt, List.forall_mem_cons] at h ⊢
      exact ⟨h.1, al_modifyAt f hf rest i h.2⟩

theorem al_insertAfter (new : Block) (hn : new.size % 8 = 0) :
    ∀ (bs : List Block) (i : Nat), (∀ b ∈ bs, b.size % 8 = 0) →
      ∀ b ∈ insertAfter new bs i, b.size % 8 = 0
  | [], _, _ => by simp [insertAfter]
  | a :: rest, 0, h => by
      simp only [insertAfter, List.forall_mem_cons] at h ⊢
      exact ⟨h.1, hn, h.2⟩
  | a :: rest, i + 1, h => by
      simp only [insertAfter, List.forall_mem_cons] at h ⊢
      exact ⟨h.1, al_insertAfter new hn rest i h.2⟩

theorem al_split_block (size : Nat) (hs : size % 8 = 0) :
    ∀ (bs : List Block) (i : Nat), (∀ b ∈ bs, b.size % 8 = 0) →
      ∀ b ∈ split_block bs i size, b.size % 8 = 0
  | [], _, _ => by simp [split_block]
  | a :: rest, 0, h => by
      simp only [split_block, List.forall_mem_cons] at h ⊢
      exact ⟨hs, wsub_mod8 (wsub_mod8 h.1 hs) META_mod8, h.2⟩
  | a :: rest, i + 1, h => by
      simp only [split_block, List.forall_mem_cons] at h ⊢
      exact ⟨h.1, al_split_block size hs rest i h.2⟩

theorem al_delete_node : ∀ (bs : List Block) (i : Nat), (∀ b ∈ bs, b.size % 8 = 0) →
    ∀ b ∈ delete_node bs i, b.size % 8 = 0
  | [], _, _ => by simp [delete_node]
  | a :: rest, 0, h => by
      simp only [delete_node, List.forall_mem_cons] at h ⊢
      exact h.2
  | a :: rest, i + 1, h => by
      simp only [delete_node, List.forall_mem_cons] at h ⊢
      exact ⟨h.1, al_delete_node rest i h.2⟩

theorem al_coalesce_loop : ∀ (rest : List Block) (cur : Block), cur.size % 8 = 0 →
    (∀ b ∈ rest, b.size % 8 = 0) → ∀ b ∈ coalesce_loop cur rest, b.size % 8 = 0
  | [], cur, hc, _ => by simpa [coalesce_loop] using hc
  | nxt :: rest, cur, hc, h => by
      simp only [List.forall_mem_cons] at h
      unfold coalesce_loop
      split
      · exact al_coalesce_loop rest _ (wadd_mod8 hc (wadd_mod8 h.1 META_mod8)) h.2
      · simp only [List.forall_mem_cons]
        exact ⟨hc, al_coalesce_loop rest nxt h.1 h.2⟩

theorem al_coalesce (bs : List Block) (h : ∀ b ∈ bs, b.size % 8 = 0) :
    ∀ b ∈ coalesce bs, b.size % 8 = 0 := by
  cases bs with
  | nil => simp [coalesce]
  | cons a rest =>
      simp only [List.forall_mem_cons] at h
      exact al_coalesce_loop rest a h.1 h.2

theorem al_coalesce_realloc_loop (target : Nat) : ∀ (rest : List Block) (total : Nat),
    total % 8 = 0 → (∀ b ∈ rest, b.size % 8 = 0) →
    (coalesce_realloc_loop target total rest).1 % 8 = 0 ∧
      ∀ b ∈ (coalesce_realloc_loop target total rest).2, b.size % 8 = 0
  | [], total, ht, _ => by simpa [coalesce_realloc_loop] using ht
  | nxt :: rest, total, ht, h => by
      have h' := h
      simp only [List.forall_mem_cons] at h'
      have hm := wadd_mod8 ht (wadd_mod8 h'.1 META_mod8)
      by_cases hf : nxt.status = STATUS_FREE
      · by_cases hstop : rest.isEmpty ∨ wadd total (wadd nxt.size META) ≥ target
        · simp only [coalesce_realloc_loop, if_pos hf, if_pos hstop]
          exact ⟨hm, h'.2⟩
        · simp only [coalesce_realloc_loop, if_pos hf, if_neg hstop]
          exact al_coalesce_realloc_loop target rest _ hm h'.2
      · simp only [coalesce_realloc_loop, if_neg hf]
        exact ⟨ht, h⟩

theorem al_coalesce_realloc (target : Nat) (l : List Block) (h : ∀ b ∈ l, b.size % 8 = 0) :
    ∀ b ∈ coalesce_realloc target l, b.size % 8 = 0 := by
  cases l with
  | nil => simp [coalesce_realloc]
  | cons S rest =>
      have h' := h
      simp only [List.forall_mem_cons] at h'
      by_cases hf : S.status = STATUS_FREE
      · simp only [coalesce_realloc, if_pos hf, List.forall_mem_cons]
        exact al_coalesce_realloc_loop target rest S.size h'.1 h'.2
      · simp only [coalesce_realloc, if_neg hf]
        exact h

theorem al_find_best_fit (s : Heap) (size : Nat) (hs : size % 8 = 0)
    (h : ∀ b ∈ s.blocks, b.size % 8 = 0) :
    ∀ b ∈ (find_best_fit s size).2.blocks, b.size % 8 = 0 := by
  have hco := al_coalesce s.blocks h
  cases hb : best_fit_loop size (coalesce s.blocks) 0 none with
  | none => rw [find_best_fit_none s size hb]; exact hco
  | some kc =>
      obtain ⟨k, c⟩ := kc
      rw [find_best_fit_some s size k c hb]
      split
      · exact al_split_block size hs _ k hco
      · exact al_modifyAt (fun b => { b with status := STATUS_ALLOC }) (fun _ hb => hb) _ k hco

theorem al_add_new_mapped_block (s : Heap) (size p : Nat) (s' : Heap) (hs : size % 8 = 0)
    (h : ∀ b ∈ s.blocks, b.size % 8 = 0) (hr : add_new_mapped_block s size = some (p, s')) :
    ∀ b ∈ s'.blocks, b.size % 8 = 0 := by
  rw [(add_new_mapped_block_some s size p s' hr).2.2.1]
  intro b hmem
  rcases List.mem_append.1 hmem with hmem | hmem
  · exact h b hmem
  · have : b = { addr := s.next_map, size := size, status := STATUS_MAPPED } := by
      simpa using hmem
    rw [this]
    exact hs

theorem al_add_new_alloced_block (s : Heap) (size p : Nat) (s' : Heap) (hs : size % 8 = 0)
    (h : ∀ b ∈ s.blocks, b.size % 8 = 0)
    (hr : add_new_alloced_block s size = some (p, s')) : ∀ b ∈ s'.blocks, b.size % 8 = 0 := by
  simp only [add_new_alloced_block] at hr
  split at hr
  · split at hr
    · cases hr
    · split at hr
      · cases hr
        exact al_modifyAt _ (fun _ _ => hs) _ _ h
      · split at hr
        · cases hr
          simp only [List.forall_mem_cons]
          exact ⟨hs, fun b hb => h b (List.mem_of_mem_drop hb)⟩
        · cases hr
          exact al_insertAfter _ hs _ _ h
  · cases hr
    simp only
    split
    · exact al_split_block size hs _ 0 (by simp; decide)
    · simp
      decide

theorem al_add_new_block (s : Heap) (size p : Nat) (s' : Heap) (hs : size % 8 = 0)
    (h : ∀ b ∈ s.blocks, b.size % 8 = 0)
    (hr : add_new_block s size = some (p, s')) : ∀ b ∈ s'.blocks, b.size % 8 = 0 := by
  simp only [add_new_block] at hr
  split at hr
  · exact al_add_new_mapped_block s _ p s' hs h hr
  · exact al_add_new_alloced_block s _ p s' hs h hr

theorem al_add_new_block_calloc (s : Heap) (size p : Nat) (s' : Heap) (hs : size % 8 = 0)
    (h : ∀ b ∈ s.blocks, b.size % 8 = 0)
    (hr : add_new_block_calloc s size = some (p, s')) : ∀ b ∈ s'.blocks, b.size % 8 = 0 := by
  simp only [add_new_block_calloc] at hr
  split at hr
  · exact al_add_new_mapped_block s _ p s' hs h hr
  · exact al_add_new_alloced_block s _ p s' hs h hr

theorem al_os_malloc (s : Heap) (n p : Nat) (s' : Heap) (h : ∀ b ∈ s.blocks, b.size % 8 = 0)
    (hr : os_malloc s n = some (p, s')) : ∀ b ∈ s'.blocks, b.size % 8 = 0 := by
  by_cases hn : n = 0
  · simp only [os_malloc, if_pos hn] at hr
    cases hr
    exact h
  · have hfb := al_find_best_fit s (toSizeT (align n)) (toSizeT_align_mod n) h
    simp only [os_malloc, if_neg hn] at hr
    rcases hf : find_best_fit s (toSizeT (align n)) with ⟨r, s1⟩
    rw [hf] at hr hfb
    cases r with
    | none => exact al_add_new_block s1 _ p s' (toSizeT_align_mod n) hfb hr
    | some i =>
        simp only [Option.map_eq_some'] at hr
        obtain ⟨a, _, ha⟩ := hr
        cases ha
        exact hfb

theorem al_os_free (s : Heap) (ptr : Nat) (h : ∀ b ∈ s.blocks, b.size % 8 = 0) :
    ∀ b ∈ (os_free s ptr).blocks, b.size % 8 = 0 := by
  by_cases hp : ptr = NULL
  · rw [hp, os_free_null]; exact h
  · cases hf : find_block s.blocks (wsub ptr META) with
    | none => rw [os_free_not_found s ptr hf]; exact h
    | some i =>
        obtain ⟨⟨b, hb, _⟩, _⟩ := find_block_some _ _ _ hf
        rw [os_free_found s ptr i b hp hf hb]
        split
        · exact al_modifyAt (fun b => { b with status := STATUS_FREE }) (fun _ hb => hb) _ i h
        · split
          · exact al_delete_node _ i h
          · exact h

theorem al_os_calloc (s : Heap) (nmemb n p : Nat) (s' : Heap)
    (h : ∀ b ∈ s.blocks, b.size % 8 = 0)
    (hr : os_calloc s nmemb n = some (p, s')) : ∀ b ∈ s'.blocks, b.size % 8 = 0 := by
  simp only [os_calloc] at hr
  split at hr
  · cases hr
    exact h
  · simp only [Option.map_eq_some'] at hr
    obtain ⟨⟨adr, s2⟩, hres, heq⟩ := hr
    have hb : s'.blocks = s2.blocks := by
      simp only at heq
      split at heq <;> cases heq <;> rfl
    rw [hb]
    have hal := toSizeT_align_mod (nmemb * n % 18446744073709551616)
    by_cases hc : toInt32 (wadd n META) < toInt32 getpagesize
    · rw [if_pos hc] at hres
      have hfb := al_find_best_fit s (toSizeT (align (nmemb * n % 18446744073709551616))) hal h
      rcases hf : find_best_fit s (toSizeT (align (nmemb * n % 18446744073709551616))) with ⟨r, s1⟩
      rw [hf] at hres hfb
      cases r with
      | none => exact al_add_new_block_calloc s1 _ adr s2 hal hfb hres
      | some i =>
          simp only at hres
          split at hres
          · exact al_add_new_block_calloc s1 _ adr s2 hal hfb hres
          · simp only [Option.map_eq_some'] at hres
            obtain ⟨a, _, ha⟩ := hres
            cases ha
            exact hfb
    · rw [if_neg hc] at hres
      exact al_add_new_block_calloc s _ adr s2 hal h hres

theorem al_try_realloc_expanding (bs : List Block) (i : Nat) (B : Block) (size : Nat)
    (h : ∀ b ∈ bs, b.size % 8 = 0) :
    ∀ b ∈ (try_realloc_expanding bs i B size).1, b.size % 8 = 0 := by
  rw [try_realloc_expanding_fst]
  intro b hb
  rcases List.mem_append.1 hb with hb | hb
  · exact h b (List.mem_of_mem_take hb)
  · exact al_coalesce_realloc _ _ (fun c hc => h c (List.mem_of_mem_drop hc)) b hb

theorem al_expand_block_realloc (s : Heap) (i : Nat) (B : Block) (size p : Nat) (s' : Heap)
    (hs : size % 8 = 0) (hB : B.size % 8 = 0) (h : ∀ b ∈ s.blocks, b.size % 8 = 0)
    (hr : expand_block_realloc s i B size = some (p, s')) :
    ∀ b ∈ s'.blocks, b.size % 8 = 0 := by
  simp only [expand_block_realloc] at hr
  split at hr
  · cases hr
  · rename_i N hN
    cases hr
    have hNs : N.size % 8 = 0 := h N (List.getElem?_mem hN)
    have h1 : ∀ b ∈ delete_node (modifyAt
        (fun b => { b with size := wadd B.size (wadd N.size META) }) s.blocks i) (i + 1),
        b.size % 8 = 0 :=
      al_delete_node _ _ (al_modifyAt _
        (fun _ _ => wadd_mod8 hB (wadd_mod8 hNs META_mod8)) _ _ h)
    simp only
    split
    · exact al_split_block size hs _ i h1
    · exact h1

theorem al_find_free_block_realloc (s : Heap) (B : Block) (total : Nat) (r : Option Nat)
    (s1 : Heap) (ht : total % 8 = 0) (h : ∀ b ∈ s.blocks, b.size % 8 = 0)
    (hr : find_free_block_realloc s B total = some (r, s1)) :
    ∀ b ∈ s1.blocks, b.size % 8 = 0 := by
  have hco := al_coalesce s.blocks h
  simp only [find_free_block_realloc] at hr
  cases hbf : best_fit_loop total (coalesce s.blocks) 0 none with
  | none =>
      rw [hbf] at hr
      simp only [Option.some.injEq, Prod.mk.injEq] at hr
      obtain ⟨_, rfl⟩ := hr
      exact hco
  | some jm =>
      obtain ⟨j, minim⟩ := jm
      rw [hbf] at hr
      simp only at hr
      have hbs1 : ∀ b ∈ (if minim.size > wadd META total then
          split_block (coalesce s.blocks) j total
          else modifyAt (fun b => { b with status := STATUS_ALLOC }) (coalesce s.blocks) j),
          b.size % 8 = 0 := by
        split
        · exact al_split_block total ht _ j hco
        · exact al_modifyAt (fun b => { b with status := STATUS_ALLOC }) (fun _ hb => hb) _ j hco
      generalize (if minim.size > wadd META total then
          split_block (coalesce s.blocks) j total
          else modifyAt (fun b => { b with status := STATUS_ALLOC }) (coalesce s.blocks) j) = bs1
        at hr hbs1
      cases hfk : find_block bs1 B.addr with
      | none =>
          rw [hfk] at hr
          cases hr
      | some k =>
          rw [hfk] at hr
          simp only [Option.some.injEq, Prod.mk.injEq] at hr
          obtain ⟨_, rfl⟩ := hr
          exact al_modifyAt (fun b => { b with status := STATUS_FREE }) (fun _ hb => hb) _ k hbs1

theorem al_move_block_realloc (s : Heap) (k : Nat) (B : Block) (size p : Nat) (s' : Heap)
    (hs : size % 8 = 0) (h : ∀ b ∈ s.blocks, b.size % 8 = 0)
    (hr : move_block_realloc s k B size = some (p, s')) : ∀ b ∈ s'.blocks, b.size % 8 = 0 := by
  have hbs := al_modifyAt (fun b => { b with status := STATUS_FREE }) (fun _ hb => hb) _ k h
  simp only [move_block_realloc] at hr
  generalize modifyAt (fun b => { b with status := STATUS_FREE }) s.blocks k = bs at hr hbs
  split at hr
  · split at hr
    · cases hr
    · cases hr
      exact al_insertAfter _ hs _ _ hbs
  · split at hr
    · cases hr
    · rename_i r hm
      obtain ⟨p1, s1⟩ := r
      cases hr
      exact al_add_new_mapped_block { s with blocks := bs } size p1 s1 hs hbs hm

theorem al_realloc_move (s : Heap) (B : Block) (total p : Nat) (s' : Heap)
    (ht : total % 8 = 0) (h : ∀ b ∈ s.blocks, b.size % 8 = 0)
    (hr : realloc_move s B total = some (p, s')) : ∀ b ∈ s'.blocks, b.size % 8 = 0 := by
  simp only [realloc_move] at hr
  cases hff : find_free_block_realloc s B total with
  | none => rw [hff] at hr; cases hr
  | some rs =>
      obtain ⟨r, s1⟩ := rs
      have hinv := al_find_free_block_realloc s B total r s1 ht h hff
      rw [hff] at hr
      cases r with
      | some j =>
          simp only [Option.map_eq_some'] at hr
          obtain ⟨a, _, ha⟩ := hr
          cases ha
          exact hinv
      | none =>
          simp only at hr
          cases hl : s1.blocks[last_alloced_idx s1.blocks]? with
          | none => rw [hl] at hr; cases hr
          | some last =>
              cases hfk : find_block s1.blocks B.addr with
              | none => rw [hl, hfk] at hr; cases hr
              | some k =>
                  rw [hl, hfk] at hr
                  simp only at hr
                  split at hr
                  · cases hr
                    exact al_modifyAt (fun b => { b with status := STATUS_FREE })
                      (fun _ hb => hb) _ k
                      (al_modifyAt (fun b => { b with size := total, status := STATUS_ALLOC })
                        (fun _ _ => ht) _ _ hinv)
                  · exact al_move_block_realloc s1 k B total p s' ht hinv hr

theorem al_os_realloc (s : Heap) (ptr n p : Nat) (s' : Heap)
    (h : ∀ b ∈ s.blocks, b.size % 8 = 0)
    (hr : os_realloc s ptr n = some (p, s')) : ∀ b ∈ s'.blocks, b.size % 8 = 0 := by
  have hal := toSizeT_align_mod n
  by_cases hn : n = 0
  · simp only [os_realloc, if_pos hn] at hr
    cases hr
    exact al_os_free s ptr h
  by_cases hp : ptr = NULL
  · simp only [os_realloc, if_neg hn, if_pos hp] at hr
    exact al_os_malloc s n p s' h hr
  cases hf : find_block s.blocks (wsub ptr META) with
  | none => simp only [os_realloc, if_neg hn, if_neg hp, hf] at hr; cases hr
  | some i =>
    obtain ⟨⟨B, hB, _⟩, _⟩ := find_block_some _ _ _ hf
    have hBs : B.size % 8 = 0 := h B (List.getElem?_mem hB)
    by_cases hA : B.status = STATUS_ALLOC
    · rw [os_realloc_alloc s ptr n i B hn hp hf hB hA] at hr
      split at hr
      · cases hr
        exact al_split_block _ hal _ i h
      · split at hr
        · cases hr
          exact h
        · have hinv1 := al_try_realloc_expanding s.blocks i B (toSizeT (align n)) h
          rcases hte : try_realloc_expanding s.blocks i B (toSizeT (align n)) with ⟨bs1, r⟩
          rw [hte] at hr hinv1
          simp only at hinv1
          cases r with
          | none => exact al_realloc_move { s with blocks := bs1 } B _ p s' hal hinv1 hr
          | some bf =>
              simp only at hr
              split at hr
              · cases hr
                exact al_modifyAt
                  (fun b => { b with status := STATUS_ALLOC, size := toSizeT (align n) })
                  (fun _ _ => hal) _ _ hinv1
              · exact al_expand_block_realloc { s with blocks := bs1 } i B _ p s' hal hBs
                  hinv1 hr
    · by_cases hF : B.status = STATUS_FREE
      · simp only [os_realloc, if_neg hn, if_neg hp, hf, hB, if_pos hF] at hr
        cases hr
        exact h
      · by_cases hM : B.status = STATUS_MAPPED
        · simp only [os_realloc, if_neg hn, if_neg hp, hf, hB, if_neg hF, if_pos hM] at hr
          cases hm : os_malloc s n with
          | none => rw [hm] at hr; cases hr
          | some r =>
              obtain ⟨adr, s1⟩ := r
              rw [hm] at hr
              cases hr
              exact al_os_free _ ptr (al_os_malloc s n _ s1 h hm)
        · simp only [os_realloc, if_neg hn, if_neg hp, hf, hB, if_neg hF, if_neg hM,
            if_neg hA] at hr
          cases hr
          exact h

theorem reachable_sizes_aligned (s : Heap) (h : Reachable s) : ∀ b ∈ s.blocks, b.size % 8 = 0 := by
  induction h with
  | fresh brk0 map0 mem0 => simp [fresh]
  | malloc s s' n p _ hr ih => exact al_os_malloc s n p s' ih hr
  | free s ptr _ ih => exact al_os_free s ptr ih
  | calloc s s' nmemb n p _ hr ih => exact al_os_calloc s nmemb n p s' ih hr
  | realloc s s' ptr n p _ hr ih => exact al_os_realloc s ptr n p s' ih hr

theorem reachable_of_small (s : Heap) (h : ReachableSmall s) : Reachable s := by
  induction h with
  | fresh brk0 map0 mem0 => exact Reachable.fresh brk0 map0 mem0
  | malloc s s' n p _ _ hr ih => exact Reachable.malloc s s' n p ih hr
  | free s ptr _ ih => exact Reachable.free s ptr ih
  | calloc s s' nmemb n p _ _ hr ih => exact Reachable.calloc s s' nmemb n p ih hr
  | realloc s s' ptr n p _ _ hr ih => exact Reachable.realloc s s' ptr n p ih hr

/-- C16: size alignment is an invariant.  In every state reachable from the
fresh empty state through `os_malloc`, `os_free`, `os_calloc` and `os_realloc`
with request sizes small enough that no conversion between `int` and `size_t`
overflows, every block's size field is a multiple of 8. -/
theorem C16_sizes_aligned_invariant (s : Heap) (h : ReachableSmall s) : SizesAligned s.blocks :=
  reachable_sizes_aligned s (reachable_of_small s h)

/-- C16 (witness): the state after `allocate(64)` in a fresh process. -/
theorem C16_sizes_aligned_invariant_witness : SizesAligned after_malloc_64.blocks :=
  C16_sizes_aligned_invariant after_malloc_64
    (ReachableSmall.malloc (fresh 1000000 70000000000 (fun _ => 0)) after_malloc_64 64 1000024
      (ReachableSmall.fresh 1000000 70000000000 (fun _ => 0)) (by decide) rfl)

/-! ### Lemmas: `coalesce` and its reference definition -/

theorem block_eta (b : Block) : ({ b with size := b.size } : Block) = b := by
  cases b
  rfl

theorem coalesce_cons (b : Block) (rest : List Block) :
    coalesce (b :: rest) = coalesce_loop b rest := rfl

theorem coalesce_loop_not_free (cur : Block) (rest : List Block)
    (h : cur.status ≠ STATUS_FREE) : coalesce_loop cur rest = cur :: coalesce rest := by
  cases rest with
  | nil => rfl
  | cons nxt rest =>
      simp only [coalesce_loop, coalesce]
      rw [if_neg (fun hh => h hh.1)]

theorem coalesce_loop_free : ∀ (rest : List Block) (cur : Block), cur.status = STATUS_FREE →
    cur.size + capacity (free_run rest) < 18446744073709551616 →
    coalesce_loop cur rest =
      { cur with size := cur.size + capacity (free_run rest) } ::
        coalesce (rest.drop (free_run rest).length)
  | [], cur, _, _ => by
      simp only [coalesce_loop, free_run, capacity, Nat.add_zero, List.length_nil, List.drop_nil,
        coalesce, block_eta]
  | nxt :: rest, cur, hc, hw => by
      by_cases hf : nxt.status = STATUS_FREE
      · have hrun : free_run (nxt :: rest) = nxt :: free_run rest := by simp [free_run, hf]
        rw [hrun] at hw ⊢
        simp only [capacity] at hw
        have h1 : wadd cur.size (wadd nxt.size META) = cur.size + (nxt.size + META) := by
          rw [wadd_eq (a := nxt.size) (by omega), wadd_eq (by omega)]
        have e : coalesce_loop cur (nxt :: rest) =
            coalesce_loop { cur with size := wadd cur.size (wadd nxt.size META) } rest := by
          simp only [coalesce_loop, if_pos (And.intro hc hf)]
        have hw2 : wadd cur.size (wadd nxt.size META) + capacity (free_run rest) <
            18446744073709551616 := by rw [h1]; omega
        rw [e, coalesce_loop_free rest { cur with size := wadd cur.size (wadd nxt.size META) }
          hc hw2]
        simp only [h1, capacity, List.length_cons, List.drop_succ_cons]
        congr 2
        omega
      · have hrun : free_run (nxt :: rest) = [] := by simp [free_run, hf]
        rw [hrun]
        have e : coalesce_loop cur (nxt :: rest) = cur :: coalesce_loop nxt rest := by
          simp only [coalesce_loop]
          rw [if_neg (fun hh => hf hh.2)]
        rw [e]
        simp only [capacity, Nat.add_zero, List.length_nil, List.drop_zero, block_eta,
          coalesce_cons]

theorem capacity_eq_sum (l : List Block) :
    capacity l = (l.map Block.size).sum + l.length * META := by
  induction l with
  | nil => simp [capacity]
  | cons b rest ih =>
      simp only [capacity, List.map_cons, List.sum_cons, List.length_cons, ih]
      rw [Nat.add_mul]
      omega

theorem capacity_append (l1 l2 : List Block) :
    capacity (l1 ++ l2) = capacity l1 + capacity l2 := by
  induction l1 with
  | nil => simp [capacity]
  | cons b rest ih =>
      show b.size + META + capacity (rest ++ l2) = b.size + META + capacity rest + capacity l2
      rw [ih]
      omega

theorem free_run_append_drop : ∀ (l : List Block),
    l = free_run l ++ l.drop (free_run l).length
  | [] => by simp [free_run]
  | b :: rest => by
      by_cases hf : b.status = STATUS_FREE
      · have hrun : free_run (b :: rest) = b :: free_run rest := by simp [free_run, hf]
        rw [hrun]
        simp only [List.length_cons, List.drop_succ_cons, List.cons_append]
        rw [← free_run_append_drop rest]
      · have hrun : free_run (b :: rest) = [] := by simp [free_run, hf]
        rw [hrun]
        simp

theorem capacity_split_run (l : List Block) :
    capacity l = capacity (free_run l) + capacity (l.drop (free_run l).length) := by
  have h := free_run_append_drop l
  have h2 := capacity_append (free_run l) (l.drop (free_run l).length)
  rw [← h] at h2
  exact h2

theorem merged_run_eq (b : Block) (run : List Block) (hb : b.status = STATUS_FREE) :
    merged_run b run = { b with size := b.size + capacity run } := by
  unfold merged_run
  rw [capacity_eq_sum]
  cases b with
  | mk a sz st =>
      simp only at hb
      simp only [List.map_cons, List.sum_cons, List.length_cons, Nat.add_sub_cancel, hb,
        Block.mk.injEq, and_true, true_and]
      omega

theorem runsFit_drop : ∀ (bs : List Block) (k : Nat), RunsFit bs → RunsFit (bs.drop k)
  | bs, 0, h => h
  | [], _ + 1, _ => trivial
  | _ :: rest, k + 1, h => runsFit_drop rest k h.2

theorem coalesce_eq_ref_fuel : ∀ (fuel : Nat) (bs : List Block), bs.length ≤ fuel →
    RunsFit bs →
    coalesce bs = coalesce_ref_fuel fuel bs ∧ capacity (coalesce bs) = capacity bs
  | 0, bs, hl, _ => by
      have : bs = [] := List.eq_nil_of_length_eq_zero (by omega)
      subst this
      exact ⟨rfl, rfl⟩
  | fuel + 1, [], _, _ => ⟨rfl, rfl⟩
  | fuel + 1, b :: rest, hl, hw => by
      simp only [List.length_cons] at hl
      by_cases hf : b.status = STATUS_FREE
      · have hsplit := capacity_split_run rest
        have hdl : (rest.drop (free_run rest).length).length ≤ fuel := by
          rw [List.length_drop]
          omega
        obtain ⟨ih1, ih2⟩ := coalesce_eq_ref_fuel fuel (rest.drop (free_run rest).length) hdl
          (runsFit_drop rest _ hw.2)
        rw [coalesce_cons, coalesce_loop_free rest b hf (hw.1 hf)]
        refine ⟨?_, ?_⟩
        · simp only [coalesce_ref_fuel, if_pos hf, merged_run_eq b _ hf, ih1]
        · simp only [capacity, ih2]
          omega
      · obtain ⟨ih1, ih2⟩ := coalesce_eq_ref_fuel fuel rest (by omega) hw.2
        rw [coalesce_cons, coalesce_loop_not_free b rest hf]
        refine ⟨?_, ?_⟩
        · simp only [coalesce_ref_fuel, if_neg hf, ih1]
        · simp only [capacity, ih2]

theorem coalesce_loop_of_noAdj : ∀ (rest : List Block) (cur : Block),
    NoAdjFree (cur :: rest) → coalesce_loop cur rest = cur :: rest
  | [], _, _ => rfl
  | nxt :: rest, cur, h => by
      simp only [coalesce_loop]
      rw [if_neg h.1, coalesce_loop_of_noAdj rest nxt h.2]

theorem coalesce_of_noAdj (bs : List Block) (h : NoAdjFree bs) : coalesce bs = bs := by
  cases bs with
  | nil => rfl
  | cons b rest => exact coalesce_loop_of_noAdj rest b h

/-- C17 (counterexample): the list reached by `a = allocate(64)`,
`b = allocate(130960)`, `b = reallocate(b, 2147483616)`, `free(b)`,
`reallocate(a, 2147483624)` holds two adjacent `FREE` blocks whose sizes and
one header add up to `2^64 + 56`.  `coalesce` adds them as `size_t` values and
records 56; the reference definition records the sum, and the sum of
`size + header_size` over the list is not kept. -/
theorem C17_coalesce_wraps_on_long_run :
    ∃ a b b2 s1 s2 s3 s5,
      os_malloc (fresh 1000000 70000000000 (fun _ => 0)) 64 = some (a, s1) ∧
      os_malloc s1 130960 = some (b, s2) ∧
      os_realloc s2 b 2147483616 = some (b2, s3) ∧
      os_realloc (os_free s3 b2) a 2147483624 = some (a, s5) ∧
      s5.blocks =
        [{ addr := 1000000, size := 2147483624, status := STATUS_ALLOC },
         { addr := 2148483648, size := 18446744071562068032, status := STATUS_FREE },
         { addr := 1000088, size := 2147483616, status := STATUS_FREE }] ∧
      18446744071562068032 + 2147483616 + META = 18446744073709551616 + 56 ∧
      coalesce s5.blocks =
        [{ addr := 1000000, size := 2147483624, status := STATUS_ALLOC },
         { addr := 2148483648, size := 56, status := STATUS_FREE }] ∧
      coalesce_ref s5.blocks =
        [{ addr := 1000000, size := 2147483624, status := STATUS_ALLOC },
         { addr := 2148483648, size := 18446744073709551672, status := STATUS_FREE }] ∧
      coalesce s5.blocks ≠ coalesce_ref s5.blocks ∧
      capacity (coalesce s5.blocks) ≠ capacity s5.blocks :=
  ⟨_, _, _, _, _, _, _, rfl, rfl, rfl, rfl, rfl, by decide, by decide, by decide, by decide,
    by decide⟩

/-- C17 (amended): the global coalesce equals its reference definition on
every list whose runs of `FREE` blocks have merged sizes below `2^64`.  On
such a list `coalesce` yields the list in which each maximal run of `k ≥ 1`
consecutive `FREE` blocks is one `FREE` block at the run's first address of
size (sum of the sizes) + `(k - 1) * header_size` and every other block is
kept, and the sum of `size + header_size` over the list is unchanged; for
every list the result has no two adjacent `FREE` blocks and `coalesce` is
idempotent. -/
theorem C17_coalesce_reference (bs : List Block) :
    (RunsFit bs →
      coalesce bs = coalesce_ref bs ∧ capacity (coalesce bs) = capacity bs) ∧
    NoAdjFree (coalesce bs) ∧ coalesce (coalesce bs) = coalesce bs :=
  ⟨fun h => coalesce_eq_ref_fuel bs.length bs (Nat.le_refl _) h, noAdj_coalesce bs,
    coalesce_of_noAdj _ (noAdj_coalesce bs)⟩

/-- C17 (amended, witness): a list with two runs of `FREE` blocks and two
barriers. -/
theorem C17_coalesce_reference_witness :
    coalesce
        [{ addr := 1000, size := 8, status := STATUS_FREE },
         { addr := 1032, size := 16, status := STATUS_FREE },
         { addr := 1072, size := 8, status := STATUS_ALLOC },
         { addr := 1104, size := 8, status := STATUS_FREE },
         { addr := 9000, size := 8, status := STATUS_MAPPED }] =
      [{ addr := 1000, size := 48, status := STATUS_FREE },
       { addr := 1072, size := 8, status := STATUS_ALLOC },
       { addr := 1104, size := 8, status := STATUS_FREE },
       { addr := 9000, size := 8, status := STATUS_MAPPED }] ∧
    coalesce_ref
        [{ addr := 1000, size := 8, status := STATUS_FREE },
         { addr := 1032, size := 16, status := STATUS_FREE },
         { addr := 1072, size := 8, status := STATUS_ALLOC },
         { addr := 1104, size := 8, status := STATUS_FREE },
         { addr := 9000, size := 8, status := STATUS_MAPPED }] =
      [{ addr := 1000, size := 48, status := STATUS_FREE },
       { addr := 1072, size := 8, status := STATUS_ALLOC },
       { addr := 1104, size := 8, status := STATUS_FREE },
       { addr := 9000, size := 8, status := STATUS_MAPPED }] := by
  have h := ((C17_coalesce_reference
      [{ addr := 1000, size := 8, status := STATUS_FREE },
       { addr := 1032, size := 16, status := STATUS_FREE },
       { addr := 1072, size := 8, status := STATUS_ALLOC },
       { addr := 1104, size := 8, status := STATUS_FREE },
       { addr := 9000, size := 8, status := STATUS_MAPPED }]).1 (by decide)).1
  exact ⟨by decide, h ▸ (by decide)⟩

/-- C21 (failing input): fresh process, `p = allocate(200 * 1024)` (mapped, sets
`initialised`), `free(p)` (the list is empty again), `allocate(64)`.  Best-fit
misses and `add_new_alloced_block`, finding `initialised != 0`, starts its walk
at `heap_head = NULL` and reads `last_alloced_block->next`: a field of an absent
block.  No arena is created and no pointer is returned. -/
theorem C21_alloc_after_emptied_list_reads_null :
    ∃ p s1,
      os_malloc (fresh 1000000 70000000000 (fun _ => 0)) (200 * 1024) = some (p, s1) ∧
      toSizeT (align (200 * 1024)) ≥ MMAP_THRESHOLD ∧
      (os_free s1 p).blocks = [] ∧ (os_free s1 p).initialised = 1 ∧
      toSizeT (align 64) < MMAP_THRESHOLD ∧
      (find_best_fit (os_free s1 p) (toSizeT (align 64))).1 = none ∧
      add_new_alloced_block (os_free s1 p) (toSizeT (align 64)) = none ∧
      os_malloc (os_free s1 p) 64 = none :=
  ⟨_, _, rfl, by decide, rfl, rfl, by decide, rfl, rfl, rfl⟩

/-- C22 (failing input): `a = allocate(64)`, `b = allocate(64)`, `free(b)` give
the list `ALLOC 64, FREE 64, FREE 130872`.  `coalesce_realloc` on the `FREE`
block `S` of 64 bytes with target `32` (the call that `reallocate(a, 120)`
makes) absorbs the successor of 130872 bytes although `S.size ≥ 32` already:
the loop tests the target only after it has absorbed a block. -/
theorem C22_coalesce_realloc_absorbs_past_target :
    ∃ a b s1 s2,
      os_malloc (fresh 1000000 70000000000 (fun _ => 0)) 64 = some (a, s1) ∧
      os_malloc s1 64 = some (b, s2) ∧
      (os_free s2 b).blocks =
        [{ addr := 1000000, size := 64, status := STATUS_ALLOC },
         { addr := 1000088, size := 64, status := STATUS_FREE },
         { addr := 1000176, size := 130872, status := STATUS_FREE }] ∧
      wsub (wsub (toSizeT (align 120)) 64) META = 32 ∧ (64 : Nat) ≥ 32 ∧
      coalesce_realloc 32
          [{ addr := 1000088, size := 64, status := STATUS_FREE },
           { addr := 1000176, size := 130872, status := STATUS_FREE }] =
        [{ addr := 1000088, size := 130960, status := STATUS_FREE }] ∧
      (try_realloc_expanding (os_free s2 b).blocks 0
          { addr := 1000000, size := 64, status := STATUS_ALLOC } (toSizeT (align 120))).1 =
        [{ addr := 1000000, size := 64, status := STATUS_ALLOC },
         { addr := 1000088, size := 130960, status := STATUS_FREE }] :=
  ⟨_, _, _, _, rfl, rfl, rfl, by decide, by decide, by decide, by decide⟩

/-- Closed form of `align` on the range where `n + 7` fits a non-negative `int`. -/
theorem align_eq_ceil (n : Nat) (h : n + 7 < 2147483648) :
    align n = (((n + 7) / 8 * 8 : Nat) : Int) := by
  unfold align ALIGNMENT toInt32
  split <;> split <;> omega

/-- C23: for every `n` with `n + 7` representable as a non-negative `int`,
`align n` is the least multiple of 8 that is at least `n`; it equals `n` when 8
divides `n` and lies strictly between `n` and `n + 8` otherwise; `align` is
idempotent and monotone on that range. -/
theorem C23_align_is_ceiling (n : Nat) (h : n + 7 < 2147483648) :
    (∃ m : Nat, align n = (m : Int) ∧ m % 8 = 0 ∧ n ≤ m ∧
        ∀ k : Nat, k % 8 = 0 → n ≤ k → m ≤ k) ∧
    (n % 8 = 0 → align n = (n : Int)) ∧
    (n % 8 ≠ 0 → (n : Int) < align n ∧ align n < (n : Int) + 8) ∧
    align (align n).toNat = align n ∧
    toSizeT (align n) = (align n).toNat ∧
    ∀ n2 : Nat, n ≤ n2 → n2 + 7 < 2147483648 → align n ≤ align n2 := by
  have e := align_eq_ceil n h
  refine ⟨⟨(n + 7) / 8 * 8, e, by omega, by omega, fun k hk hn => by omega⟩,
    fun h8 => by omega, fun h8 => by omega, ?_, ?_, ?_⟩
  · have e2 : (align n).toNat = (n + 7) / 8 * 8 := by omega
    rw [e2, align_eq_ceil _ (by omega), e]
    have : ((n + 7) / 8 * 8 + 7) / 8 * 8 = (n + 7) / 8 * 8 := by omega
    rw [this]
  · unfold toSizeT
    omega
  · intro n2 hle h2
    rw [e, align_eq_ceil n2 h2]
    omega

theorem C23_align_is_ceiling_witness :
    (13 + 7 < 2147483648) ∧
    ((∃ m : Nat, align 13 = (m : Int) ∧ m % 8 = 0 ∧ 13 ≤ m ∧
        ∀ k : Nat, k % 8 = 0 → 13 ≤ k → m ≤ k) ∧
    (13 % 8 = 0 → align 13 = ((13 : Nat) : Int)) ∧
    (13 % 8 ≠ 0 → ((13 : Nat) : Int) < align 13 ∧ align 13 < ((13 : Nat) : Int) + 8) ∧
    align (align 13).toNat = align 13 ∧
    toSizeT (align 13) = (align 13).toNat ∧
    ∀ n2 : Nat, 13 ≤ n2 → n2 + 7 < 2147483648 → align 13 ≤ align n2) :=
  ⟨by decide, C23_align_is_ceiling 13 (by decide)⟩

/-! ### Lemmas: the flag `initialised` -/

theorem find_best_fit_initialised (s : Heap) (size : Nat) :
    (find_best_fit s size).2.initialised = s.initialised := by
  simp only [find_best_fit]
  split
  · rfl
  · split <;> rfl

theorem find_best_fit_nil (s : Heap) (size : Nat) (h : s.blocks = []) :
    (find_best_fit s size).2.blocks = [] := by
  simp [find_best_fit, h, coalesce, best_fit_loop]

theorem initInv_find_best_fit (s : Heap) (size : Nat) (h : InitInv s) :
    InitInv (find_best_fit s size).2 := by
  intro h0
  rw [find_best_fit_initialised] at h0
  exact find_best_fit_nil s size (h h0)

theorem initNZ_add_new_mapped_block (s : Heap) (size p : Nat) (s' : Heap) (h : InitInv s)
    (hr : add_new_mapped_block s size = some (p, s')) : s'.initialised ≠ 0 := by
  obtain ⟨_, _, hbl, hi, _⟩ := add_new_mapped_block_some s size p s' hr
  intro h0
  rcases hi with ⟨hne, hi⟩ | ⟨_, hi⟩
  · exact hne (h (hi ▸ h0))
  · rw [hi] at h0
    cases h0

theorem initNZ_add_new_alloced_block (s : Heap) (size p : Nat) (s' : Heap)
    (hr : add_new_alloced_block s size = some (p, s')) : s'.initialised ≠ 0 := by
  simp only [add_new_alloced_block] at hr
  split at hr
  · rename_i hi
    split at hr
    · cases hr
    · split at hr
      · cases hr; exact hi
      · split at hr
        · cases hr; exact hi
        · cases hr; exact hi
  · cases hr
    simp

theorem initNZ_add_new_block (s : Heap) (size p : Nat) (s' : Heap) (h : InitInv s)
    (hr : add_new_block s size = some (p, s')) : s'.initialised ≠ 0 := by
  simp only [add_new_block] at hr
  split at hr
  · exact initNZ_add_new_mapped_block s size p s' h hr
  · exact initNZ_add_new_alloced_block s size p s' hr

theorem initNZ_add_new_block_calloc (s : Heap) (size p : Nat) (s' : Heap) (h : InitInv s)
    (hr : add_new_block_calloc s size = some (p, s')) : s'.initialised ≠ 0 := by
  simp only [add_new_block_calloc] at hr
  split at hr
  · exact initNZ_add_new_mapped_block s size p s' h hr
  · exact initNZ_add_new_alloced_block s size p s' hr

theorem initInv_of_ne (s : Heap) (h : s.initialised ≠ 0) : InitInv s :=
  fun h0 => absurd h0 h

theorem initInv_os_malloc (s : Heap) (n p : Nat) (s' : Heap) (h : InitInv s)
    (hr : os_malloc s n = some (p, s')) : InitInv s' := by
  by_cases hn : n = 0
  · simp only [os_malloc, if_pos hn] at hr
    cases hr
    exact h
  · have hfb := initInv_find_best_fit s (toSizeT (align n)) h
    simp only [os_malloc, if_neg hn] at hr
    rcases hf : find_best_fit s (toSizeT (align n)) with ⟨r, s1⟩
    rw [hf] at hr hfb
    cases r with
    | none => exact initInv_of_ne _ (initNZ_add_new_block s1 _ p s' hfb hr)
    | some i =>
        simp only [Option.map_eq_some'] at hr
        obtain ⟨a, _, ha⟩ := hr
        cases ha
        exact hfb

theorem os_free_initialised (s : Heap) (ptr : Nat) :
    (os_free s ptr).initialised = s.initialised := by
  simp only [os_free]
  split
  · split
    · rfl
    · split
      · rfl
      · split
        · rfl
        · split <;> rfl
  · rfl

theorem initInv_os_free (s : Heap) (ptr : Nat) (h : InitInv s) : InitInv (os_free s ptr) := by
  intro h0
  rw [os_free_initialised] at h0
  have hb := h h0
  have : os_free s ptr = s := by
    simp [os_free, hb, find_block]
  rw [this]
  exact hb

theorem initInv_os_calloc (s : Heap) (nmemb n p : Nat) (s' : Heap) (h : InitInv s)
    (hr : os_calloc s nmemb n = some (p, s')) : InitInv s' := by
  simp only [os_calloc] at hr
  split at hr
  · cases hr
    exact h
  · simp only [Option.map_eq_some'] at hr
    obtain ⟨⟨adr, s2⟩, hres, heq⟩ := hr
    have hb : s'.blocks = s2.blocks ∧ s'.initialised = s2.initialised := by
      simp only at heq
      split at heq <;> cases heq <;> exact ⟨rfl, rfl⟩
    have key : InitInv s2 → InitInv s' := fun hi h0 => by
      rw [hb.1]
      exact hi (hb.2 ▸ h0)
    apply key
    by_cases hc : toInt32 (wadd n META) < toInt32 getpagesize
    · rw [if_pos hc] at hres
      have hfb := initInv_find_best_fit s (toSizeT (align (nmemb * n % 18446744073709551616))) h
      rcases hf : find_best_fit s (toSizeT (align (nmemb * n % 18446744073709551616))) with ⟨r, s1⟩
      rw [hf] at hres hfb
      cases r with
      | none => exact initInv_of_ne _ (initNZ_add_new_block_calloc s1 _ adr s2 hfb hres)
      | some i =>
          simp only at hres
          split at hres
          · exact initInv_of_ne _ (initNZ_add_new_block_calloc s1 _ adr s2 hfb hres)
          · simp only [Option.map_eq_some'] at hres
            obtain ⟨a, _, ha⟩ := hres
            cases ha
            exact hfb
    · rw [if_neg hc] at hres
      exact initInv_of_ne _ (initNZ_add_new_block_calloc s _ adr s2 h hres)

theorem initNZ_expand_block_realloc (s : Heap) (i : Nat) (B : Block) (size p : Nat) (s' : Heap)
    (h : s.initialised ≠ 0)
    (hr : expand_block_realloc s i B size = some (p, s')) : s'.initialised ≠ 0 := by
  simp only [expand_block_realloc] at hr
  split at hr
  · cases hr
  · cases hr
    exact h

theorem initNZ_find_free_block_realloc (s : Heap) (B : Block) (total : Nat) (r : Option Nat)
    (s1 : Heap) (h : s.initialised ≠ 0)
    (hr : find_free_block_realloc s B total = some (r, s1)) : s1.initialised ≠ 0 := by
  simp only [find_free_block_realloc] at hr
  split at hr
  · cases hr
    exact h
  · split at hr
    · cases hr
    · cases hr
      exact h

theorem initNZ_move_block_realloc (s : Heap) (k : Nat) (B : Block) (size p : Nat) (s' : Heap)
    (h : s.initialised ≠ 0)
    (hr : move_block_realloc s k B size = some (p, s')) : s'.initialised ≠ 0 := by
  simp only [move_block_realloc] at hr
  split at hr
  · split at hr
    · cases hr
    · cases hr
      exact h
  · split at hr
    · cases hr
    · rename_i r hm
      obtain ⟨p1, s1⟩ := r
      cases hr
      refine initNZ_add_new_mapped_block _ size p1 s1 ?_ hm
      exact initInv_of_ne _ h

theorem initNZ_realloc_move (s : Heap) (B : Block) (total p : Nat) (s' : Heap)
    (h : s.initialised ≠ 0)
    (hr : realloc_move s B total = some (p, s')) : s'.initialised ≠ 0 := by
  simp only [realloc_move] at hr
  cases hff : find_free_block_realloc s B total with
  | none => rw [hff] at hr; cases hr
  | some rs =>
      obtain ⟨r, s1⟩ := rs
      have hinv := initNZ_find_free_block_realloc s B total r s1 h hff
      rw [hff] at hr
      cases r with
      | some j =>
          simp only [Option.map_eq_some'] at hr
          obtain ⟨a, _, ha⟩ := hr
          cases ha
          exact hinv
      | none =>
          simp only at hr
          cases hl : s1.blocks[last_alloced_idx s1.blocks]? with
          | none => rw [hl] at hr; cases hr
          | some last =>
              cases hfk : find_block s1.blocks B.addr with
              | none => rw [hl, hfk] at hr; cases hr
              | some k =>
                  rw [hl, hfk] at hr
                  simp only at hr
                  split at hr
                  · cases hr
                    exact hinv
                  · exact initNZ_move_block_realloc s1 k B total p s' hinv hr

theorem initInv_os_realloc (s : Heap) (ptr n p : Nat) (s' : Heap) (h : InitInv s)
    (hr : os_realloc s ptr n = some (p, s')) : InitInv s' := by
  by_cases hn : n = 0
  · simp only [os_realloc, if_pos hn] at hr
    cases hr
    exact initInv_os_free s ptr h
  by_cases hp : ptr = NULL
  · simp only [os_realloc, if_neg hn, if_pos hp] at hr
    exact initInv_os_malloc s n p s' h hr
  cases hf : find_block s.blocks (wsub ptr META) with
  | none => simp only [os_realloc, if_neg hn, if_neg hp, hf] at hr; cases hr
  | some i =>
    obtain ⟨⟨B, hB, _⟩, _⟩ := find_block_some _ _ _ hf
    have hnz : s.initialised ≠ 0 := by
      intro h0
      have := h h0
      rw [this] at hB
      simp at hB
    by_cases hA : B.status = STATUS_ALLOC
    · apply initInv_of_ne
      rw [os_realloc_alloc s ptr n i B hn hp hf hB hA] at hr
      split at hr
      · cases hr
        exact hnz
      · split at hr
        · cases hr
          exact hnz
        · rcases hte : try_realloc_expanding s.blocks i B (toSizeT (align n)) with ⟨bs1, r⟩
          rw [hte] at hr
          cases r with
          | none => exact initNZ_realloc_move { s with blocks := bs1 } B _ p s' hnz hr
          | some bf =>
              simp only at hr
              split at hr
              · cases hr
                exact hnz
              · exact initNZ_expand_block_realloc { s with blocks := bs1 } i B _ p s' hnz hr
    · by_cases hF : B.status = STATUS_FREE
      · simp only [os_realloc, if_neg hn, if_neg hp, hf, hB, if_pos hF] at hr
        cases hr
        exact h
      · by_cases hM : B.status = STATUS_MAPPED
        · simp only [os_realloc, if_neg hn, if_neg hp, hf, hB, if_neg hF, if_pos hM] at hr
          cases hm : os_malloc s n with
          | none => rw [hm] at hr; cases hr
          | some r =>
              obtain ⟨adr, s1⟩ := r
              rw [hm] at hr
              cases hr
              exact initInv_os_free _ ptr (initInv_os_malloc s n _ s1 h hm)
        · simp only [os_realloc, if_neg hn, if_neg hp, hf, hB, if_neg hF, if_neg hM,
            if_neg hA] at hr
          cases hr
          exact h

theorem reachable_initInv (s : Heap) (h : Reachable s) : InitInv s := by
  induction h with
  | fresh brk0 map0 mem0 => intro _; rfl
  | malloc s s' n p _ hr ih => exact initInv_os_malloc s n p s' ih hr
  | free s ptr _ ih => exact initInv_os_free s ptr ih
  | calloc s s' nmemb n p _ hr ih => exact initInv_os_calloc s nmemb n p s' ih hr
  | realloc s s' ptr n p _ hr ih => exact initInv_os_realloc s ptr n p s' ih hr

/-! ### Lemmas: the blocks in use across `os_malloc` -/

theorem isUsed_of_free {b : Block} (h : b.status = STATUS_FREE) : isUsed b = false := by
  simp [isUsed, h]

theorem used_blocks_append (l1 l2 : List Block) :
    used_blocks (l1 ++ l2) = used_blocks l1 ++ used_blocks l2 := by
  simp [used_blocks]

theorem used_blocks_cons_free {b : Block} (h : b.status = STATUS_FREE) (l : List Block) :
    used_blocks (b :: l) = used_blocks l := by
  simp [used_blocks, List.filter_cons, isUsed_of_free h]

theorem used_blocks_length_le (l : List Block) : (used_blocks l).length ≤ l.length :=
  List.length_filter_le _ _

theorem used_coalesce_loop : ∀ (rest : List Block) (cur : Block),
    used_blocks (coalesce_loop cur rest) = used_blocks (cur :: rest)
  | [], cur => rfl
  | nxt :: rest, cur => by
      by_cases hff : cur.status = STATUS_FREE ∧ nxt.status = STATUS_FREE
      · simp only [coalesce_loop, if_pos hff]
        rw [used_coalesce_loop rest _, used_blocks_cons_free hff.1, used_blocks_cons_free hff.2]
        exact used_blocks_cons_free (b := { cur with size := wadd cur.size (wadd nxt.size META) })
          hff.1 rest
      · simp only [coalesce_loop, if_neg hff]
        have ih := used_coalesce_loop rest nxt
        simp only [used_blocks, List.filter_cons] at ih ⊢
        rw [ih]

theorem used_coalesce (bs : List Block) : used_blocks (coalesce bs) = used_blocks bs := by
  cases bs with
  | nil => rfl
  | cons b rest => exact used_coalesce_loop rest b

theorem usedStep_splice (pre Y X tl : List Block) (hY : used_blocks Y = [])
    (hX : (used_blocks X).length ≤ 1) : UsedStep (pre ++ Y ++ tl) (pre ++ X ++ tl) :=
  ⟨used_blocks pre, used_blocks tl, used_blocks X,
    by simp [used_blocks_append, hY], by simp [used_blocks_append], hX⟩

theorem usedStep_refl (bs : List Block) : UsedStep bs bs :=
  ⟨used_blocks bs, [], [], by simp, by simp, by simp⟩

theorem usedStep_congr {a b c : List Block} (h : used_blocks a = used_blocks b)
    (hs : UsedStep b c) : UsedStep a c := by
  obtain ⟨l1, l2, x, h1, h2, h3⟩ := hs
  exact ⟨l1, l2, x, h ▸ h1, h2, h3⟩

theorem usedStep_sublist {old new : List Block} (h : UsedStep old new) :
    (used_blocks old).Sublist new := by
  obtain ⟨l1, l2, x, h1, h2, _⟩ := h
  have h3 : (used_blocks old).Sublist (used_blocks new) := by
    rw [h1, h2, List.append_assoc]
    exact List.Sublist.append (List.Sublist.refl l1) (List.sublist_append_right x l2)
  exact h3.trans (List.filter_sublist new)

theorem usedStep_length {old new : List Block} (h : UsedStep old new) :
    (used_blocks new).length ≤ (used_blocks old).length + 1 := by
  obtain ⟨l1, l2, x, h1, h2, h3⟩ := h
  rw [h1, h2]
  simp only [List.length_append]
  omega

theorem usedStep_nil (X : List Block) (h : (used_blocks X).length ≤ 1) : UsedStep [] X :=
  ⟨[], [], used_blocks X, rfl, by simp, h⟩

theorem usedStep_add_new_mapped_block (s : Heap) (size p : Nat) (s' : Heap)
    (hr : add_new_mapped_block s size = some (p, s')) : UsedStep s.blocks s'.blocks := by
  have key : ∀ new : Block, UsedStep s.blocks (s.blocks ++ [new]) := fun new => by
    have := usedStep_splice s.blocks [] [new] [] rfl (used_blocks_length_le [new])
    simpa using this
  rw [(add_new_mapped_block_some s size p s' hr).2.2.1]
  exact key _

theorem usedStep_add_new_alloced_block (s : Heap) (size p : Nat) (s' : Heap) (h : InitInv s)
    (hr : add_new_alloced_block s size = some (p, s')) : UsedStep s.blocks s'.blocks := by
  simp only [add_new_alloced_block] at hr
  split at hr
  · split at hr
    · cases hr
    · rename_i last hl
      obtain ⟨pre, tl, hbs, hlen⟩ := blocks_split _ _ _ hl
      split at hr
      · rename_i hF
        cases hr
        simp only
        rw [← hlen]
        conv => rhs; rw [hbs]
        rw [modifyAt_append]
        have := usedStep_splice pre [last]
          [{ last with status := STATUS_ALLOC, size := size }] tl
          (by rw [used_blocks_cons_free hF]; rfl) (used_blocks_length_le _)
        rw [hbs]
        simpa using this
      · split at hr
        · rename_i hM
          cases hr
          simp only
          have hz : last_alloced_idx s.blocks = 0 := by
            cases hb : s.blocks with
            | nil => rfl
            | cons b0 rest =>
                rw [hb] at hl
                exact last_alloced_mapped_zero b0 rest last hl hM
          rw [hz, List.drop_zero]
          have := usedStep_splice [] []
            [{ addr := s.brk, size := size, status := MMAP_THRESHOLD }] s.blocks rfl
            (used_blocks_length_le _)
          simpa using this
        · cases hr
          simp only
          rw [← hlen]
          conv => rhs; rw [hbs]
          rw [insertAfter_append]
          have := usedStep_splice (pre ++ [last]) []
            [{ addr := wadd (wadd last.addr last.size) META, size := size,
               status := STATUS_ALLOC }] tl rfl (used_blocks_length_le _)
          rw [hbs]
          simpa using this
  · rename_i hi
    have h0 : s.initialised = 0 := by simpa using hi
    cases hr
    simp only
    rw [h h0]
    split
    · exact usedStep_nil _
        (by simp [split_block, used_blocks, isUsed, STATUS_FREE, STATUS_ALLOC, STATUS_MAPPED])
    · exact usedStep_nil _ (used_blocks_length_le _)

theorem usedStep_add_new_block (s : Heap) (size p : Nat) (s' : Heap) (h : InitInv s)
    (hr : add_new_block s size = some (p, s')) : UsedStep s.blocks s'.blocks := by
  simp only [add_new_block] at hr
  split at hr
  · exact usedStep_add_new_mapped_block s size p s' hr
  · exact usedStep_add_new_alloced_block s size p s' h hr

theorem usedStep_os_malloc (s : Heap) (n p : Nat) (s' : Heap) (h : InitInv s)
    (hr : os_malloc s n = some (p, s')) : UsedStep s.blocks s'.blocks := by
  by_cases hn : n = 0
  · simp only [os_malloc, if_pos hn] at hr
    cases hr
    exact usedStep_refl _
  · simp only [os_malloc, if_neg hn] at hr
    apply usedStep_congr (used_coalesce s.blocks).symm
    cases hb : best_fit_loop (toSizeT (align n)) (coalesce s.blocks) 0 none with
    | none =>
        rw [find_best_fit_none s _ hb] at hr
        have hi : InitInv { s with blocks := coalesce s.blocks } := by
          intro h0
          have : s.blocks = [] := h h0
          show coalesce s.blocks = []
          rw [this]
          rfl
        exact usedStep_add_new_block _ _ p s' hi hr
    | some kc =>
        obtain ⟨k, c⟩ := kc
        obtain ⟨hk, hc, _, _⟩ := best_fit_loop_top _ _ k c hb
        obtain ⟨pre, tl, hbs, hlen⟩ := blocks_split _ _ _ hk
        have hY : used_blocks [c] = [] := by rw [used_blocks_cons_free hc.1]; rfl
        rw [find_best_fit_some s _ k c hb] at hr
        by_cases hsp : toInt32 (wsub c.size (toSizeT (align n))) > get_block_meta_size
        · rw [if_pos hsp] at hr
          simp only [Option.map_eq_some'] at hr
          obtain ⟨a, _, ha⟩ := hr
          cases ha
          show UsedStep _ (split_block (coalesce s.blocks) k (toSizeT (align n)))
          rw [← hlen, hbs, split_block_append]
          have := usedStep_splice pre [c]
            [{ c with size := toSizeT (align n), status := STATUS_ALLOC },
             { addr := wadd (wadd c.addr (toSizeT (align n))) META,
               size := wsub (wsub c.size (toSizeT (align n))) META, status := STATUS_FREE }] tl hY
            (by simp [used_blocks, isUsed, STATUS_FREE, STATUS_ALLOC, STATUS_MAPPED])
          simpa using this
        · rw [if_neg hsp] at hr
          simp only [Option.map_eq_some'] at hr
          obtain ⟨a, _, ha⟩ := hr
          cases ha
          show UsedStep _ (modifyAt (fun b => { b with status := STATUS_ALLOC })
            (coalesce s.blocks) k)
          rw [← hlen, hbs, modifyAt_append]
          have := usedStep_splice pre [c] [{ c with status := STATUS_ALLOC }] tl hY
            (used_blocks_length_le _)
          simpa using this
theorem isLive_isUsed (b : Block) (h : isLive b = true) : isUsed b = true := by
  simp only [isLive, Bool.or_eq_true, beq_iff_eq] at h
  simp only [isUsed, bne_iff_ne, ne_eq]
  rcases h with h | h <;> rw [h] <;> decide

theorem live_sublist_used (bs : List Block) : (live_blocks bs).Sublist (used_blocks bs) := by
  induction bs with
  | nil => exact List.Sublist.refl _
  | cons b rest ih =>
      simp only [live_blocks, used_blocks, List.filter_cons] at ih ⊢
      cases hl : isLive b with
      | true =>
          rw [isLive_isUsed b hl]
          exact List.Sublist.cons₂ b ih
      | false =>
          cases isUsed b with
          | true => exact List.Sublist.cons b ih
          | false => exact ih

theorem coalesce_loop_length : ∀ (rest : List Block) (cur : Block),
    (coalesce_loop cur rest).length ≤ rest.length + 1
  | [], _ => Nat.le_refl _
  | nxt :: rest, cur => by
      by_cases hff : cur.status = STATUS_FREE ∧ nxt.status = STATUS_FREE
      · simp only [coalesce_loop, if_pos hff, List.length_cons]
        have := coalesce_loop_length rest { cur with size := wadd cur.size (wadd nxt.size META) }
        omega
      · simp only [coalesce_loop, if_neg hff, List.length_cons]
        have := coalesce_loop_length rest nxt
        omega

theorem coalesce_length (bs : List Block) : (coalesce bs).length ≤ bs.length := by
  cases bs with
  | nil => exact Nat.le_refl _
  | cons b rest => exact coalesce_loop_length rest b

theorem split_block_length : ∀ (bs : List Block) (i size : Nat),
    (split_block bs i size).length ≤ bs.length + 1
  | [], _, _ => by simp [split_block]
  | b :: rest, 0, size => by simp [split_block]
  | b :: rest, i + 1, size => by
      have := split_block_length rest i size
      simp only [split_block, List.length_cons]
      omega

theorem insertAfter_length : ∀ (new : Block) (bs : List Block) (i : Nat),
    (insertAfter new bs i).length ≤ bs.length + 1
  | _, [], _ => by simp [insertAfter]
  | new, b :: rest, 0 => by simp [insertAfter]
  | new, b :: rest, i + 1 => by
      have := insertAfter_length new rest i
      simp only [insertAfter, List.length_cons]
      omega

theorem length_add_new_alloced_block (s : Heap) (size p : Nat) (s' : Heap)
    (hr : add_new_alloced_block s size = some (p, s')) :
    s'.blocks.length ≤ s.blocks.length + 1 ∨ s'.blocks.length ≤ 2 := by
  simp only [add_new_alloced_block] at hr
  split at hr
  · left
    split at hr
    · cases hr
    · split at hr
      · cases hr
        simp only [modifyAt_length]
        omega
      · split at hr
        · cases hr
          simp only [List.length_cons, List.length_drop]
          omega
        · cases hr
          exact insertAfter_length _ _ _
  · right
    cases hr
    simp only
    split
    · exact split_block_length [_] 0 size
    · simp

theorem length_add_new_block (s : Heap) (size p : Nat) (s' : Heap)
    (hr : add_new_block s size = some (p, s')) :
    s'.blocks.length ≤ s.blocks.length + 1 ∨ s'.blocks.length ≤ 2 := by
  simp only [add_new_block] at hr
  split at hr
  · left
    rw [(add_new_mapped_block_some s size p s' hr).2.2.1]
    simp
  · exact length_add_new_alloced_block s size p s' hr

theorem length_os_malloc (s : Heap) (n p : Nat) (s' : Heap)
    (hr : os_malloc s n = some (p, s')) :
    s'.blocks.length ≤ s.blocks.length + 1 ∨ s'.blocks.length ≤ 2 := by
  have hco := coalesce_length s.blocks
  by_cases hn : n = 0
  · simp only [os_malloc, if_pos hn] at hr
    cases hr
    left
    omega
  · simp only [os_malloc, if_neg hn] at hr
    cases hb : best_fit_loop (toSizeT (align n)) (coalesce s.blocks) 0 none with
    | none =>
        rw [find_best_fit_none s _ hb] at hr
        rcases length_add_new_block _ _ p s' hr with h | h
        · left
          have e : ({ s with blocks := coalesce s.blocks } : Heap).blocks = coalesce s.blocks := rfl
          rw [e] at h
          omega
        · exact Or.inr h
    | some kc =>
        obtain ⟨k, c⟩ := kc
        rw [find_best_fit_some s _ k c hb] at hr
        left
        by_cases hsp : toInt32 (wsub c.size (toSizeT (align n))) > get_block_meta_size
        · rw [if_pos hsp] at hr
          simp only [Option.map_eq_some'] at hr
          obtain ⟨a, _, ha⟩ := hr
          cases ha
          have := split_block_length (coalesce s.blocks) k (toSizeT (align n))
          show (split_block (coalesce s.blocks) k (toSizeT (align n))).length ≤ _
          omega
        · rw [if_neg hsp] at hr
          simp only [Option.map_eq_some'] at hr
          obtain ⟨a, _, ha⟩ := hr
          cases ha
          show (modifyAt (fun b => { b with status := STATUS_ALLOC })
            (coalesce s.blocks) k).length ≤ _
          rw [modifyAt_length]
          omega

/-- C24 (counterexample): the first `allocate(64)` of a fresh process creates
the arena block and splits it; the list goes from no block to two blocks, the
`ALLOC` block of 64 bytes and the `FREE` remainder. -/
theorem C24_first_allocation_adds_two_blocks :
    ∃ p s', os_malloc (fresh 1000000 70000000000 (fun _ => 0)) 64 = some (p, s') ∧
      Reachable (fresh 1000000 70000000000 (fun _ => 0)) ∧
      (fresh 1000000 70000000000 (fun _ => 0)).blocks = [] ∧
      s'.blocks =
        [{ addr := 1000000, size := 64, status := STATUS_ALLOC },
         { addr := 1000088, size := 130960, status := STATUS_FREE }] ∧
      s'.blocks.length = (fresh 1000000 70000000000 (fun _ => 0)).blocks.length + 2 :=
  ⟨_, _, rfl, Reachable.fresh 1000000 70000000000 (fun _ => 0), rfl, rfl, rfl⟩

/-- C24 (amended): in every reachable state whose blocks do not overlap, a call
`allocate(n)` that returns keeps every block that was not `FREE` before the
call (so every `ALLOC` and every `MAPPED` block), with the same header address,
size and status and in the same relative order; the blocks in use of the new
list are those of the old list with at most one block inserted; and the list
grows by at most one block, except that it may go from empty to two blocks. -/
theorem C24_malloc_keeps_live_blocks (s : Heap) (hreach : Reachable s)
    (hlay : ExactLayout s.blocks) (n p : Nat) (s' : Heap)
    (hr : os_malloc s n = some (p, s')) :
    (live_blocks s.blocks).Sublist s'.blocks ∧
    (used_blocks s.blocks).Sublist s'.blocks ∧
    (∃ l1 l2 x : List Block,
      used_blocks s.blocks = l1 ++ l2 ∧ used_blocks s'.blocks = l1 ++ x ++ l2 ∧ x.length ≤ 1) ∧
    s'.blocks.length ≤ s.blocks.length + 2 ∧
    (s.blocks ≠ [] → s'.blocks.length ≤ s.blocks.length + 1) := by
  have hstep := usedStep_os_malloc s n p s' (reachable_initInv s hreach) hr
  have hlen := length_os_malloc s n p s' hr
  refine ⟨(live_sublist_used s.blocks).trans (usedStep_sublist hstep), usedStep_sublist hstep,
    hstep, by omega, fun hne => ?_⟩
  have : 1 ≤ s.blocks.length := by
    cases hb : s.blocks with
    | nil => exact absurd hb hne
    | cons b rest => simp
  omega

/-- C24 (amended, witness): `allocate(200)` in the state after `allocate(64)`. -/
theorem C24_malloc_keeps_live_blocks_witness :
    ∃ p s', os_malloc after_malloc_64 200 = some (p, s') ∧
      ExactLayout after_malloc_64.blocks ∧
      live_blocks after_malloc_64.blocks = [{ addr := 1000000, size := 64, status := STATUS_ALLOC }] ∧
      (live_blocks after_malloc_64.blocks).Sublist s'.blocks ∧
      (used_blocks after_malloc_64.blocks).Sublist s'.blocks ∧
      (∃ l1 l2 x : List Block,
        used_blocks after_malloc_64.blocks = l1 ++ l2 ∧
        used_blocks s'.blocks = l1 ++ x ++ l2 ∧ x.length ≤ 1) ∧
      s'.blocks.length ≤ after_malloc_64.blocks.length + 2 ∧
      (after_malloc_64.blocks ≠ [] → s'.blocks.length ≤ after_malloc_64.blocks.length + 1) :=
  ⟨_, _, rfl, by decide, by decide,
    C24_malloc_keeps_live_blocks after_malloc_64
      (Reachable.malloc (fresh 1000000 70000000000 (fun _ => 0)) after_malloc_64 64 1000024
        (Reachable.fresh 1000000 70000000000 (fun _ => 0)) rfl) (by decide) 200 _ _ rfl⟩

end MemoryAllocator
